import Mathlib

/-!
# cppbor: a shallow embedding of the CBOR codec in `cppbor.cpp` / `cppbor.hpp`

Conventions of the embedding.

* A byte is a natural number; a `std::vector<uint8_t>` or `std::string` is a `List Nat`.
* `unsigned int` values are natural numbers reduced modulo `2^32` (`u32`), `int` values are
  integers in two's complement range (`to_int`); `size_t` values are unbounded naturals.
* The host is little-endian (the `__ORDER_LITTLE_ENDIAN__` branches of the source).
* `in[i]` performs no bounds check in C++.  A read at an index beyond the end of the vector is
  modelled as returning the byte `oob i` of an unspecified memory `oob : Nat → Nat`; the
  general theorems hold for every `oob`, concrete instances are evaluated on the all-zero one.
  A theorem that needs what is read there to be a byte says so (`oob i < 256`).
* A container built from a pointer range whose end lies before its beginning (possible only
  after the `unsigned int` cursor has wrapped) is modelled as the `std::length_error` that the
  standard library raises for it.
* A `double` is held as its 64-bit IEEE-754 pattern.
* Recursion depth of `construct_from` is bounded by an explicit `fuel`; the loops over array
  items and map pairs are bounded by their counts and need no fuel of their own.
-/

namespace cppbor

/-! ## Data model -/

/-- The variant `cbor_baseclass`, alternatives in declaration order
`int, double, std::string, std::monostate, std::vector<uint8_t>, cbor_array, cbor_map`.
A `cbor_map` is the list of its entries in iteration (key) order. -/
inductive cbor_variant where
  | integer (val : Int)
  | floating_point (val : Nat)
  | unicode_string (val : List Nat)
  | none
  | bytes (val : List Nat)
  | array (val : List cbor_variant)
  | map (val : List (cbor_variant × cbor_variant))

/-- Exceptions of the decoder, one constructor for each `throw` of `cppbor.cpp`. -/
inductive error where
  /-- `length_error("No header byte while decoding cbor")`, line 31. -/
  | no_header_byte
  /-- `runtime_error("A negative length was given for a byte array or string")`, line 43. -/
  | negative_length
  /-- `length_error("Insufficient data bytes while decoding cbor")`, line 46. -/
  | insufficient_data
  /-- `runtime_error("Length of a (map) key was expressed as a negative number")`, line 74. -/
  | key_negative_length
  /-- `runtime_error("Asked to process a map entry whose key is not a string")`, line 84. -/
  | key_not_string
  /-- `runtime_error("Asked to process a major type 7 that is neither a float nor a double")`. -/
  | bad_major7
  /-- `runtime_error("Asked to handle an unknown major type")`, line 122. -/
  | unknown_major
  /-- `length_error("Insufficient additional size byte(s) while decoding cbor")`, line 257. -/
  | insufficient_additional
  /-- `range_error("This implementation does not support 64 bit integers")`, line 263. -/
  | no_64bit
  /-- `runtime_error("This implementation does not support indefinite length types")`. -/
  | no_indefinite
  /-- `runtime_error("Don't know how to handle additional data in header")`, line 265. -/
  | unknown_additional
  /-- `std::length_error` of the standard library when a container is built from a pointer
  range whose end lies before its beginning. -/
  | range_length
  deriving DecidableEq, Repr

/-- Result of running a piece of the decoder: a value, an exception, or exhausted `fuel`. -/
inductive outcome (α : Type) where
  | value (a : α)
  | thrown (e : error)
  | no_fuel

/-! ## Machine arithmetic -/

/-- Reduction to `unsigned int`. -/
def u32 (n : Nat) : Nat := n % 2 ^ 32

/-- `static_cast<int>` of an unsigned value (two's complement). -/
def to_int (x : Nat) : Int :=
  if x % 2 ^ 32 < 2 ^ 31 then ((x % 2 ^ 32 : Nat) : Int) else ((x % 2 ^ 32 : Nat) : Int) - 2 ^ 32

/-- `static_cast<unsigned int>` of an `int`. -/
def to_unsigned (x : Int) : Nat := (x % 2 ^ 32).toNat

/-- Result of an `int` operation, wrapped to the 32-bit two's complement range. -/
def wrap_int (x : Int) : Int := to_int (to_unsigned x)

/-- Byte swap of a 16-bit value: `htons` on a little-endian host. -/
def htons (x : Nat) : Nat := x % 256 * 256 + x / 256 % 256

/-- Byte swap of a 32-bit value: `htonl` on a little-endian host. -/
def htonl (x : Nat) : Nat :=
  x % 256 * 16777216 + x / 256 % 256 * 65536 + x / 65536 % 256 * 256 + x / 16777216 % 256

/-- Inverse direction `ntohs`; the same byte swap. -/
def ntohs (x : Nat) : Nat := htons x

/-- Inverse direction `ntohl`; the same byte swap. -/
def ntohl (x : Nat) : Nat := htonl x

/-! ## Header structures -/

/-- The one-byte `header(m, a)`: both arguments are cast to `uint8_t` and stored in the
bit-fields `major : 3` (top bits) and `additional : 5` (low bits). -/
def header (m a : Nat) : Nat := m % 256 % 8 * 32 + a % 256 % 32

/-- Bit-field `major` of a header byte. -/
def major (h : Nat) : Nat := h / 32 % 8

/-- Bit-field `additional` of a header byte. -/
def additional (h : Nat) : Nat := h % 32

/-- Memory image (2 bytes) of `header_byte(m, a, d)`. -/
def header_byte (m a d : Nat) : List Nat := [header m a, d % 256]

/-- Memory image (3 bytes) of `header_short(m, a, d)`: `d` is stored in native order. -/
def header_short (m a d : Nat) : List Nat := [header m a, d % 256, d / 256 % 256]

/-- Memory image (5 bytes) of `header_int(m, a, d)`: `d` is stored in native order. -/
def header_int (m a d : Nat) : List Nat :=
  [header m a, d % 256, d / 256 % 256, d / 65536 % 256, d / 16777216 % 256]

/-- The function `cbor_variant::integer_length`. -/
def integer_length (additional : Nat) : Nat :=
  if additional < 24 then 1
  else if additional = 24 then 2
  else if additional = 25 then 3
  else 5

/-- The function `cbor_variant::append_integer_header`; `out` is the vector appended to. -/
def append_integer_header (major val : Nat) (out : List Nat) : List Nat :=
  if val < 24 then out ++ [header major val]
  else if val < 256 then out ++ header_byte major 24 (val % 256)
  else if val < 65536 then out ++ header_short major 25 (htons (val % 65536))
  else out ++ header_int major 26 (htonl val)

/-! ## Floating point images -/

/-- Object representation of a `double` with bit pattern `bits` (8 bytes, native order). -/
def double_bytes (bits : Nat) : List Nat :=
  [bits % 256, bits / 2 ^ 8 % 256, bits / 2 ^ 16 % 256, bits / 2 ^ 24 % 256,
   bits / 2 ^ 32 % 256, bits / 2 ^ 40 % 256, bits / 2 ^ 48 % 256, bits / 2 ^ 56 % 256]

/-- Bit pattern of the `double` whose object representation is `b`. -/
def double_of_bytes (b : List Nat) : Nat :=
  b.getD 0 0 + b.getD 1 0 * 2 ^ 8 + b.getD 2 0 * 2 ^ 16 + b.getD 3 0 * 2 ^ 24
    + b.getD 4 0 * 2 ^ 32 + b.getD 5 0 * 2 ^ 40 + b.getD 6 0 * 2 ^ 48 + b.getD 7 0 * 2 ^ 56

/-- Bit pattern of the `float` whose object representation is `b`. -/
def float_of_bytes (b : List Nat) : Nat :=
  b.getD 0 0 + b.getD 1 0 * 2 ^ 8 + b.getD 2 0 * 2 ^ 16 + b.getD 3 0 * 2 ^ 24

/-- The function `cbor_variant::double_to_big_endian`: `p_dest[i] = p_src[7 - i]`. -/
def double_to_big_endian (p_src : List Nat) : List Nat :=
  [p_src.getD 7 0, p_src.getD 6 0, p_src.getD 5 0, p_src.getD 4 0,
   p_src.getD 3 0, p_src.getD 2 0, p_src.getD 1 0, p_src.getD 0 0]

/-- The function `cbor_variant::float_to_big_endian`: `p_dest[i] = p_src[3 - i]`. -/
def float_to_big_endian (p_src : List Nat) : List Nat :=
  [p_src.getD 3 0, p_src.getD 2 0, p_src.getD 1 0, p_src.getD 0 0]

/-- Conversion `float → double` on bit patterns (exact widening; a signalling NaN is quieted). -/
def float_to_double (f : Nat) : Nat :=
  let s := f / 2 ^ 31 % 2
  let e := f / 2 ^ 23 % 256
  let m := f % 2 ^ 23
  if e = 255 then
    s * 2 ^ 63 + 2047 * 2 ^ 52 + (if m = 0 then 0 else m * 2 ^ 29 % 2 ^ 51 + 2 ^ 51)
  else if e = 0 then
    if m = 0 then s * 2 ^ 63
    else s * 2 ^ 63 + (Nat.log2 m + 874) * 2 ^ 52 + (m - 2 ^ Nat.log2 m) * 2 ^ (52 - Nat.log2 m)
  else s * 2 ^ 63 + (e + 896) * 2 ^ 52 + m * 2 ^ 29

/-! ## Encoding -/

/-- Characters that a map key exposes to `encode_onto` through `size()`, `begin()`, `end()`.
These members exist for the string and byte-vector alternatives; `other` stands for what the
remaining alternatives would expose. -/
def key_chars (other : cbor_variant → List Nat) : cbor_variant → List Nat
  | .unicode_string s => s
  | .bytes b => b
  | k => other k

mutual
/-- The method `cbor_variant::encode_onto`; returns the vector `*in` after the call. -/
def encode_onto (other : cbor_variant → List Nat) : cbor_variant → List Nat → List Nat
  | .integer val, out =>
    if 0 ≤ val then append_integer_header 0 (to_unsigned val) out
    else append_integer_header 1 (to_unsigned (wrap_int (wrap_int (-val) - 1))) out
  | .floating_point val, out =>
    (out ++ [header 7 27]) ++ double_to_big_endian (double_bytes val)
  | .bytes val, out => append_integer_header 2 (u32 val.length) out ++ val
  | .unicode_string val, out => append_integer_header 3 (u32 val.length) out ++ val
  | .array val, out => encode_array other val (append_integer_header 4 (u32 val.length) out)
  | .map val, out => encode_map other val (append_integer_header 5 (u32 val.length) out)
  | .none, out => out ++ [0xf6]
/-- The loop `for (auto& v : val) v.encode_onto(in)` of the array case. -/
def encode_array (other : cbor_variant → List Nat) : List cbor_variant → List Nat → List Nat
  | [], out => out
  | v :: vs, out => encode_array other vs (encode_onto other v out)
/-- The loop over the entries of the map case: key as text, then the value. -/
def encode_map (other : cbor_variant → List Nat) :
    List (cbor_variant × cbor_variant) → List Nat → List Nat
  | [], out => out
  | (k, v) :: rest, out =>
    encode_map other rest
      (encode_onto other v
        (append_integer_header 3 (u32 (key_chars other k).length) out ++ key_chars other k))
end

/-- Encoding of a single value onto an empty vector. -/
def encode (other : cbor_variant → List Nat) (v : cbor_variant) : List Nat :=
  encode_onto other v []

/-! ## Ordering of keys and map insertion -/

/-- Lexicographic `operator<` of `std::string` / `std::vector<uint8_t>` (unsigned bytes). -/
def bytes_lt : List Nat → List Nat → Bool
  | [], [] => false
  | [], _ :: _ => true
  | _ :: _, [] => false
  | a :: as, b :: bs => if a < b then true else if b < a then false else bytes_lt as bs

/-- Whether a `double` bit pattern is a NaN. -/
def double_is_nan (a : Nat) : Bool := a / 2 ^ 52 % 2048 = 2047 ∧ a % 2 ^ 52 ≠ 0

/-- IEEE-754 `<` on `double` bit patterns. -/
def double_lt (a b : Nat) : Bool :=
  if double_is_nan a || double_is_nan b then false
  else if a / 2 ^ 63 % 2 = 0 then
    (if b / 2 ^ 63 % 2 = 0 then decide (a % 2 ^ 63 < b % 2 ^ 63) else false)
  else
    (if b / 2 ^ 63 % 2 = 0 then !(a % 2 ^ 63 = 0 && b % 2 ^ 63 = 0)
     else decide (b % 2 ^ 63 < a % 2 ^ 63))

/-- The method `index()` of the variant. -/
def cbor_variant.index : cbor_variant → Nat
  | .integer _ => 0
  | .floating_point _ => 1
  | .unicode_string _ => 2
  | .none => 3
  | .bytes _ => 4
  | .array _ => 5
  | .map _ => 6

mutual
/-- The `operator<` of `std::variant`: by index first, then by the held values. -/
def variant_lt : cbor_variant → cbor_variant → Bool
  | .integer a, .integer b => decide (a < b)
  | .floating_point a, .floating_point b => double_lt a b
  | .unicode_string a, .unicode_string b => bytes_lt a b
  | .none, .none => false
  | .bytes a, .bytes b => bytes_lt a b
  | .array a, .array b => array_lt a b
  | .map a, .map b => map_lt a b
  | a, b => decide (a.index < b.index)
termination_by a b => sizeOf a + sizeOf b
/-- Lexicographic `operator<` of `cbor_array`. -/
def array_lt : List cbor_variant → List cbor_variant → Bool
  | [], [] => false
  | [], _ :: _ => true
  | _ :: _, [] => false
  | a :: as, b :: bs =>
    if variant_lt a b then true else if variant_lt b a then false else array_lt as bs
termination_by a b => sizeOf a + sizeOf b
/-- Lexicographic `operator<` of `cbor_map`, entries compared with `operator<` of `std::pair`. -/
def map_lt : List (cbor_variant × cbor_variant) → List (cbor_variant × cbor_variant) → Bool
  | [], [] => false
  | [], _ :: _ => true
  | _ :: _, [] => false
  | (k1, v1) :: as, (k2, v2) :: bs =>
    if variant_lt k1 k2 || (!variant_lt k2 k1 && variant_lt v1 v2) then true
    else if variant_lt k2 k1 || (!variant_lt k1 k2 && variant_lt v2 v1) then false
    else map_lt as bs
termination_by a b => sizeOf a + sizeOf b
end

/-- The assignment `m[key] = v` of `std::map`: overwrite the entry with an equivalent key, or
insert a new entry at its place in key order. -/
def map_set (m : List (cbor_variant × cbor_variant)) (key v : cbor_variant) :
    List (cbor_variant × cbor_variant) :=
  match m with
  | [] => [(key, v)]
  | (k, w) :: rest =>
    if variant_lt key k then (key, v) :: (k, w) :: rest
    else if variant_lt k key then (k, w) :: map_set rest key v
    else (k, v) :: rest

/-! ## Decoding -/

/-- The read `in[i]`: the byte of the vector, or of the memory behind it when `i` is beyond
the end. -/
def rd (inp : List Nat) (oob : Nat → Nat) (i : Nat) : Nat := inp.getD i (oob i)

/-- The container built from the pointer range `[&in[first], &in[last])`, for
`first ≤ last`. -/
def range_bytes (inp : List Nat) (oob : Nat → Nat) (first last : Nat) : List Nat :=
  (List.range (last - first)).map (fun i => rd inp oob (first + i))

/-- Value of `*reinterpret_cast<const unsigned short*>(&in[i])`. -/
def load16 (inp : List Nat) (oob : Nat → Nat) (i : Nat) : Nat :=
  rd inp oob i + rd inp oob (i + 1) * 256

/-- Value of `*reinterpret_cast<const unsigned int*>(&in[i])`. -/
def load32 (inp : List Nat) (oob : Nat → Nat) (i : Nat) : Nat :=
  rd inp oob i + rd inp oob (i + 1) * 256 + rd inp oob (i + 2) * 65536
    + rd inp oob (i + 3) * 16777216

/-- The function `cbor_variant::read_integer_header`.  `h` is the header byte pointed to,
`offset` the value of `*offset` on entry; the second component of the result is `*offset`
on exit, also when an exception is thrown. -/
def read_integer_header (inp : List Nat) (oob : Nat → Nat) (h : Nat) (offset : Nat) :
    outcome Int × Nat :=
  let first_offset := offset
  let offset := u32 (offset + integer_length (additional h))
  if additional h < 24 then (.value (additional h : Nat), offset)
  else if inp.length < offset then (.thrown .insufficient_additional, offset)
  else
    let p_data := u32 (first_offset + 1)
    if additional h = 24 then (.value (rd inp oob p_data : Nat), offset)
    else if additional h = 25 then (.value (ntohs (load16 inp oob p_data) : Nat), offset)
    else if additional h = 26 then (.value (to_int (ntohl (load32 inp oob p_data))), offset)
    else if additional h = 27 then (.thrown .no_64bit, offset)
    else if additional h = 31 then (.thrown .no_indefinite, offset)
    else (.thrown .unknown_additional, offset)

/-- Modelled from the spec: `read_integer_head` is called for a map key of major type 0
(cppbor.cpp line 69) and is defined nowhere in the repository.  The spec has such a key decoded
as an Integer whose value is the header magnitude, as for major type 0 outside a map, so it is
taken to be `read_integer_header`. -/
def read_integer_head (inp : List Nat) (oob : Nat → Nat) (h : Nat) (offset : Nat) :
    outcome Int × Nat :=
  read_integer_header inp oob h offset

/-- The key part of one iteration of the map loop (cppbor.cpp lines 66 to 86): the header is
read at `*offset` without a bounds check, and the key bytes are taken without a bounds check. -/
def read_key (inp : List Nat) (oob : Nat → Nat) (offset : Nat) : outcome cbor_variant × Nat :=
  let h := rd inp oob offset
  if major h = 0 then
    match read_integer_head inp oob h offset with
    | (.value r, o) => (.value (.integer r), o)
    | (.thrown e, o) => (.thrown e, o)
    | (.no_fuel, o) => (.no_fuel, o)
  else if major h = 1 then
    match read_integer_header inp oob h offset with
    | (.value r, o) => (.value (.integer (-1 - r)), o)
    | (.thrown e, o) => (.thrown e, o)
    | (.no_fuel, o) => (.no_fuel, o)
  else if major h = 2 ∨ major h = 3 then
    match read_integer_header inp oob h offset with
    | (.value key_length, o) =>
      if key_length < 0 then (.thrown .key_negative_length, o)
      else
        let last := u32 (o + to_unsigned key_length)
        if last < o then (.thrown .range_length, o)
        else if major h = 2 then (.value (.bytes (range_bytes inp oob o last)), last)
        else (.value (.unicode_string (range_bytes inp oob o last)), last)
    | (.thrown e, o) => (.thrown e, o)
    | (.no_fuel, o) => (.no_fuel, o)
  else (.thrown .key_not_string, offset)

/-- The loop of the array case (lines 56 to 58); `dec` is the recursive call
`construct_from(in, offset)`, `remaining` the number of iterations left, `this_item` the loop
variable and `rtn` the array under construction. -/
def array_loop (dec : Nat → outcome cbor_variant × Nat) :
    (remaining : Nat) → (this_item : Nat) → (rtn : List cbor_variant) → (offset : Nat) →
    outcome (List cbor_variant) × Nat
  | 0, _, rtn, offset => (.value rtn, offset)
  | remaining + 1, this_item, rtn, offset =>
    match dec offset with
    | (.value v, o) => array_loop dec remaining (this_item + 1) (rtn.set this_item v) o
    | (.thrown e, o) => (.thrown e, o)
    | (.no_fuel, o) => (.no_fuel, o)

/-- The loop of the map case (lines 64 to 90); `pending_items` is positive exactly when the
loop body runs, `rtn` is the map under construction. -/
def map_loop (dec : Nat → outcome cbor_variant × Nat) (inp : List Nat) (oob : Nat → Nat) :
    (pending_items : Nat) → (rtn : List (cbor_variant × cbor_variant)) → (offset : Nat) →
    outcome (List (cbor_variant × cbor_variant)) × Nat
  | 0, rtn, offset => (.value rtn, offset)
  | pending_items + 1, rtn, offset =>
    match read_key inp oob offset with
    | (.value key, o) =>
      match dec o with
      | (.value v, o2) => map_loop dec inp oob pending_items (map_set rtn key v) o2
      | (.thrown e, o2) => (.thrown e, o2)
      | (.no_fuel, o2) => (.no_fuel, o2)
    | (.thrown e, o) => (.thrown e, o)
    | (.no_fuel, o) => (.no_fuel, o)

/-- The function `cbor_variant::construct_from(in, offset)`.  The second component of the
result is the value of `*offset` when the call ends, by return or by exception.  `fuel` bounds
the depth of recursive calls. -/
def construct_from : (fuel : Nat) → (inp : List Nat) → (oob : Nat → Nat) → (offset : Nat) →
    outcome cbor_variant × Nat
  | 0, _, _, offset => (.no_fuel, offset)
  | fuel + 1, inp, oob, offset =>
    if inp.length ≤ offset then (.thrown .no_header_byte, offset)
    else
      let h := rd inp oob offset
      if major h = 0 then
        match read_integer_header inp oob h offset with
        | (.value r, o) => (.value (.integer r), o)
        | (.thrown e, o) => (.thrown e, o)
        | (.no_fuel, o) => (.no_fuel, o)
      else if major h = 1 then
        match read_integer_header inp oob h offset with
        | (.value r, o) => (.value (.integer (-1 - r)), o)
        | (.thrown e, o) => (.thrown e, o)
        | (.no_fuel, o) => (.no_fuel, o)
      else if major h = 2 ∨ major h = 3 then
        match read_integer_header inp oob h offset with
        | (.value length, o) =>
          if length < 0 then (.thrown .negative_length, o)
          else
            let offset_at_begin := o
            let o := u32 (o + to_unsigned length)
            if inp.length < o then (.thrown .insufficient_data, o)
            else if o < offset_at_begin then (.thrown .range_length, o)
            else if major h = 2 then (.value (.bytes (range_bytes inp oob offset_at_begin o)), o)
            else (.value (.unicode_string (range_bytes inp oob offset_at_begin o)), o)
        | (.thrown e, o) => (.thrown e, o)
        | (.no_fuel, o) => (.no_fuel, o)
      else if major h = 4 then
        match read_integer_header inp oob h offset with
        | (.value total_items, o) =>
          match array_loop (construct_from fuel inp oob) (to_unsigned total_items) 0
              (List.replicate (to_unsigned total_items) (.integer 0)) o with
          | (.value rtn, o) => (.value (.array rtn), o)
          | (.thrown e, o) => (.thrown e, o)
          | (.no_fuel, o) => (.no_fuel, o)
        | (.thrown e, o) => (.thrown e, o)
        | (.no_fuel, o) => (.no_fuel, o)
      else if major h = 5 then
        match read_integer_header inp oob h offset with
        | (.value pending_items, o) =>
          match map_loop (construct_from fuel inp oob) inp oob pending_items.toNat [] o with
          | (.value rtn, o) => (.value (.map rtn), o)
          | (.thrown e, o) => (.thrown e, o)
          | (.no_fuel, o) => (.no_fuel, o)
        | (.thrown e, o) => (.thrown e, o)
        | (.no_fuel, o) => (.no_fuel, o)
      else if major h = 6 then
        match read_integer_header inp oob h offset with
        | (.value _, o) => construct_from fuel inp oob o
        | (.thrown e, o) => (.thrown e, o)
        | (.no_fuel, o) => (.no_fuel, o)
      else if major h = 7 then
        let first_data_byte := offset + 1
        if additional h = 26 then
          (.value (.floating_point (float_to_double (float_of_bytes (float_to_big_endian
            (range_bytes inp oob first_data_byte (first_data_byte + 4)))))), u32 (offset + 5))
        else if additional h = 27 then
          (.value (.floating_point (double_of_bytes (double_to_big_endian
            (range_bytes inp oob first_data_byte (first_data_byte + 8))))), u32 (offset + 9))
        else if additional h = 22 then (.value .none, u32 (offset + 1))
        else (.thrown .bad_major7, offset)
      else (.thrown .unknown_major, offset)

/-- The one-argument `cbor_variant::construct_from(in)`: decoding from offset 0. -/
def construct_from_start (fuel : Nat) (inp : List Nat) (oob : Nat → Nat) : outcome cbor_variant :=
  (construct_from fuel inp oob 0).1

/-! ## Notions used to state the properties -/

/-- The unsigned magnitude held in the header that starts at `offset`, in the words of the
format: additional values 0 to 23 are the magnitude itself, 24 announces one following byte,
25 a big-endian 16-bit value and 26 a big-endian 32-bit value. -/
def header_magnitude (inp : List Nat) (offset : Nat) : Nat :=
  let a := additional (inp.getD offset 0)
  if a < 24 then a
  else if a = 24 then inp.getD (offset + 1) 0
  else if a = 25 then inp.getD (offset + 1) 0 * 256 + inp.getD (offset + 2) 0
  else inp.getD (offset + 1) 0 * 16777216 + inp.getD (offset + 2) 0 * 65536
    + inp.getD (offset + 3) 0 * 256 + inp.getD (offset + 4) 0

mutual
/-- Nesting depth of a value: the number of nested `construct_from` calls its decoding takes,
keys of maps being read by the map loop itself. -/
def depth : cbor_variant → Nat
  | .array xs => depth_array xs + 1
  | .map kvs => depth_map kvs + 1
  | _ => 1
/-- Largest depth among the items of an array. -/
def depth_array : List cbor_variant → Nat
  | [] => 0
  | x :: xs => max (depth x) (depth_array xs)
/-- Largest depth among the values of a map. -/
def depth_map : List (cbor_variant × cbor_variant) → Nat
  | [] => 0
  | (_, v) :: rest => max (depth v) (depth_map rest)
end

/-- Keys of a list of map entries are strictly increasing for the key order: the list is the
content of a `std::map`. -/
def keys_increasing (kvs : List (cbor_variant × cbor_variant)) : Prop :=
  kvs.Pairwise (fun a b => variant_lt a.1 b.1 = true)

mutual
/-- Values that the codec carries through unchanged: an Integer is an `int`, a Float a 64-bit
pattern, Text and Bytes are shorter than `2 ^ 31`, and every map is a `std::map` whose keys are
Text shorter than `2 ^ 31`. -/
def representable : cbor_variant → Prop
  | .integer val => -2 ^ 31 ≤ val ∧ val < 2 ^ 31
  | .floating_point val => val < 2 ^ 64
  | .unicode_string val => val.length < 2 ^ 31
  | .none => True
  | .bytes val => val.length < 2 ^ 31
  | .array xs => representable_array xs
  | .map kvs => keys_increasing kvs ∧ representable_map kvs
/-- Every item of an array is representable. -/
def representable_array : List cbor_variant → Prop
  | [] => True
  | x :: xs => representable x ∧ representable_array xs
/-- Every entry of a map has a Text key shorter than `2 ^ 31` and a representable value. -/
def representable_map : List (cbor_variant × cbor_variant) → Prop
  | [] => True
  | (k, v) :: rest =>
    (∃ s, k = .unicode_string s ∧ s.length < 2 ^ 31) ∧ representable v ∧ representable_map rest
end

/-- An array of two byte strings and one integer whose encoding is `2 ^ 32 - 1` bytes long:
1 + (5 + (2 ^ 31 - 1)) + (5 + (2 ^ 31 - 12)) + 1. -/
def long_array : cbor_variant :=
  .array [.bytes (List.replicate (2 ^ 31 - 1) 0), .bytes (List.replicate (2 ^ 31 - 12) 0),
    .integer 0]

/-- The key/value pairs of a map item as they follow one another in the input: what the map
loop reads over `pending` iterations from `offset`, in order and without the insertion into
the map.  Used to state what the decoded map holds. -/
def map_entries (dec : Nat → outcome cbor_variant × Nat) (inp : List Nat) (oob : Nat → Nat) :
    (pending : Nat) → (offset : Nat) → outcome (List (cbor_variant × cbor_variant)) × Nat
  | 0, offset => (.value [], offset)
  | pending + 1, offset =>
    match read_key inp oob offset with
    | (.value key, o) =>
      match dec o with
      | (.value v, o2) =>
        match map_entries dec inp oob pending o2 with
        | (.value rest, o3) => (.value ((key, v) :: rest), o3)
        | (.thrown e, o3) => (.thrown e, o3)
        | (.no_fuel, o3) => (.no_fuel, o3)
      | (.thrown e, o2) => (.thrown e, o2)
      | (.no_fuel, o2) => (.no_fuel, o2)
    | (.thrown e, o) => (.thrown e, o)
    | (.no_fuel, o) => (.no_fuel, o)

/-- The alternatives a decoded map key can hold: Integer, Text or Bytes. -/
def is_key : cbor_variant → Prop
  | .integer _ => True
  | .unicode_string _ => True
  | .bytes _ => True
  | _ => False

/-- In the list of entries `l`, the last entry with key `k` carries the value `v`. -/
def last_binding (l : List (cbor_variant × cbor_variant)) (k v : cbor_variant) : Prop :=
  ∃ l1 l2, l = l1 ++ (k, v) :: l2 ∧ ∀ e ∈ l2, e.1 ≠ k

theorem header_eq (m a : Nat) (hm : m < 8) (ha : a < 32) : header m a = m * 32 + a := by
  unfold header; omega

theorem swap32_bytes (a b c d : Nat) (hb : b < 256) (hc : c < 256)
    (hd : d < 256) :
    (a * 16777216 + b * 65536 + c * 256 + d) % 256 = d ∧
    (a * 16777216 + b * 65536 + c * 256 + d) / 256 % 256 = c ∧
    (a * 16777216 + b * 65536 + c * 256 + d) / 65536 % 256 = b ∧
    (a * 16777216 + b * 65536 + c * 256 + d) / 16777216 = a := by
  omega

theorem swap16_bytes (a b : Nat) (hb : b < 256) :
    (a * 256 + b) % 256 = b ∧ (a * 256 + b) / 256 = a := by
  omega

theorem header_short_htons (m n : Nat) (hn : n < 65536) :
    header_short m 25 (htons n) = [header m 25, n / 256, n % 256] := by
  have h1 : n / 256 % 256 = n / 256 := by omega
  have := swap16_bytes (n % 256) (n / 256 % 256) (by omega)
  have h3 : n % 256 % 256 = n % 256 := by omega
  simp only [header_short, htons]
  rw [this.1, this.2, h1, h3]

theorem header_int_htonl (m n : Nat) (hn : n < 2 ^ 32) :
    header_int m 26 (htonl n)
      = [header m 26, n / 16777216, n / 65536 % 256, n / 256 % 256, n % 256] := by
  have hn' : n < 4294967296 := by simpa using hn
  have h1 : n / 16777216 % 256 = n / 16777216 := by omega
  have := swap32_bytes (n % 256) (n / 256 % 256) (n / 65536 % 256) (n / 16777216 % 256)
    (by omega) (by omega) (by omega)
  have h3 : n % 256 % 256 = n % 256 := by omega
  simp only [header_int, htonl]
  rw [this.1, this.2.1, this.2.2.1, this.2.2.2, h1, h3]

/-- C3. Minimal-length header: for a major type below 8 and an unsigned 32-bit value,
`append_integer_header` appends one byte below 24, two bytes below 256, three bytes below 65536
and five bytes otherwise, the value following the header byte in big-endian order. -/
theorem append_integer_header_minimal (m n : Nat) (hm : m < 8) (hn : n < 2 ^ 32)
    (out : List Nat) :
    (n < 24 → append_integer_header m n out = out ++ [m * 32 + n]) ∧
    (24 ≤ n → n < 256 → append_integer_header m n out = out ++ [m * 32 + 24, n]) ∧
    (256 ≤ n → n < 65536 →
      append_integer_header m n out = out ++ [m * 32 + 25, n / 256, n % 256]) ∧
    (65536 ≤ n →
      append_integer_header m n out
        = out ++ [m * 32 + 26, n / 16777216, n / 65536 % 256, n / 256 % 256, n % 256]) ∧
    (append_integer_header m n out).length
      = out.length + (if n < 24 then 1 else if n < 256 then 2 else if n < 65536 then 3 else 5) := by
  refine ⟨?_, ?_, ?_, ?_, ?_⟩
  · intro h
    simp [append_integer_header, h, header_eq m n hm (by omega)]
  · intro h1 h2
    have : ¬ n < 24 := by omega
    simp [append_integer_header, this, h2, header_byte, header_eq m 24 hm (by omega)]
  · intro h1 h2
    have a : ¬ n < 24 := by omega
    have b : ¬ n < 256 := by omega
    have c : n % 65536 = n := by omega
    simp only [append_integer_header, a, b, h2, if_true, if_false, c, header_short_htons m n h2,
      header_eq m 25 hm (by omega)]
  · intro h1
    have a : ¬ n < 24 := by omega
    have b : ¬ n < 256 := by omega
    have c : ¬ n < 65536 := by omega
    simp only [append_integer_header, a, b, c, if_false, header_int_htonl m n hn,
      header_eq m 26 hm (by omega)]
  · unfold append_integer_header
    split_ifs <;> simp [header_byte, header_short, header_int]

/-- Witness for C3: major type 3 and value 500 give a three-byte header. -/
theorem append_integer_header_minimal_witness :
    append_integer_header 3 500 [7] = [7] ++ [3 * 32 + 25, 500 / 256, 500 % 256] :=
  (append_integer_header_minimal 3 500 (by decide) (by decide) [7]).2.2.1 (by decide) (by decide)

theorem rd_lt (inp : List Nat) (oob : Nat → Nat) (i : Nat) (h : i < inp.length) :
    rd inp oob i = inp.getD i 0 := by
  unfold rd
  rw [List.getD_eq_getElem _ _ h, List.getD_eq_getElem _ _ h]

theorem getD_lt_256 (inp : List Nat) (hb : ∀ b ∈ inp, b < 256) (i : Nat) :
    inp.getD i 0 < 256 := by
  by_cases h : i < inp.length
  · rw [List.getD_eq_getElem _ _ h]; exact hb _ (List.getElem_mem _)
  · rw [List.getD_eq_default _ _ (by omega)]; omega

theorem major_lt (h : Nat) : major h < 8 := by unfold major; omega
theorem additional_lt (h : Nat) : additional h < 32 := by unfold additional; omega

theorem u32_of_lt (n : Nat) (h : n < 2 ^ 32) : u32 n = n := by
  unfold u32; exact Nat.mod_eq_of_lt h

theorem to_int_of_lt (x : Nat) (h : x < 2 ^ 31) : to_int x = (x : Int) := by
  have h' : x < 2147483648 := by simpa using h
  have : x % 2 ^ 32 = x := Nat.mod_eq_of_lt (by omega)
  unfold to_int
  rw [this, if_pos h]

theorem htons_le_bytes (b0 b1 : Nat) (h0 : b0 < 256) (h1 : b1 < 256) :
    htons (b0 + b1 * 256) = b0 * 256 + b1 := by
  have e1 : (b0 + b1 * 256) % 256 = b0 := by omega
  have e2 : (b0 + b1 * 256) / 256 % 256 = b1 := by omega
  unfold htons
  rw [e1, e2]

theorem htonl_le_bytes (b0 b1 b2 b3 : Nat) (h0 : b0 < 256) (h1 : b1 < 256) (h2 : b2 < 256)
    (h3 : b3 < 256) :
    htonl (b0 + b1 * 256 + b2 * 65536 + b3 * 16777216)
      = b0 * 16777216 + b1 * 65536 + b2 * 256 + b3 := by
  have e1 : (b0 + b1 * 256 + b2 * 65536 + b3 * 16777216) % 256 = b0 := by omega
  have e2 : (b0 + b1 * 256 + b2 * 65536 + b3 * 16777216) / 256 % 256 = b1 := by omega
  have e3 : (b0 + b1 * 256 + b2 * 65536 + b3 * 16777216) / 65536 % 256 = b2 := by omega
  have e4 : (b0 + b1 * 256 + b2 * 65536 + b3 * 16777216) / 16777216 % 256 = b3 := by omega
  unfold htonl
  rw [e1, e2, e3, e4]

/-- A header with a supported additional value that lies inside the buffer and ends below
`2 ^ 32` is read as its magnitude, converted to `int`. -/
theorem read_integer_header_value (inp : List Nat) (oob : Nat → Nat) (offset : Nat)
    (hb : ∀ b ∈ inp, b < 256)
    (hadd : additional (rd inp oob offset) ≤ 26)
    (hlen : offset + integer_length (additional (rd inp oob offset)) ≤ inp.length)
    (hfit : offset + integer_length (additional (rd inp oob offset)) < 2 ^ 32) :
    read_integer_header inp oob (rd inp oob offset) offset
      = (.value (to_int (header_magnitude inp offset)),
         offset + integer_length (additional (rd inp oob offset))) := by
  have hil : 1 ≤ integer_length (additional (rd inp oob offset)) := by
    unfold integer_length; split_ifs <;> omega
  have h0 : offset < inp.length := by omega
  have hrd : rd inp oob offset = inp.getD offset 0 := rd_lt _ _ _ h0
  rw [hrd] at hadd hlen hfit hil ⊢
  generalize hA : additional (inp.getD offset 0) = a at *
  have hfit' : offset + integer_length a < 4294967296 := by simpa using hfit
  unfold read_integer_header
  simp only [hA]
  rw [u32_of_lt _ hfit]
  by_cases h24 : a < 24
  · have hm : header_magnitude inp offset = a := by
      simp only [header_magnitude, hA, h24, if_true]
    rw [hm, to_int_of_lt a (by simp; omega)]
    simp only [h24, if_true]
  · simp only [h24, if_false]
    have hnl : ¬ inp.length < offset + integer_length a := by omega
    simp only [hnl, if_false]
    have hp : u32 (offset + 1) = offset + 1 := u32_of_lt _ (by simp; omega)
    rw [hp]
    have b1 := getD_lt_256 inp hb (offset + 1)
    have b2 := getD_lt_256 inp hb (offset + 2)
    have b3 := getD_lt_256 inp hb (offset + 3)
    have b4 := getD_lt_256 inp hb (offset + 4)
    have r1 : ∀ k, offset + k < inp.length → rd inp oob (offset + k) = inp.getD (offset + k) 0 :=
      fun k hk => rd_lt inp oob (offset + k) hk
    have a2 : offset + 1 + 1 = offset + 2 := rfl
    have a3 : offset + 1 + 2 = offset + 3 := rfl
    have a4 : offset + 1 + 3 = offset + 4 := rfl
    by_cases e24 : a = 24
    · have hl : integer_length a = 2 := by simp [integer_length, e24]
      rw [hl] at hlen
      have hm : header_magnitude inp offset = inp.getD (offset + 1) 0 := by
        simp [-List.getD_eq_getElem?_getD, header_magnitude, hA, e24]
      have ht : to_int (inp.getD (offset + 1) 0) = ((inp.getD (offset + 1) 0 : Nat) : Int) :=
        to_int_of_lt _ (by simp [-List.getD_eq_getElem?_getD]; omega)
      rw [hm, ht, r1 1 (by omega)]
      simp [-List.getD_eq_getElem?_getD, e24]
    · by_cases e25 : a = 25
      · have hl : integer_length a = 3 := by simp [integer_length, e25]
        rw [hl] at hlen
        have hm : header_magnitude inp offset
            = inp.getD (offset + 1) 0 * 256 + inp.getD (offset + 2) 0 := by
          simp [-List.getD_eq_getElem?_getD, header_magnitude, hA, e25]
        have hx : ntohs (load16 inp oob (offset + 1)) = header_magnitude inp offset := by
          rw [hm]
          simp only [ntohs, load16, a2, r1 1 (by omega), r1 2 (by omega)]
          exact htons_le_bytes _ _ b1 b2
        have ht : to_int (header_magnitude inp offset) = ((header_magnitude inp offset : Nat) : Int) :=
          to_int_of_lt _ (by rw [hm]; simp [-List.getD_eq_getElem?_getD]; omega)
        rw [hx, ht]
        simp [-List.getD_eq_getElem?_getD, e25]
      · have e26 : a = 26 := by omega
        have hl : integer_length a = 5 := by simp [integer_length, e26]
        rw [hl] at hlen
        have hm : header_magnitude inp offset
            = inp.getD (offset + 1) 0 * 16777216 + inp.getD (offset + 2) 0 * 65536
              + inp.getD (offset + 3) 0 * 256 + inp.getD (offset + 4) 0 := by
          simp [-List.getD_eq_getElem?_getD, header_magnitude, hA, e26]
        have hx : ntohl (load32 inp oob (offset + 1)) = header_magnitude inp offset := by
          rw [hm]
          simp only [ntohl, load32, a2, a3, a4, r1 1 (by omega), r1 2 (by omega),
            r1 3 (by omega), r1 4 (by omega)]
          exact htonl_le_bytes _ _ _ _ b1 b2 b3 b4
        rw [hx]
        simp [-List.getD_eq_getElem?_getD, e26]

/-- C10 (as stated, refuted). The item `1a ff ff ff ff` has major type 0 and holds the
magnitude 4294967295, yet it is decoded as Integer(-1): not the magnitude, and negative. -/
theorem unsigned_decode_wraps :
    major (rd [0x1a, 0xff, 0xff, 0xff, 0xff] (fun _ => 0) 0) = 0 ∧
    header_magnitude [0x1a, 0xff, 0xff, 0xff, 0xff] 0 = 4294967295 ∧
    construct_from 1 [0x1a, 0xff, 0xff, 0xff, 0xff] (fun _ => 0) 0
      = (.value (.integer (-1)), 5) ∧
    construct_from 1 [0x1a, 0xff, 0xff, 0xff, 0xff] (fun _ => 0) 0
      ≠ (.value (.integer (header_magnitude [0x1a, 0xff, 0xff, 0xff, 0xff] 0)), 5) := by
  refine ⟨by decide, by decide, by rfl, ?_⟩
  have h : construct_from 1 [0x1a, 0xff, 0xff, 0xff, 0xff] (fun _ => 0) 0
      = (.value (.integer (-1)), 5) := by rfl
  rw [h]
  have hm : header_magnitude [0x1a, 0xff, 0xff, 0xff, 0xff] 0 = 4294967295 := by decide
  rw [hm]
  intro hc
  injection hc with h1 _
  injection h1 with h2
  injection h2 with h3
  exact absurd h3 (by decide)

/-- C10 (amended). An item of major type 0 whose header has a supported additional value, lies
inside the buffer, ends below offset `2 ^ 32` and holds a magnitude below `2 ^ 31` is decoded as
the Integer equal to that magnitude, which is not negative; the cursor moves past the header. -/
theorem unsigned_decode (fuel : Nat) (inp : List Nat) (oob : Nat → Nat) (offset : Nat)
    (hb : ∀ b ∈ inp, b < 256)
    (hmaj : major (rd inp oob offset) = 0)
    (hadd : additional (rd inp oob offset) ≤ 26)
    (hlen : offset + integer_length (additional (rd inp oob offset)) ≤ inp.length)
    (hfit : offset + integer_length (additional (rd inp oob offset)) < 2 ^ 32)
    (hm : header_magnitude inp offset < 2 ^ 31) :
    construct_from (fuel + 1) inp oob offset
      = (.value (.integer (header_magnitude inp offset : Nat)),
         offset + integer_length (additional (rd inp oob offset))) ∧
    (0 : Int) ≤ (header_magnitude inp offset : Nat) := by
  have hil : 1 ≤ integer_length (additional (rd inp oob offset)) := by
    unfold integer_length; split_ifs <;> omega
  have h0 : ¬ inp.length ≤ offset := by omega
  refine ⟨?_, Int.ofNat_nonneg _⟩
  rw [construct_from]
  simp only [h0, if_false, hmaj, if_true]
  rw [read_integer_header_value inp oob offset hb hadd hlen hfit, to_int_of_lt _ hm]

/-- Witness for C10: the item `19 01 02` is decoded as Integer(258). -/
theorem unsigned_decode_witness :
    construct_from 1 [0x19, 0x01, 0x02] (fun _ => 0) 0 = (.value (.integer 258), 3) :=
  (unsigned_decode 0 [0x19, 0x01, 0x02] (fun _ => 0) 0 (by decide) (by decide) (by decide)
    (by decide) (by decide) (by decide)).1

theorem read_integer_header_unsupported (inp : List Nat) (oob : Nat → Nat) (h offset : Nat)
    (hadd : additional h = 27 ∨ additional h = 31) :
    read_integer_header inp oob h offset
      = (.thrown (if inp.length < u32 (offset + 5) then error.insufficient_additional
                  else if additional h = 27 then error.no_64bit else error.no_indefinite),
         u32 (offset + 5)) := by
  unfold read_integer_header
  rcases hadd with e | e <;> simp [e, integer_length] <;> split_ifs <;> rfl

/-- C8. Unsupported header forms are rejected: when the header byte at the cursor has a major
type other than 7 and additional value 27 or 31, decode throws, whatever bytes follow. -/
theorem unsupported_additional_rejected (fuel : Nat) (inp : List Nat) (oob : Nat → Nat)
    (offset : Nat) (hc : offset < inp.length)
    (hmaj : major (rd inp oob offset) ≠ 7)
    (hadd : additional (rd inp oob offset) = 27 ∨ additional (rd inp oob offset) = 31) :
    construct_from (fuel + 1) inp oob offset
      = (.thrown (if inp.length < u32 (offset + 5) then error.insufficient_additional
                  else if additional (rd inp oob offset) = 27 then error.no_64bit
                  else error.no_indefinite),
         u32 (offset + 5)) := by
  have h0 : ¬ inp.length ≤ offset := by omega
  have hlt := major_lt (rd inp oob offset)
  have hr := read_integer_header_unsupported inp oob (rd inp oob offset) offset hadd
  generalize (if inp.length < u32 (offset + 5) then error.insufficient_additional
    else if additional (rd inp oob offset) = 27 then error.no_64bit
    else error.no_indefinite) = E at hr ⊢
  rw [construct_from]
  simp only [h0, if_false]
  split_ifs <;> first | (simp only [hr]) | omega

/-- Witness for C8: a byte string header with additional value 27 is rejected. -/
theorem unsupported_additional_rejected_witness :
    construct_from 1 [0x5b, 0, 0, 0, 0, 0, 0, 0, 1, 0x61] (fun _ => 0) 0
      = (.thrown .no_64bit, 5) :=
  unsupported_additional_rejected 0 [0x5b, 0, 0, 0, 0, 0, 0, 0, 1, 0x61] (fun _ => 0) 0
    (by decide) (by decide) (by decide)

/-- C6 (failing input). The two bytes `fb 3f` are a strict prefix of the encoding of the Float
with pattern `0x3ff8000000000000`, and decoding them returns a Float and moves the cursor to 9,
whatever lies in memory behind the buffer. -/
theorem truncated_double_returns :
    ∀ (other : cbor_variant → List Nat) (oob : Nat → Nat),
      encode other (.floating_point 0x3ff8000000000000) = [0xfb, 0x3f] ++ [0xf8, 0, 0, 0, 0, 0, 0] ∧
      ∃ bits, construct_from 1 [0xfb, 0x3f] oob 0 = (.value (.floating_point bits), 9) := by
  intro other oob
  refine ⟨by rfl, ?_⟩
  simp [construct_from, rd, major, additional, u32]

/-- C7 (failing input). Decoding the one-byte buffer `fa` returns a Float and leaves the cursor
at 5, beyond the end of the buffer; decoding `fb` leaves it at 9. -/
theorem float_reads_past_end :
    ∀ (oob : Nat → Nat),
      (∃ bits, construct_from 1 [0xfa] oob 0 = (.value (.floating_point bits), 5)) ∧
      (∃ bits, construct_from 1 [0xfb] oob 0 = (.value (.floating_point bits), 9)) ∧
      [0xfa].length < 5 := by
  intro oob
  refine ⟨?_, ?_, by decide⟩ <;> simp [construct_from, rd, major, additional, u32]

theorem append_integer_header_append (m n : Nat) (out : List Nat) :
    append_integer_header m n out = out ++ append_integer_header m n [] := by
  unfold append_integer_header
  split_ifs <;> simp

mutual
theorem encode_onto_append (other : cbor_variant → List Nat) :
    ∀ (v : cbor_variant) (out : List Nat), encode_onto other v out = out ++ encode_onto other v []
  | .integer val, out => by
    simp only [encode_onto]
    split_ifs
    · exact append_integer_header_append _ _ _
    · exact append_integer_header_append _ _ _
  | .floating_point val, out => by simp [encode_onto]
  | .bytes val, out => by
    simp only [encode_onto]
    rw [append_integer_header_append]; simp
  | .unicode_string val, out => by
    simp only [encode_onto]
    rw [append_integer_header_append]; simp
  | .array xs, out => by
    simp only [encode_onto]
    rw [encode_array_append other xs (append_integer_header 4 (u32 xs.length) out),
      encode_array_append other xs (append_integer_header 4 (u32 xs.length) []),
      append_integer_header_append]
    simp
  | .map kvs, out => by
    simp only [encode_onto]
    rw [encode_map_append other kvs (append_integer_header 5 (u32 kvs.length) out),
      encode_map_append other kvs (append_integer_header 5 (u32 kvs.length) []),
      append_integer_header_append]
    simp
  | .none, out => by simp [encode_onto]
theorem encode_array_append (other : cbor_variant → List Nat) :
    ∀ (xs : List cbor_variant) (out : List Nat),
      encode_array other xs out = out ++ encode_array other xs []
  | [], out => by simp [encode_array]
  | x :: xs, out => by
    simp only [encode_array]
    rw [encode_array_append other xs (encode_onto other x out),
      encode_array_append other xs (encode_onto other x []),
      encode_onto_append other x out]
    simp
theorem encode_map_append (other : cbor_variant → List Nat) :
    ∀ (kvs : List (cbor_variant × cbor_variant)) (out : List Nat),
      encode_map other kvs out = out ++ encode_map other kvs []
  | [], out => by simp [encode_map]
  | (k, v) :: rest, out => by
    simp only [encode_map]
    rw [encode_map_append other rest
        (encode_onto other v
          (append_integer_header 3 (u32 (key_chars other k).length) out ++ key_chars other k)),
      encode_map_append other rest
        (encode_onto other v
          (append_integer_header 3 (u32 (key_chars other k).length) [] ++ key_chars other k)),
      encode_onto_append other v
        (append_integer_header 3 (u32 (key_chars other k).length) out ++ key_chars other k),
      encode_onto_append other v
        (append_integer_header 3 (u32 (key_chars other k).length) [] ++ key_chars other k),
      append_integer_header_append 3 _ out]
    simp
end

theorem rd_mid (p l s : List Nat) (oob : Nat → Nat) (k : Nat) (hk : k < l.length) :
    rd (p ++ l ++ s) oob (p.length + k) = l.getD k 0 := by
  unfold rd
  rw [List.getD_append _ _ _ _ (by simp; omega),
    List.getD_append_right _ _ _ _ (by omega)]
  have : p.length + k - p.length = k := by omega
  rw [this, List.getD_eq_getElem _ _ hk, List.getD_eq_getElem _ _ hk]

theorem rd_mid_zero (p l s : List Nat) (oob : Nat → Nat) (hk : 0 < l.length) :
    rd (p ++ l ++ s) oob p.length = l.getD 0 0 := by
  have := rd_mid p l s oob 0 hk
  simpa using this

theorem major_header (m a : Nat) (hm : m < 8) (ha : a < 32) : major (m * 32 + a) = m := by
  unfold major; omega

theorem additional_header (m a : Nat) (ha : a < 32) : additional (m * 32 + a) = a := by
  unfold additional; omega

theorem append_integer_header_nil (m n : Nat) (hm : m < 8) (hn : n < 2 ^ 32) :
    append_integer_header m n []
      = if n < 24 then [m * 32 + n]
        else if n < 256 then [m * 32 + 24, n]
        else if n < 65536 then [m * 32 + 25, n / 256, n % 256]
        else [m * 32 + 26, n / 16777216, n / 65536 % 256, n / 256 % 256, n % 256] := by
  unfold append_integer_header
  split_ifs with h1 h2 h3
  · simp [header_eq m n hm (by omega)]
  · have : n % 256 = n := by omega
    simp [header_byte, header_eq m 24 hm (by omega), this]
  · have : n % 65536 = n := by omega
    rw [this, header_short_htons m n h3, header_eq m 25 hm (by omega)]; simp
  · rw [header_int_htonl m n hn, header_eq m 26 hm (by omega)]; simp

theorem append_integer_header_length (m n : Nat) :
    (append_integer_header m n []).length
      = if n < 24 then 1 else if n < 256 then 2 else if n < 65536 then 3 else 5 := by
  unfold append_integer_header
  split_ifs <;> simp [header_byte, header_short, header_int]

theorem read_integer_header_direct (inp : List Nat) (oob : Nat → Nat) (h offset : Nat)
    (ha : additional h < 24) :
    read_integer_header inp oob h offset
      = (.value ((additional h : Nat) : Int), u32 (offset + 1)) := by
  unfold read_integer_header
  simp [ha, integer_length]

theorem read_integer_header_24 (inp : List Nat) (oob : Nat → Nat) (h offset : Nat)
    (ha : additional h = 24) (hl : ¬ inp.length < u32 (offset + 2)) :
    read_integer_header inp oob h offset
      = (.value ((rd inp oob (u32 (offset + 1)) : Nat) : Int), u32 (offset + 2)) := by
  unfold read_integer_header
  simp [ha, integer_length, hl]

theorem read_integer_header_25 (inp : List Nat) (oob : Nat → Nat) (h offset : Nat)
    (ha : additional h = 25) (hl : ¬ inp.length < u32 (offset + 3)) :
    read_integer_header inp oob h offset
      = (.value ((ntohs (load16 inp oob (u32 (offset + 1))) : Nat) : Int), u32 (offset + 3)) := by
  unfold read_integer_header
  simp [ha, integer_length, hl]

theorem read_integer_header_26 (inp : List Nat) (oob : Nat → Nat) (h offset : Nat)
    (ha : additional h = 26) (hl : ¬ inp.length < u32 (offset + 5)) :
    read_integer_header inp oob h offset
      = (.value (to_int (ntohl (load32 inp oob (u32 (offset + 1))))), u32 (offset + 5)) := by
  unfold read_integer_header
  simp [ha, integer_length, hl]

/-- Reading back a header written by `append_integer_header`, anywhere in a buffer, as long as
the header ends below offset `2 ^ 32`. -/
theorem read_header_at (m n : Nat) (hm : m < 8) (hn : n < 2 ^ 32) (p s : List Nat)
    (oob : Nat → Nat)
    (hfit : p.length + (append_integer_header m n []).length < 2 ^ 32) :
    major (rd (p ++ append_integer_header m n [] ++ s) oob p.length) = m ∧
    read_integer_header (p ++ append_integer_header m n [] ++ s) oob
        (rd (p ++ append_integer_header m n [] ++ s) oob p.length) p.length
      = (.value (to_int n), p.length + (append_integer_header m n []).length) := by
  have hn' : n < 4294967296 := by simpa using hn
  have hfit' : p.length + (append_integer_header m n []).length < 4294967296 := by
    simpa using hfit
  have hlen := append_integer_header_length m n
  rw [hlen] at hfit' ⊢
  rw [append_integer_header_nil m n hm hn]
  have a2 : p.length + 1 + 1 = p.length + 2 := rfl
  have a3 : p.length + 1 + 2 = p.length + 3 := rfl
  have a4 : p.length + 1 + 3 = p.length + 4 := rfl
  have u : ∀ k, p.length + k < 4294967296 → u32 (p.length + k) = p.length + k :=
    fun k hk => u32_of_lt _ (by simpa using hk)
  by_cases h1 : n < 24
  · simp only [h1, if_true] at hfit' ⊢
    have r0 := rd_mid_zero p [m * 32 + n] s oob (by simp)
    simp only [List.getD_cons_zero] at r0
    rw [r0, major_header m n hm (by omega)]
    refine ⟨rfl, ?_⟩
    have ha := additional_header m n (by omega)
    rw [read_integer_header_direct _ _ _ _ (by omega), ha, u 1 hfit',
      to_int_of_lt n (by simp; omega)]
  · by_cases h2 : n < 256
    · simp only [h1, h2, if_true, if_false] at hfit' ⊢
      have r0 := rd_mid_zero p [m * 32 + 24, n] s oob (by simp)
      have r1 := rd_mid p [m * 32 + 24, n] s oob 1 (by simp)
      simp only [List.getD_cons_zero, List.getD_cons_succ] at r0 r1
      rw [r0, major_header m 24 hm (by omega)]
      refine ⟨rfl, ?_⟩
      have ha := additional_header m 24 (by omega)
      have hl : ¬ (p ++ [m * 32 + 24, n] ++ s).length < u32 (p.length + 2) := by
        rw [u 2 hfit']; simp
      rw [read_integer_header_24 _ _ _ _ ha hl, u 2 hfit', u 1 (by omega), r1,
        to_int_of_lt n (by simp; omega)]
    · by_cases h3 : n < 65536
      · simp only [h1, h2, h3, if_true, if_false] at hfit' ⊢
        have r0 := rd_mid_zero p [m * 32 + 25, n / 256, n % 256] s oob (by simp)
        have r1 := rd_mid p [m * 32 + 25, n / 256, n % 256] s oob 1 (by simp)
        have r2 := rd_mid p [m * 32 + 25, n / 256, n % 256] s oob 2 (by simp)
        simp only [List.getD_cons_zero, List.getD_cons_succ] at r0 r1 r2
        rw [r0, major_header m 25 hm (by omega)]
        refine ⟨rfl, ?_⟩
        have ha := additional_header m 25 (by omega)
        have hl : ¬ (p ++ [m * 32 + 25, n / 256, n % 256] ++ s).length < u32 (p.length + 3) := by
          rw [u 3 hfit']; simp
        have hx : ntohs (load16 (p ++ [m * 32 + 25, n / 256, n % 256] ++ s) oob (p.length + 1))
            = n := by
          simp only [ntohs, load16, a2, r1, r2]
          rw [htons_le_bytes _ _ (by omega) (by omega)]
          omega
        rw [read_integer_header_25 _ _ _ _ ha hl, u 3 hfit', u 1 (by omega), hx,
          to_int_of_lt n (by simp; omega)]
      · simp only [h1, h2, h3, if_false] at hfit' ⊢
        have r0 := rd_mid_zero p
          [m * 32 + 26, n / 16777216, n / 65536 % 256, n / 256 % 256, n % 256] s oob (by simp)
        have r1 := rd_mid p
          [m * 32 + 26, n / 16777216, n / 65536 % 256, n / 256 % 256, n % 256] s oob 1 (by simp)
        have r2 := rd_mid p
          [m * 32 + 26, n / 16777216, n / 65536 % 256, n / 256 % 256, n % 256] s oob 2 (by simp)
        have r3 := rd_mid p
          [m * 32 + 26, n / 16777216, n / 65536 % 256, n / 256 % 256, n % 256] s oob 3 (by simp)
        have r4 := rd_mid p
          [m * 32 + 26, n / 16777216, n / 65536 % 256, n / 256 % 256, n % 256] s oob 4 (by simp)
        simp only [List.getD_cons_zero, List.getD_cons_succ] at r0 r1 r2 r3 r4
        rw [r0, major_header m 26 hm (by omega)]
        refine ⟨rfl, ?_⟩
        have ha := additional_header m 26 (by omega)
        have hl : ¬ (p ++ [m * 32 + 26, n / 16777216, n / 65536 % 256, n / 256 % 256, n % 256]
            ++ s).length < u32 (p.length + 5) := by
          rw [u 5 hfit']; simp
        have hx : ntohl (load32
            (p ++ [m * 32 + 26, n / 16777216, n / 65536 % 256, n / 256 % 256, n % 256] ++ s)
            oob (p.length + 1)) = n := by
          simp only [ntohl, load32, a2, a3, a4, r1, r2, r3, r4]
          rw [htonl_le_bytes _ _ _ _ (by omega) (by omega) (by omega) (by omega)]
          omega
        rw [read_integer_header_26 _ _ _ _ ha hl, u 5 hfit', u 1 (by omega), hx]

/-! ### Unfolding `construct_from` by major type -/

theorem construct_from_major0 (fuel : Nat) (inp : List Nat) (oob : Nat → Nat) (offset : Nat)
    (h0 : offset < inp.length) (hm : major (rd inp oob offset) = 0) (r : Int) (o : Nat)
    (hr : read_integer_header inp oob (rd inp oob offset) offset = (.value r, o)) :
    construct_from (fuel + 1) inp oob offset = (.value (.integer r), o) := by
  have h0' : ¬ inp.length ≤ offset := by omega
  rw [construct_from]
  simp only [h0', if_false, hm, if_true, hr]

theorem construct_from_major1 (fuel : Nat) (inp : List Nat) (oob : Nat → Nat) (offset : Nat)
    (h0 : offset < inp.length) (hm : major (rd inp oob offset) = 1) (r : Int) (o : Nat)
    (hr : read_integer_header inp oob (rd inp oob offset) offset = (.value r, o)) :
    construct_from (fuel + 1) inp oob offset = (.value (.integer (-1 - r)), o) := by
  have h0' : ¬ inp.length ≤ offset := by omega
  rw [construct_from]
  simp [h0', hm, hr]

theorem construct_from_major2 (fuel : Nat) (inp : List Nat) (oob : Nat → Nat) (offset : Nat)
    (h0 : offset < inp.length) (hm : major (rd inp oob offset) = 2) (length : Int) (o : Nat)
    (hr : read_integer_header inp oob (rd inp oob offset) offset = (.value length, o))
    (hl : 0 ≤ length) (hsz : u32 (o + to_unsigned length) ≤ inp.length)
    (hw : o ≤ u32 (o + to_unsigned length)) :
    construct_from (fuel + 1) inp oob offset
      = (.value (.bytes (range_bytes inp oob o (u32 (o + to_unsigned length)))),
         u32 (o + to_unsigned length)) := by
  have h0' : ¬ inp.length ≤ offset := by omega
  have hl' : ¬ length < 0 := by omega
  have hsz' : ¬ inp.length < u32 (o + to_unsigned length) := by omega
  have hw' : ¬ u32 (o + to_unsigned length) < o := by omega
  rw [construct_from]
  simp [h0', hm, hr, hl', hsz', hw']

theorem construct_from_major3 (fuel : Nat) (inp : List Nat) (oob : Nat → Nat) (offset : Nat)
    (h0 : offset < inp.length) (hm : major (rd inp oob offset) = 3) (length : Int) (o : Nat)
    (hr : read_integer_header inp oob (rd inp oob offset) offset = (.value length, o))
    (hl : 0 ≤ length) (hsz : u32 (o + to_unsigned length) ≤ inp.length)
    (hw : o ≤ u32 (o + to_unsigned length)) :
    construct_from (fuel + 1) inp oob offset
      = (.value (.unicode_string (range_bytes inp oob o (u32 (o + to_unsigned length)))),
         u32 (o + to_unsigned length)) := by
  have h0' : ¬ inp.length ≤ offset := by omega
  have hl' : ¬ length < 0 := by omega
  have hsz' : ¬ inp.length < u32 (o + to_unsigned length) := by omega
  have hw' : ¬ u32 (o + to_unsigned length) < o := by omega
  rw [construct_from]
  simp [h0', hm, hr, hl', hsz', hw']

theorem construct_from_major4 (fuel : Nat) (inp : List Nat) (oob : Nat → Nat) (offset : Nat)
    (h0 : offset < inp.length) (hm : major (rd inp oob offset) = 4) (total_items : Int) (o : Nat)
    (hr : read_integer_header inp oob (rd inp oob offset) offset = (.value total_items, o))
    (rtn : List cbor_variant) (o2 : Nat)
    (hloop : array_loop (construct_from fuel inp oob) (to_unsigned total_items) 0
      (List.replicate (to_unsigned total_items) (.integer 0)) o = (.value rtn, o2)) :
    construct_from (fuel + 1) inp oob offset = (.value (.array rtn), o2) := by
  have h0' : ¬ inp.length ≤ offset := by omega
  rw [construct_from]
  simp [h0', hm, hr, hloop]

theorem construct_from_major5 (fuel : Nat) (inp : List Nat) (oob : Nat → Nat) (offset : Nat)
    (h0 : offset < inp.length) (hm : major (rd inp oob offset) = 5) (pending_items : Int)
    (o : Nat)
    (hr : read_integer_header inp oob (rd inp oob offset) offset = (.value pending_items, o))
    (rtn : List (cbor_variant × cbor_variant)) (o2 : Nat)
    (hloop : map_loop (construct_from fuel inp oob) inp oob pending_items.toNat [] o
      = (.value rtn, o2)) :
    construct_from (fuel + 1) inp oob offset = (.value (.map rtn), o2) := by
  have h0' : ¬ inp.length ≤ offset := by omega
  rw [construct_from]
  simp [h0', hm, hr, hloop]

theorem construct_from_major6 (fuel : Nat) (inp : List Nat) (oob : Nat → Nat) (offset : Nat)
    (h0 : offset < inp.length) (hm : major (rd inp oob offset) = 6) (r : Int) (o : Nat)
    (hr : read_integer_header inp oob (rd inp oob offset) offset = (.value r, o)) :
    construct_from (fuel + 1) inp oob offset = construct_from fuel inp oob o := by
  have h0' : ¬ inp.length ≤ offset := by omega
  rw [construct_from]
  simp [h0', hm, hr]

theorem construct_from_major7 (fuel : Nat) (inp : List Nat) (oob : Nat → Nat) (offset : Nat)
    (h0 : offset < inp.length) (hm : major (rd inp oob offset) = 7) :
    construct_from (fuel + 1) inp oob offset
      = if additional (rd inp oob offset) = 26 then
          (.value (.floating_point (float_to_double (float_of_bytes (float_to_big_endian
            (range_bytes inp oob (offset + 1) (offset + 1 + 4)))))), u32 (offset + 5))
        else if additional (rd inp oob offset) = 27 then
          (.value (.floating_point (double_of_bytes (double_to_big_endian
            (range_bytes inp oob (offset + 1) (offset + 1 + 8))))), u32 (offset + 9))
        else if additional (rd inp oob offset) = 22 then (.value .none, u32 (offset + 1))
        else (.thrown .bad_major7, offset) := by
  have h0' : ¬ inp.length ≤ offset := by omega
  rw [construct_from]
  simp [h0', hm]

/-! ### Shape of encodings -/

theorem encode_array_cons (other : cbor_variant → List Nat) (x : cbor_variant)
    (xs : List cbor_variant) :
    encode_array other (x :: xs) [] = encode other x ++ encode_array other xs [] := by
  rw [encode_array, encode_array_append]; rfl

theorem encode_map_cons (other : cbor_variant → List Nat) (k v : cbor_variant)
    (rest : List (cbor_variant × cbor_variant)) :
    encode_map other ((k, v) :: rest) []
      = append_integer_header 3 (u32 (key_chars other k).length) [] ++ key_chars other k
        ++ encode other v ++ encode_map other rest [] := by
  rw [encode_map, encode_map_append, encode_onto_append]; rfl

theorem encode_array_eq (other : cbor_variant → List Nat) (xs : List cbor_variant) :
    encode other (.array xs)
      = append_integer_header 4 (u32 xs.length) [] ++ encode_array other xs [] := by
  unfold encode
  rw [encode_onto, encode_array_append]

theorem encode_map_eq (other : cbor_variant → List Nat)
    (kvs : List (cbor_variant × cbor_variant)) :
    encode other (.map kvs)
      = append_integer_header 5 (u32 kvs.length) [] ++ encode_map other kvs [] := by
  unfold encode
  rw [encode_onto, encode_map_append]

theorem append_integer_header_pos (m n : Nat) : 1 ≤ (append_integer_header m n []).length := by
  rw [append_integer_header_length]; split_ifs <;> omega

theorem append_integer_header_le (m n : Nat) : (append_integer_header m n []).length ≤ 5 := by
  rw [append_integer_header_length]; split_ifs <;> omega

theorem encode_pos (other : cbor_variant → List Nat) (v : cbor_variant) :
    1 ≤ (encode other v).length := by
  unfold encode
  rw [encode_onto_append]
  cases v with
  | integer val =>
    simp only [encode_onto]
    split_ifs <;> simp <;> exact append_integer_header_pos _ _
  | floating_point val => simp [encode_onto, double_to_big_endian]
  | unicode_string val =>
    simp only [encode_onto]
    have := append_integer_header_pos 3 (u32 val.length)
    simp; omega
  | none => simp [encode_onto]
  | bytes val =>
    simp only [encode_onto]
    have := append_integer_header_pos 2 (u32 val.length)
    simp; omega
  | array xs =>
    simp only [encode_onto]
    rw [encode_array_append]
    have := append_integer_header_pos 4 (u32 xs.length)
    simp; omega
  | map kvs =>
    simp only [encode_onto]
    rw [encode_map_append]
    have := append_integer_header_pos 5 (u32 kvs.length)
    simp; omega

theorem encode_array_length_ge (other : cbor_variant → List Nat) (xs : List cbor_variant) :
    xs.length ≤ (encode_array other xs []).length := by
  induction xs with
  | nil => simp
  | cons x xs ih =>
    rw [encode_array_cons]
    have := encode_pos other x
    simp; omega

theorem encode_map_length_ge (other : cbor_variant → List Nat)
    (kvs : List (cbor_variant × cbor_variant)) :
    2 * kvs.length ≤ (encode_map other kvs []).length := by
  induction kvs with
  | nil => simp
  | cons kv rest ih =>
    obtain ⟨k, v⟩ := kv
    rw [encode_map_cons]
    have h1 := encode_pos other v
    have h2 := append_integer_header_pos 3 (u32 (key_chars other k).length)
    simp; omega

/-! ### Reading payloads -/

theorem range_map_getD (l : List Nat) :
    (List.range l.length).map (fun i => l.getD i 0) = l := by
  apply List.ext_getElem
  · simp
  · intro n h1 h2
    simp at h1
    simp [List.getElem?_eq_getElem h1]

theorem range_bytes_mid (p l s : List Nat) (oob : Nat → Nat) :
    range_bytes (p ++ l ++ s) oob p.length (p.length + l.length) = l := by
  unfold range_bytes
  have : p.length + l.length - p.length = l.length := by omega
  rw [this]
  conv_rhs => rw [← range_map_getD l]
  apply List.map_congr_left
  intro i hi
  exact rd_mid p l s oob i (List.mem_range.mp hi)

/-! ### Integer conversions -/

theorem to_unsigned_nonneg (v : Int) (h0 : 0 ≤ v) (h1 : v < 2 ^ 31) :
    to_unsigned v < 2 ^ 31 ∧ to_int (to_unsigned v) = v := by
  have h1' : v < 2147483648 := by simpa using h1
  have e : to_unsigned v = v.toNat := by
    unfold to_unsigned
    congr 1
    omega
  have hlt : v.toNat < 2 ^ 31 := by simp; omega
  rw [e]
  refine ⟨hlt, ?_⟩
  rw [to_int_of_lt _ hlt]
  omega

theorem to_unsigned_negate (v : Int) (h0 : -2 ^ 31 ≤ v) (h1 : v < 0) :
    to_unsigned (wrap_int (wrap_int (-v) - 1)) < 2 ^ 31 ∧
    -1 - to_int (to_unsigned (wrap_int (wrap_int (-v) - 1))) = v := by
  have h0' : -2147483648 ≤ v := by simpa using h0
  have key : wrap_int (wrap_int (-v) - 1) = -v - 1 := by
    unfold wrap_int to_int to_unsigned
    simp only [Int.reducePow, Nat.reducePow]
    split_ifs <;> omega
  rw [key]
  have := to_unsigned_nonneg (-v - 1) (by omega) (by simp; omega)
  refine ⟨this.1, ?_⟩
  rw [this.2]; omega

theorem to_unsigned_to_int (n : Nat) (h : n < 2 ^ 32) : to_unsigned (to_int n) = n := by
  have h' : n < 4294967296 := by simpa using h
  unfold to_int to_unsigned
  simp only [Int.reducePow, Nat.reducePow]
  split_ifs <;> omega

theorem to_int_toNat (n : Nat) (h : n < 2 ^ 31) : (to_int n).toNat = n := by
  rw [to_int_of_lt n h]; simp

/-! ### Floating point images -/

theorem double_image (bits : Nat) (h : bits < 2 ^ 64) :
    double_of_bytes (double_to_big_endian (double_to_big_endian (double_bytes bits))) = bits := by
  have h' : bits < 18446744073709551616 := by simpa using h
  simp only [double_of_bytes, double_to_big_endian, double_bytes, List.getD_cons_zero,
    List.getD_cons_succ, Nat.reducePow]
  omega

/-! ### Key order on Text keys -/

theorem bytes_lt_asymm : ∀ (a b : List Nat), bytes_lt a b = true → bytes_lt b a = false
  | [], [], h => by simp [bytes_lt] at h
  | [], _ :: _, _ => by simp [bytes_lt]
  | _ :: _, [], h => by simp [bytes_lt] at h
  | x :: xs, y :: ys, h => by
    simp only [bytes_lt] at h ⊢
    by_cases h1 : x < y
    · have : ¬ y < x := by omega
      simp [this, h1]
    · by_cases h2 : y < x
      · simp [h1, h2] at h
      · simp only [h1, h2, if_false] at h ⊢
        exact bytes_lt_asymm xs ys h

theorem variant_lt_text (a b : List Nat) :
    variant_lt (.unicode_string a) (.unicode_string b) = bytes_lt a b := by
  rw [variant_lt]

theorem map_set_append (acc : List (cbor_variant × cbor_variant)) (k v : cbor_variant)
    (h : ∀ e ∈ acc, variant_lt e.1 k = true ∧ variant_lt k e.1 = false) :
    map_set acc k v = acc ++ [(k, v)] := by
  induction acc with
  | nil => simp [map_set]
  | cons e rest ih =>
    obtain ⟨k', w⟩ := e
    have h1 := h (k', w) (List.mem_cons_self _ _)
    simp only at h1
    rw [map_set]
    simp only [h1.1, h1.2, if_true]
    rw [ih (fun e he => h e (List.mem_cons_of_mem _ he))]
    simp

/-- A Text key written by the encoder is read back by the map loop. -/
theorem read_key_text (chars p s : List Nat) (oob : Nat → Nat) (hc : chars.length < 2 ^ 31)
    (hfit : p.length + (append_integer_header 3 (u32 chars.length) []).length + chars.length
      < 2 ^ 32) :
    read_key (p ++ (append_integer_header 3 (u32 chars.length) [] ++ chars) ++ s) oob p.length
      = (.value (.unicode_string chars),
         p.length + (append_integer_header 3 (u32 chars.length) []).length + chars.length) := by
  have hc' : chars.length < 2147483648 := by simpa using hc
  have hfit' : p.length + (append_integer_header 3 (u32 chars.length) []).length + chars.length
      < 4294967296 := by simpa using hfit
  have hu : u32 chars.length = chars.length := u32_of_lt _ (by simp; omega)
  rw [hu] at hfit' ⊢
  have hB : p ++ (append_integer_header 3 chars.length [] ++ chars) ++ s
      = p ++ append_integer_header 3 chars.length [] ++ (chars ++ s) := by
    simp [List.append_assoc]
  have hB2 : p ++ append_integer_header 3 chars.length [] ++ (chars ++ s)
      = (p ++ append_integer_header 3 chars.length []) ++ chars ++ s := by
    simp [List.append_assoc]
  obtain ⟨hmaj, hread⟩ := read_header_at 3 chars.length (by decide) (by simp; omega) p
    (chars ++ s) oob (by simp; omega)
  rw [hB]
  unfold read_key
  simp only [hmaj, read_integer_head, hread]
  have hti : to_int chars.length = (chars.length : Int) := to_int_of_lt _ hc
  have htu : to_unsigned (to_int chars.length) = chars.length :=
    to_unsigned_to_int _ (by simp; omega)
  have hnn : ¬ to_int chars.length < 0 := by rw [hti]; omega
  have hlast : u32 (p.length + (append_integer_header 3 chars.length []).length + chars.length)
      = p.length + (append_integer_header 3 chars.length []).length + chars.length :=
    u32_of_lt _ (by simpa using hfit')
  simp only [show ¬ ((3 : Nat) = 0) by decide, show ¬ ((3 : Nat) = 1) by decide,
    show ¬ ((3 : Nat) = 2) by decide, if_false, or_true, if_true, hnn, htu, hlast]
  have hnl : ¬ (p.length + (append_integer_header 3 chars.length []).length + chars.length
      < p.length + (append_integer_header 3 chars.length []).length) := by omega
  simp only [hnl, if_false]
  rw [hB2]
  have := range_bytes_mid (p ++ append_integer_header 3 chars.length []) chars s oob
  rw [List.length_append] at this
  rw [this]

theorem buffer_lt (p e s : List Nat) (he : 1 ≤ e.length) : p.length < (p ++ e ++ s).length := by
  simp; omega

theorem list_set_mid (pre : List cbor_variant) (j x : cbor_variant) (junk : List cbor_variant) :
    (pre ++ j :: junk).set pre.length x = (pre ++ [x]) ++ junk := by
  induction pre with
  | nil => simp
  | cons a pre ih => simp [ih]

mutual
theorem decode_encode (other : cbor_variant → List Nat) :
    ∀ (v : cbor_variant), representable v → ∀ (fuel : Nat), depth v ≤ fuel →
      ∀ (p s : List Nat) (oob : Nat → Nat), p.length + (encode other v).length < 2 ^ 32 →
        construct_from fuel (p ++ encode other v ++ s) oob p.length
          = (.value v, p.length + (encode other v).length)
  | .integer val => by
    intro hr fuel hf p s oob hfit
    simp only [depth] at hf
    obtain ⟨f, rfl⟩ : ∃ f, fuel = f + 1 := ⟨fuel - 1, by omega⟩
    simp only [representable] at hr
    have h0 := buffer_lt p (encode other (.integer val)) s (encode_pos _ _)
    by_cases hv : 0 ≤ val
    · have he : encode other (.integer val) = append_integer_header 0 (to_unsigned val) [] := by
        simp [encode, encode_onto, hv]
      obtain ⟨hlt, hback⟩ := to_unsigned_nonneg val hv hr.2
      rw [he] at hfit h0 ⊢
      obtain ⟨hmaj, hread⟩ := read_header_at 0 (to_unsigned val) (by decide)
        (lt_trans hlt (by norm_num)) p s oob hfit
      rw [construct_from_major0 f _ oob p.length h0 hmaj _ _ hread, hback]
    · have he : encode other (.integer val)
          = append_integer_header 1 (to_unsigned (wrap_int (wrap_int (-val) - 1))) [] := by
        simp [encode, encode_onto, hv]
      obtain ⟨hlt, hback⟩ := to_unsigned_negate val hr.1 (by omega)
      rw [he] at hfit h0 ⊢
      obtain ⟨hmaj, hread⟩ := read_header_at 1 (to_unsigned (wrap_int (wrap_int (-val) - 1)))
        (by decide) (lt_trans hlt (by norm_num)) p s oob hfit
      rw [construct_from_major1 f _ oob p.length h0 hmaj _ _ hread, hback]
  | .floating_point val => by
    intro hr fuel hf p s oob hfit
    simp only [depth] at hf
    obtain ⟨f, rfl⟩ : ∃ f, fuel = f + 1 := ⟨fuel - 1, by omega⟩
    simp only [representable] at hr
    have h0 := buffer_lt p (encode other (.floating_point val)) s (encode_pos _ _)
    have he : encode other (.floating_point val)
        = [251] ++ double_to_big_endian (double_bytes val) := by
      simp [encode, encode_onto, header]
    have hlen : (double_to_big_endian (double_bytes val)).length = 8 := rfl
    rw [he] at hfit h0 ⊢
    have hfit' : p.length + 9 < 4294967296 := by
      simp only [List.length_append, hlen, List.length_singleton] at hfit
      simpa using hfit
    have hB : p ++ ([251] ++ double_to_big_endian (double_bytes val)) ++ s
        = p ++ [251] ++ (double_to_big_endian (double_bytes val) ++ s) := by
      simp [List.append_assoc]
    have hB2 : p ++ [251] ++ (double_to_big_endian (double_bytes val) ++ s)
        = (p ++ [251]) ++ double_to_big_endian (double_bytes val) ++ s := by
      simp [List.append_assoc]
    rw [hB] at h0 ⊢
    have r0 := rd_mid_zero p [251] (double_to_big_endian (double_bytes val) ++ s) oob (by simp)
    simp only [List.getD_cons_zero] at r0
    have hmaj : major (rd (p ++ [251] ++ (double_to_big_endian (double_bytes val) ++ s)) oob
        p.length) = 7 := by rw [r0]; rfl
    rw [construct_from_major7 f _ oob p.length h0 hmaj, r0]
    have hrange := range_bytes_mid (p ++ [251]) (double_to_big_endian (double_bytes val)) s oob
    rw [List.length_append, List.length_singleton, hlen] at hrange
    simp only [show additional 251 = 27 by rfl, show ¬ ((27 : Nat) = 26) by decide, if_false,
      if_true]
    rw [hB2, hrange, double_image val hr, u32_of_lt _ (by simpa using hfit')]
    simp [hlen]
  | .unicode_string val => by
    intro hr fuel hf p s oob hfit
    simp only [depth] at hf
    obtain ⟨f, rfl⟩ : ∃ f, fuel = f + 1 := ⟨fuel - 1, by omega⟩
    simp only [representable] at hr
    have hr' : val.length < 2147483648 := by simpa using hr
    have hu : u32 val.length = val.length := u32_of_lt _ (by simp; omega)
    have h0 := buffer_lt p (encode other (.unicode_string val)) s (encode_pos _ _)
    have he : encode other (.unicode_string val)
        = append_integer_header 3 val.length [] ++ val := by
      simp [encode, encode_onto, hu]
    rw [he] at hfit h0 ⊢
    have hfit' : p.length + (append_integer_header 3 val.length []).length + val.length
        < 4294967296 := by
      simp only [List.length_append] at hfit
      have : p.length + ((append_integer_header 3 val.length []).length + val.length)
        < 4294967296 := by simpa using hfit
      omega
    have hB : p ++ (append_integer_header 3 val.length [] ++ val) ++ s
        = p ++ append_integer_header 3 val.length [] ++ (val ++ s) := by
      simp [List.append_assoc]
    have hB2 : p ++ append_integer_header 3 val.length [] ++ (val ++ s)
        = (p ++ append_integer_header 3 val.length []) ++ val ++ s := by
      simp [List.append_assoc]
    rw [hB] at h0 ⊢
    obtain ⟨hmaj, hread⟩ := read_header_at 3 val.length (by decide) (by simp; omega) p
      (val ++ s) oob (by simp; omega)
    have hti : to_int val.length = (val.length : Int) := to_int_of_lt _ hr
    have htu : to_unsigned (to_int val.length) = val.length :=
      to_unsigned_to_int _ (by simp; omega)
    have hlast : u32 (p.length + (append_integer_header 3 val.length []).length
        + to_unsigned (to_int val.length))
        = p.length + (append_integer_header 3 val.length []).length + val.length := by
      rw [htu]; exact u32_of_lt _ (by simpa using hfit')
    rw [construct_from_major3 f _ oob p.length h0 hmaj _ _ hread (by rw [hti]; omega)
      (by rw [hlast]; simp; omega) (by rw [hlast]; omega), hlast, hB2]
    have hrange := range_bytes_mid (p ++ append_integer_header 3 val.length []) val s oob
    rw [List.length_append] at hrange
    rw [hrange]
    simp [Nat.add_assoc]
  | .none => by
    intro hr fuel hf p s oob hfit
    simp only [depth] at hf
    obtain ⟨f, rfl⟩ : ∃ f, fuel = f + 1 := ⟨fuel - 1, by omega⟩
    have h0 := buffer_lt p (encode other .none) s (encode_pos _ _)
    have he : encode other .none = [246] := by simp [encode, encode_onto]
    rw [he] at hfit h0 ⊢
    have hfit' : p.length + 1 < 4294967296 := by simpa using hfit
    have r0 := rd_mid_zero p [246] s oob (by simp)
    simp only [List.getD_cons_zero] at r0
    have hmaj : major (rd (p ++ [246] ++ s) oob p.length) = 7 := by rw [r0]; rfl
    rw [construct_from_major7 f _ oob p.length h0 hmaj, r0]
    simp only [show additional 246 = 22 by rfl, show ¬ ((22 : Nat) = 26) by decide,
      show ¬ ((22 : Nat) = 27) by decide, if_false, if_true]
    rw [u32_of_lt _ (by simpa using hfit')]
    simp
  | .bytes val => by
    intro hr fuel hf p s oob hfit
    simp only [depth] at hf
    obtain ⟨f, rfl⟩ : ∃ f, fuel = f + 1 := ⟨fuel - 1, by omega⟩
    simp only [representable] at hr
    have hr' : val.length < 2147483648 := by simpa using hr
    have hu : u32 val.length = val.length := u32_of_lt _ (by simp; omega)
    have h0 := buffer_lt p (encode other (.bytes val)) s (encode_pos _ _)
    have he : encode other (.bytes val) = append_integer_header 2 val.length [] ++ val := by
      simp [encode, encode_onto, hu]
    rw [he] at hfit h0 ⊢
    have hfit' : p.length + (append_integer_header 2 val.length []).length + val.length
        < 4294967296 := by
      simp only [List.length_append] at hfit
      have : p.length + ((append_integer_header 2 val.length []).length + val.length)
        < 4294967296 := by simpa using hfit
      omega
    have hB : p ++ (append_integer_header 2 val.length [] ++ val) ++ s
        = p ++ append_integer_header 2 val.length [] ++ (val ++ s) := by
      simp [List.append_assoc]
    have hB2 : p ++ append_integer_header 2 val.length [] ++ (val ++ s)
        = (p ++ append_integer_header 2 val.length []) ++ val ++ s := by
      simp [List.append_assoc]
    rw [hB] at h0 ⊢
    obtain ⟨hmaj, hread⟩ := read_header_at 2 val.length (by decide) (by simp; omega) p
      (val ++ s) oob (by simp; omega)
    have hti : to_int val.length = (val.length : Int) := to_int_of_lt _ hr
    have htu : to_unsigned (to_int val.length) = val.length :=
      to_unsigned_to_int _ (by simp; omega)
    have hlast : u32 (p.length + (append_integer_header 2 val.length []).length
        + to_unsigned (to_int val.length))
        = p.length + (append_integer_header 2 val.length []).length + val.length := by
      rw [htu]; exact u32_of_lt _ (by simpa using hfit')
    rw [construct_from_major2 f _ oob p.length h0 hmaj _ _ hread (by rw [hti]; omega)
      (by rw [hlast]; simp; omega) (by rw [hlast]; omega), hlast, hB2]
    have hrange := range_bytes_mid (p ++ append_integer_header 2 val.length []) val s oob
    rw [List.length_append] at hrange
    rw [hrange]
    simp [Nat.add_assoc]
  | .array xs => by
    intro hr fuel hf p s oob hfit
    simp only [depth] at hf
    obtain ⟨f, rfl⟩ : ∃ f, fuel = f + 1 := ⟨fuel - 1, by omega⟩
    simp only [representable] at hr
    have h0 := buffer_lt p (encode other (.array xs)) s (encode_pos _ _)
    rw [encode_array_eq] at hfit h0 ⊢
    have hge := encode_array_length_ge other xs
    have hfit' : p.length + (append_integer_header 4 (u32 xs.length) []).length
        + (encode_array other xs []).length < 4294967296 := by
      simp only [List.length_append] at hfit
      have : p.length + ((append_integer_header 4 (u32 xs.length) []).length
        + (encode_array other xs []).length) < 4294967296 := by simpa using hfit
      omega
    have hu : u32 xs.length = xs.length := u32_of_lt _ (by simp; omega)
    rw [hu] at hfit' h0 ⊢
    have hB : p ++ (append_integer_header 4 xs.length [] ++ encode_array other xs []) ++ s
        = p ++ append_integer_header 4 xs.length [] ++ (encode_array other xs [] ++ s) := by
      simp [List.append_assoc]
    have hB2 : p ++ append_integer_header 4 xs.length [] ++ (encode_array other xs [] ++ s)
        = (p ++ append_integer_header 4 xs.length []) ++ encode_array other xs [] ++ s := by
      simp [List.append_assoc]
    rw [hB] at h0 ⊢
    obtain ⟨hmaj, hread⟩ := read_header_at 4 xs.length (by decide) (by simp; omega) p
      (encode_array other xs [] ++ s) oob (by simp; omega)
    have htu : to_unsigned (to_int xs.length) = xs.length :=
      to_unsigned_to_int _ (by simp; omega)
    have hloop := decode_encode_array other xs hr f (by omega)
      (p ++ append_integer_header 4 xs.length []) s oob
      (by rw [List.length_append]; simpa using hfit') []
      (List.replicate xs.length (.integer 0)) (by simp)
    rw [← hB2] at hloop
    simp only [List.nil_append, List.length_nil, List.length_append] at hloop
    rw [construct_from_major4 f _ oob p.length h0 hmaj _ _ hread xs _ (by rw [htu]; exact hloop)]
    simp [Nat.add_assoc]
  | .map kvs => by
    intro hr fuel hf p s oob hfit
    simp only [depth] at hf
    obtain ⟨f, rfl⟩ : ∃ f, fuel = f + 1 := ⟨fuel - 1, by omega⟩
    simp only [representable] at hr
    have h0 := buffer_lt p (encode other (.map kvs)) s (encode_pos _ _)
    rw [encode_map_eq] at hfit h0 ⊢
    have hge := encode_map_length_ge other kvs
    have hfit' : p.length + (append_integer_header 5 (u32 kvs.length) []).length
        + (encode_map other kvs []).length < 4294967296 := by
      simp only [List.length_append] at hfit
      have : p.length + ((append_integer_header 5 (u32 kvs.length) []).length
        + (encode_map other kvs []).length) < 4294967296 := by simpa using hfit
      omega
    have hu : u32 kvs.length = kvs.length := u32_of_lt _ (by simp; omega)
    rw [hu] at hfit' h0 ⊢
    have hB : p ++ (append_integer_header 5 kvs.length [] ++ encode_map other kvs []) ++ s
        = p ++ append_integer_header 5 kvs.length [] ++ (encode_map other kvs [] ++ s) := by
      simp [List.append_assoc]
    have hB2 : p ++ append_integer_header 5 kvs.length [] ++ (encode_map other kvs [] ++ s)
        = (p ++ append_integer_header 5 kvs.length []) ++ encode_map other kvs [] ++ s := by
      simp [List.append_assoc]
    rw [hB] at h0 ⊢
    obtain ⟨hmaj, hread⟩ := read_header_at 5 kvs.length (by decide) (by simp; omega) p
      (encode_map other kvs [] ++ s) oob (by simp; omega)
    have htn : (to_int kvs.length).toNat = kvs.length := to_int_toNat _ (by simp; omega)
    have hloop := decode_encode_map other kvs hr.2 f (by omega)
      (p ++ append_integer_header 5 kvs.length []) s oob
      (by rw [List.length_append]; simpa using hfit') []
      (by simp) (by simpa using hr.1)
    rw [← hB2] at hloop
    simp only [List.nil_append, List.length_append] at hloop
    rw [construct_from_major5 f _ oob p.length h0 hmaj _ _ hread kvs _ (by rw [htn]; exact hloop)]
    simp [Nat.add_assoc]
theorem decode_encode_array (other : cbor_variant → List Nat) :
    ∀ (xs : List cbor_variant), representable_array xs → ∀ (fuel : Nat), depth_array xs ≤ fuel →
      ∀ (p s : List Nat) (oob : Nat → Nat),
        p.length + (encode_array other xs []).length < 2 ^ 32 →
        ∀ (pre junk : List cbor_variant), junk.length = xs.length →
          array_loop (construct_from fuel (p ++ encode_array other xs [] ++ s) oob) xs.length
              pre.length (pre ++ junk) p.length
            = (.value (pre ++ xs), p.length + (encode_array other xs []).length)
  | [] => by
    intro _ fuel _ p s oob _ pre junk hj
    have : junk = [] := List.length_eq_zero.mp hj
    subst this
    simp [array_loop, encode_array]
  | x :: xs => by
    intro hr fuel hf p s oob hfit pre junk hj
    simp only [representable_array] at hr
    simp only [depth_array] at hf
    obtain ⟨j, junk', rfl⟩ : ∃ j junk', junk = j :: junk' := by
      cases junk with
      | nil => simp at hj
      | cons j junk' => exact ⟨j, junk', rfl⟩
    rw [encode_array_cons] at hfit ⊢
    have hfit' : p.length + (encode other x).length + (encode_array other xs []).length
        < 4294967296 := by
      simp only [List.length_append] at hfit
      have : p.length + ((encode other x).length + (encode_array other xs []).length)
        < 4294967296 := by simpa using hfit
      omega
    have hB : p ++ (encode other x ++ encode_array other xs []) ++ s
        = p ++ encode other x ++ (encode_array other xs [] ++ s) := by
      simp [List.append_assoc]
    have hB2 : p ++ encode other x ++ (encode_array other xs [] ++ s)
        = (p ++ encode other x) ++ encode_array other xs [] ++ s := by
      simp [List.append_assoc]
    have hx := decode_encode other x hr.1 fuel (le_trans (le_max_left _ _) hf) p
      (encode_array other xs [] ++ s) oob (by simp; omega)
    have hxs := decode_encode_array other xs hr.2 fuel (le_trans (le_max_right _ _) hf)
      (p ++ encode other x) s oob (by rw [List.length_append]; simpa using hfit')
      (pre ++ [x]) junk' (by simpa using hj)
    rw [← hB2] at hxs
    rw [hB, List.length_cons, array_loop]
    simp only [hx, list_set_mid]
    simp only [List.length_append, List.length_singleton] at hxs
    rw [hxs]
    simp [Nat.add_assoc]
theorem decode_encode_map (other : cbor_variant → List Nat) :
    ∀ (kvs : List (cbor_variant × cbor_variant)), representable_map kvs →
      ∀ (fuel : Nat), depth_map kvs ≤ fuel →
      ∀ (p s : List Nat) (oob : Nat → Nat),
        p.length + (encode_map other kvs []).length < 2 ^ 32 →
        ∀ (acc : List (cbor_variant × cbor_variant)),
          (∀ e ∈ acc, ∃ t, e.1 = cbor_variant.unicode_string t) →
          keys_increasing (acc ++ kvs) →
          map_loop (construct_from fuel (p ++ encode_map other kvs [] ++ s) oob)
              (p ++ encode_map other kvs [] ++ s) oob kvs.length acc p.length
            = (.value (acc ++ kvs), p.length + (encode_map other kvs []).length)
  | [] => by
    intro _ fuel _ p s oob _ acc _ _
    simp [map_loop, encode_map]
  | (k, v) :: rest => by
    intro hr fuel hf p s oob hfit acc hacc hinc
    simp only [representable_map] at hr
    simp only [depth_map] at hf
    obtain ⟨⟨t, rfl, ht⟩, hv, hrest⟩ := hr
    rw [encode_map_cons] at hfit ⊢
    simp only [key_chars] at hfit ⊢
    have hfit' : p.length + (append_integer_header 3 (u32 t.length) []).length + t.length
        + (encode other v).length + (encode_map other rest []).length < 4294967296 := by
      simp only [List.length_append] at hfit
      have : p.length + ((append_integer_header 3 (u32 t.length) []).length + t.length
        + (encode other v).length + (encode_map other rest []).length) < 4294967296 := by
        simpa using hfit
      omega
    have hB : p ++ (append_integer_header 3 (u32 t.length) [] ++ t ++ encode other v
          ++ encode_map other rest []) ++ s
        = p ++ (append_integer_header 3 (u32 t.length) [] ++ t)
          ++ (encode other v ++ encode_map other rest [] ++ s) := by
      simp [List.append_assoc]
    have hB1 : p ++ (append_integer_header 3 (u32 t.length) [] ++ t)
          ++ (encode other v ++ encode_map other rest [] ++ s)
        = (p ++ (append_integer_header 3 (u32 t.length) [] ++ t)) ++ encode other v
          ++ (encode_map other rest [] ++ s) := by
      simp [List.append_assoc]
    have hB2 : p ++ (append_integer_header 3 (u32 t.length) [] ++ t)
          ++ (encode other v ++ encode_map other rest [] ++ s)
        = (p ++ (append_integer_header 3 (u32 t.length) [] ++ t) ++ encode other v)
          ++ encode_map other rest [] ++ s := by
      simp [List.append_assoc]
    have hkey := read_key_text t p (encode other v ++ encode_map other rest [] ++ s) oob ht
      (by simp; omega)
    have hval := decode_encode other v hv fuel (le_trans (le_max_left _ _) hf)
      (p ++ (append_integer_header 3 (u32 t.length) [] ++ t))
      (encode_map other rest [] ++ s) oob
      (by simp only [List.length_append]; simp; omega)
    rw [← hB1] at hval
    have hset : map_set acc (.unicode_string t) v = acc ++ [(.unicode_string t, v)] := by
      apply map_set_append
      intro e he
      have hlt : variant_lt e.1 (.unicode_string t) = true := by
        have := (List.pairwise_append.mp hinc).2.2 e he (.unicode_string t, v)
          (List.mem_cons_self _ _)
        simpa using this
      obtain ⟨t', ht'⟩ := hacc e he
      rw [ht'] at hlt ⊢
      simp only [variant_lt_text] at hlt ⊢
      exact ⟨hlt, bytes_lt_asymm _ _ hlt⟩
    have hrec := decode_encode_map other rest hrest fuel (le_trans (le_max_right _ _) hf)
      (p ++ (append_integer_header 3 (u32 t.length) [] ++ t) ++ encode other v) s oob
      (by simp only [List.length_append]; simp; omega)
      (acc ++ [(.unicode_string t, v)])
      (by
        intro e he
        rcases List.mem_append.mp he with h | h
        · exact hacc e h
        · simp at h; exact ⟨t, by rw [h]⟩)
      (by simpa [keys_increasing, List.append_assoc] using hinc)
    rw [← hB2] at hrec
    rw [hB, List.length_cons, map_loop]
    simp only [hkey]
    simp only [List.length_append] at hval hrec ⊢
    simp only [Nat.add_assoc] at hval hrec ⊢
    simp only [hval, hset, hrec]
    simp [Nat.add_assoc]
end

/-! ### The cursor is an `unsigned int` -/

theorem u32_lt (n : Nat) : u32 n < 2 ^ 32 := by
  unfold u32; exact Nat.mod_lt _ (by norm_num)

theorem read_integer_header_snd (inp : List Nat) (oob : Nat → Nat) (h offset : Nat) :
    (read_integer_header inp oob h offset).2 = u32 (offset + integer_length (additional h)) := by
  unfold read_integer_header
  simp only
  split_ifs <;> rfl

theorem read_integer_header_snd_lt (inp : List Nat) (oob : Nat → Nat) (h offset : Nat)
    (out : outcome Int) (o : Nat) (hr : read_integer_header inp oob h offset = (out, o)) :
    o < 2 ^ 32 := by
  have := read_integer_header_snd inp oob h offset
  rw [hr] at this
  simp only at this
  rw [this]; exact u32_lt _

theorem read_key_snd_lt (inp : List Nat) (oob : Nat → Nat) (offset : Nat)
    (h : offset < 2 ^ 32) : (read_key inp oob offset).2 < 2 ^ 32 := by
  unfold read_key read_integer_head
  simp only
  generalize hr : read_integer_header inp oob (rd inp oob offset) offset = res
  obtain ⟨out, o⟩ := res
  have ho := read_integer_header_snd_lt _ _ _ _ _ _ hr
  by_cases h0 : major (rd inp oob offset) = 0
  · simp only [h0, if_true]
    cases out <;> exact ho
  · by_cases h1 : major (rd inp oob offset) = 1
    · simp only [h1, if_true]
      cases out <;> simpa using ho
    · by_cases h23 : major (rd inp oob offset) = 2 ∨ major (rd inp oob offset) = 3
      · simp only [h0, h1, h23, if_true, if_false]
        cases out with
        | value r =>
          simp only
          by_cases c1 : r < 0
          · simp only [c1, if_true]; exact ho
          · by_cases c2 : u32 (o + to_unsigned r) < o
            · simp only [c1, c2, if_true, if_false]; exact ho
            · by_cases c3 : major (rd inp oob offset) = 2
              · simp only [c1, c2, c3, if_true, if_false]; exact u32_lt _
              · simp only [c1, c2, c3, if_false]; exact u32_lt _
        | thrown e => exact ho
        | no_fuel => exact ho
      · simp only [h0, h1, h23, if_false]; exact h

theorem array_loop_snd_lt (dec : Nat → outcome cbor_variant × Nat)
    (hdec : ∀ o, o < 2 ^ 32 → (dec o).2 < 2 ^ 32) :
    ∀ (n i : Nat) (rtn : List cbor_variant) (o : Nat), o < 2 ^ 32 →
      (array_loop dec n i rtn o).2 < 2 ^ 32
  | 0, _, _, o, h => by simpa [array_loop] using h
  | n + 1, i, rtn, o, h => by
    rw [array_loop]
    have hd := hdec o h
    generalize dec o = res at hd
    obtain ⟨out, o'⟩ := res
    cases out with
    | value v => exact array_loop_snd_lt dec hdec n (i + 1) _ o' hd
    | thrown e => exact hd
    | no_fuel => exact hd

theorem map_loop_snd_lt (dec : Nat → outcome cbor_variant × Nat) (inp : List Nat)
    (oob : Nat → Nat) (hdec : ∀ o, o < 2 ^ 32 → (dec o).2 < 2 ^ 32) :
    ∀ (n : Nat) (rtn : List (cbor_variant × cbor_variant)) (o : Nat), o < 2 ^ 32 →
      (map_loop dec inp oob n rtn o).2 < 2 ^ 32
  | 0, _, o, h => by simpa [map_loop] using h
  | n + 1, rtn, o, h => by
    rw [map_loop]
    have hk := read_key_snd_lt inp oob o h
    generalize read_key inp oob o = res at hk
    obtain ⟨out, o1⟩ := res
    cases out with
    | value key =>
      simp only
      have hd := hdec o1 hk
      generalize dec o1 = res2 at hd
      obtain ⟨out2, o2⟩ := res2
      cases out2 with
      | value v => exact map_loop_snd_lt dec inp oob hdec n _ o2 hd
      | thrown e => exact hd
      | no_fuel => exact hd
    | thrown e => exact hk
    | no_fuel => exact hk

/-- The cursor stays an `unsigned int`: whatever the outcome of a decode started below
`2 ^ 32`, the cursor ends below `2 ^ 32`. -/
theorem construct_from_snd_lt (inp : List Nat) (oob : Nat → Nat) :
    ∀ (fuel offset : Nat), offset < 2 ^ 32 → (construct_from fuel inp oob offset).2 < 2 ^ 32
  | 0, offset, h => by simpa [construct_from] using h
  | fuel + 1, offset, h => by
    have ih := construct_from_snd_lt inp oob fuel
    rw [construct_from]
    simp only
    by_cases hs : inp.length ≤ offset
    · simp only [hs, if_true]; exact h
    simp only [hs, if_false]
    generalize hr : read_integer_header inp oob (rd inp oob offset) offset = res
    obtain ⟨out, o⟩ := res
    have ho := read_integer_header_snd_lt _ _ _ _ _ _ hr
    by_cases h0 : major (rd inp oob offset) = 0
    · simp only [h0, if_true]
      cases out <;> exact ho
    by_cases h1 : major (rd inp oob offset) = 1
    · simp only [h1, if_true]
      cases out <;> simpa using ho
    by_cases h23 : major (rd inp oob offset) = 2 ∨ major (rd inp oob offset) = 3
    · simp only [h0, h1, h23, if_true, if_false]
      cases out with
      | value r =>
        simp only
        by_cases c1 : r < 0
        · simp only [c1, if_true]; exact ho
        · by_cases c2 : inp.length < u32 (o + to_unsigned r)
          · simp only [c1, c2, if_true, if_false]; exact u32_lt _
          · by_cases c3 : u32 (o + to_unsigned r) < o
            · simp only [c1, c2, c3, if_true, if_false]; exact u32_lt _
            · by_cases c4 : major (rd inp oob offset) = 2
              · simp only [c1, c2, c3, c4, if_true, if_false]; exact u32_lt _
              · simp only [c1, c2, c3, c4, if_false]; exact u32_lt _
      | thrown e => exact ho
      | no_fuel => exact ho
    by_cases h4 : major (rd inp oob offset) = 4
    · simp only [h4, if_true]
      cases out with
      | value r =>
        simp only
        have hl := array_loop_snd_lt (construct_from fuel inp oob) ih (to_unsigned r) 0
          (List.replicate (to_unsigned r) (.integer 0)) o ho
        generalize array_loop (construct_from fuel inp oob) (to_unsigned r) 0
          (List.replicate (to_unsigned r) (.integer 0)) o = res2 at hl
        obtain ⟨out2, o2⟩ := res2
        cases out2 <;> exact hl
      | thrown e => simpa using ho
      | no_fuel => simpa using ho
    by_cases h5 : major (rd inp oob offset) = 5
    · simp only [h5, if_true]
      cases out with
      | value r =>
        simp only
        have hl := map_loop_snd_lt (construct_from fuel inp oob) inp oob ih r.toNat [] o ho
        generalize map_loop (construct_from fuel inp oob) inp oob r.toNat [] o = res2 at hl
        obtain ⟨out2, o2⟩ := res2
        cases out2 <;> exact hl
      | thrown e => simpa using ho
      | no_fuel => simpa using ho
    by_cases h6 : major (rd inp oob offset) = 6
    · simp only [h6, if_true]
      cases out with
      | value r => exact ih o ho
      | thrown e => simpa using ho
      | no_fuel => simpa using ho
    by_cases h7 : major (rd inp oob offset) = 7
    · simp only [h0, h1, h23, h4, h5, h6, h7, if_true, if_false]
      by_cases a26 : additional (rd inp oob offset) = 26
      · simp only [a26, if_true]; exact u32_lt _
      by_cases a27 : additional (rd inp oob offset) = 27
      · simp only [a27, if_true]; exact u32_lt _
      by_cases a22 : additional (rd inp oob offset) = 22
      · simp only [a22, if_true]; exact u32_lt _
      simp only [a26, a27, a22, if_false]; exact h
    simp only [h0, h1, h23, h4, h5, h6, h7, if_false]; exact h

theorem encode_integer_ten (other : cbor_variant → List Nat) :
    encode other (.integer 10) = [10] := rfl

/-- Decoding a one-byte integer that sits at offset `2 ^ 32 - 1` wraps the cursor to 0. -/
theorem decode_at_last_offset (p : List Nat) (hp : p.length = 2 ^ 32 - 1) (oob : Nat → Nat) :
    construct_from 1 (p ++ [10] ++ []) oob p.length = (.value (.integer 10), 0) := by
  have r0 := rd_mid_zero p [10] [] oob (by simp)
  simp only [List.getD_cons_zero] at r0
  have h0 := buffer_lt p [10] [] (by simp)
  have hread := read_integer_header_direct (p ++ [10] ++ []) oob 10 p.length (by decide)
  have hu : u32 (p.length + 1) = 0 := by rw [hp]; rfl
  rw [hu] at hread
  have h := construct_from_major0 0 (p ++ [10] ++ []) oob p.length h0 (by rw [r0]; rfl)
    ((additional 10 : Nat) : Int) 0 (by rw [r0]; exact hread)
  rw [h]
  rfl

/-- C2 (as stated, refuted). With a prefix of `2 ^ 32 - 1` bytes before the one-byte encoding
of Integer(10), decoding at the end of the prefix returns Integer(10) but leaves the cursor at
0, not at `|p| + |encode v| = 2 ^ 32`: the cursor is an `unsigned int`. -/
theorem streaming_cursor_wraps :
    representable (.integer 10) ∧
    (List.replicate (2 ^ 32 - 1) 0).length + (encode (fun _ => []) (.integer 10)).length
      = 2 ^ 32 ∧
    construct_from 1
        (List.replicate (2 ^ 32 - 1) 0 ++ encode (fun _ => []) (.integer 10) ++ [])
        (fun _ => 0) (List.replicate (2 ^ 32 - 1) 0).length
      = (.value (.integer 10), 0) := by
  refine ⟨?_, ?_, ?_⟩
  · simp only [representable]
    constructor <;> decide
  · rw [List.length_replicate, encode_integer_ten]
    rfl
  · rw [encode_integer_ten]
    exact decode_at_last_offset _ (List.length_replicate _ _) _

/-- C2 (amended). Streaming: for every representable value `v` (Integer, Float, Null, Text,
Bytes, Array, Map with Text keys, strings shorter than `2 ^ 31`), every prefix `p` and suffix
`s` with `|p| + |encode v| < 2 ^ 32`, decoding `p ++ encode v ++ s` with the cursor at `|p|`
returns `v` and leaves the cursor at `|p| + |encode v|`. -/
theorem streaming_decode (other : cbor_variant → List Nat) (v : cbor_variant)
    (hv : representable v) (fuel : Nat) (hf : depth v ≤ fuel) (p s : List Nat)
    (oob : Nat → Nat) (hfit : p.length + (encode other v).length < 2 ^ 32) :
    construct_from fuel (p ++ encode other v ++ s) oob p.length
      = (.value v, p.length + (encode other v).length) :=
  decode_encode other v hv fuel hf p s oob hfit

/-- Witness for C2: a map between one prefix byte and one suffix byte. -/
theorem streaming_decode_witness :
    construct_from 3
        ([0xff] ++ encode (fun _ => [])
          (.map [(.unicode_string [0x61], .array [.integer 1, .none])]) ++ [0x00])
        (fun _ => 0) 1
      = (.value (.map [(.unicode_string [0x61], .array [.integer 1, .none])]),
         1 + (encode (fun _ => [])
          (.map [(.unicode_string [0x61], .array [.integer 1, .none])])).length) :=
  streaming_decode (fun _ => []) (.map [(.unicode_string [0x61], .array [.integer 1, .none])])
    (by simp [representable, representable_map, representable_array, keys_increasing])
    3 (by simp [depth, depth_map, depth_array]) [0xff] [0x00] (fun _ => 0)
    (by rw [show encode (fun _ => [])
          (.map [(.unicode_string [0x61], .array [.integer 1, .none])])
          = [0xa1, 0x61, 0x61, 0x82, 0x01, 0xf6] from rfl]; decide)

theorem encode_unicode_string_eq (other : cbor_variant → List Nat) (t : List Nat) :
    encode other (.unicode_string t) = append_integer_header 3 (u32 t.length) [] ++ t := by
  unfold encode
  rw [encode_onto, append_integer_header_append]

/-- A Text of exactly `2 ^ 31` bytes: the length is read back as a negative `int`. -/
theorem decode_long_text (other : cbor_variant → List Nat) (t : List Nat)
    (ht : t.length = 2 ^ 31) (oob : Nat → Nat) (fuel : Nat) :
    construct_from (fuel + 1) (encode other (.unicode_string t)) oob 0
      = (.thrown .negative_length, 5) := by
  have he : encode other (.unicode_string t) = [] ++ [0x7a, 0x80, 0, 0, 0] ++ t := by
    rw [encode_unicode_string_eq, ht]
    rfl
  rw [he]
  have r := fun k hk => rd_mid [] [0x7a, 0x80, 0, 0, 0] t oob k hk
  simp only [List.length_nil, Nat.zero_add] at r
  have r0 := r 0 (by decide)
  have r1 := r 1 (by decide)
  have r2 := r 2 (by decide)
  have r3 := r 3 (by decide)
  have r4 := r 4 (by decide)
  simp only [List.getD_cons_zero, List.getD_cons_succ] at r0 r1 r2 r3 r4
  have hlen : ([] ++ [0x7a, 0x80, 0, 0, 0] ++ t).length = 5 + t.length := by
    simp only [List.nil_append, List.length_append, List.length_cons, List.length_nil]
  have hread := read_integer_header_26 ([] ++ [0x7a, 0x80, 0, 0, 0] ++ t) oob 0x7a 0 (by rfl)
    (by rw [show u32 (0 + 5) = 5 from rfl, hlen]; omega)
  have hv : to_int (ntohl (load32 ([] ++ [0x7a, 0x80, 0, 0, 0] ++ t) oob (u32 (0 + 1))))
      = -2147483648 := by
    rw [show u32 (0 + 1) = 1 from rfl]
    simp only [load32, r1, r2, r3, r4]
    rfl
  rw [hv, show u32 (0 + 5) = 5 from rfl] at hread
  have h0 : ¬ ([] ++ [0x7a, 0x80, 0, 0, 0] ++ t).length ≤ 0 := by rw [hlen]; omega
  rw [construct_from]
  simp only [h0, if_false, r0, hread]
  rfl

/-- C1 (as stated, refuted). A Map with a Bytes key does not round-trip: its key is written
with a Text header and comes back as Text.  A Text of `2 ^ 31` bytes does not round-trip
either: its length is read back as a negative `int` and decode throws. -/
theorem round_trip_fails :
    (∀ (other : cbor_variant → List Nat) (oob : Nat → Nat),
      encode other (.map [(.bytes [1], .integer 0)]) = [0xa1, 0x61, 0x01, 0x00] ∧
      construct_from 2 (encode other (.map [(.bytes [1], .integer 0)])) oob 0
        = (.value (.map [(.unicode_string [1], .integer 0)]), 4) ∧
      ∀ fuel, construct_from_start fuel (encode other (.map [(.bytes [1], .integer 0)])) oob
        ≠ .value (.map [(.bytes [1], .integer 0)])) ∧
    (∀ (other : cbor_variant → List Nat) (oob : Nat → Nat) (fuel : Nat),
      construct_from (fuel + 1) (encode other (.unicode_string (List.replicate (2 ^ 31) 0x61)))
        oob 0 = (.thrown .negative_length, 5)) := by
  refine ⟨?_, ?_⟩
  · intro other oob
    have he : encode other (.map [(.bytes [1], .integer 0)]) = [0xa1, 0x61, 0x01, 0x00] := by
      rfl
    refine ⟨he, ?_, ?_⟩
    · rw [he]
      simp [construct_from, rd, major, additional, read_integer_header, integer_length, u32,
        map_loop, read_key, to_unsigned, range_bytes, map_set, List.range, List.range.loop]
    · intro fuel
      rw [he]
      unfold construct_from_start
      match fuel with
      | 0 => simp [construct_from]
      | 1 =>
        simp [construct_from, rd, major, additional, read_integer_header, integer_length, u32,
          map_loop, read_key, to_unsigned, range_bytes, map_set, List.range, List.range.loop]
      | f + 2 =>
        simp [construct_from, rd, major, additional, read_integer_header, integer_length, u32,
          map_loop, read_key, to_unsigned, range_bytes, map_set, List.range, List.range.loop]
  · intro other oob fuel
    exact decode_long_text other _ (List.length_replicate _ _) oob fuel

/-- C1 (amended). Round trip: for every representable value `v` (Integer in 32-bit signed
range, Float as a 64-bit pattern, Null, Text and Bytes shorter than `2 ^ 31`, Array of
representable values, Map whose keys are Text shorter than `2 ^ 31` and whose values are
representable) whose encoding is shorter than `2 ^ 32` bytes, decoding `encode v` from offset 0
succeeds and returns `v`. -/
theorem round_trip (other : cbor_variant → List Nat) (v : cbor_variant)
    (hv : representable v) (hfit : (encode other v).length < 2 ^ 32)
    (fuel : Nat) (hf : depth v ≤ fuel) (oob : Nat → Nat) :
    construct_from_start fuel (encode other v) oob = .value v := by
  have h := decode_encode other v hv fuel hf [] [] oob (by simpa using hfit)
  unfold construct_from_start
  simp only [List.nil_append, List.append_nil, List.length_nil] at h
  rw [h]

/-- Witness for C1: an array holding a map with two Text keys and the smallest `int`. -/
theorem round_trip_witness :
    construct_from_start 3
        (encode (fun _ => [])
          (.array [.map [(.unicode_string [0x61], .bytes [1, 2]),
                         (.unicode_string [0x62], .floating_point 0x3ff8000000000000)],
                   .integer (-2147483648)]))
        (fun _ => 0)
      = .value (.array [.map [(.unicode_string [0x61], .bytes [1, 2]),
                         (.unicode_string [0x62], .floating_point 0x3ff8000000000000)],
                   .integer (-2147483648)]) :=
  round_trip (fun _ => []) _
    (by simp [representable, representable_map, representable_array, keys_increasing,
      variant_lt, bytes_lt])
    (by rw [show encode (fun _ => [])
          (.array [.map [(.unicode_string [0x61], .bytes [1, 2]),
                         (.unicode_string [0x62], .floating_point 0x3ff8000000000000)],
                   .integer (-2147483648)])
          = [0x82, 0xa2, 0x61, 0x61, 0x42, 1, 2, 0x61, 0x62, 0xfb, 0x3f, 0xf8, 0, 0, 0, 0, 0, 0,
             0x3a, 0x7f, 0xff, 0xff, 0xff] from rfl]; decide)
    3 (by simp [depth, depth_map, depth_array]) (fun _ => 0)

/-- A tag header followed by anything: decoding at the tag is decoding at the cursor behind the
tag header, whatever the tag number. -/
theorem construct_from_tag (N : Nat) (hN : N < 2 ^ 32) (p rest : List Nat) (oob : Nat → Nat)
    (fuel : Nat) (hfit : p.length + (append_integer_header 6 N []).length < 2 ^ 32) :
    construct_from (fuel + 1) (p ++ append_integer_header 6 N [] ++ rest) oob p.length
      = construct_from fuel (p ++ append_integer_header 6 N [] ++ rest) oob
          (p.length + (append_integer_header 6 N []).length) := by
  obtain ⟨hmaj, hread⟩ := read_header_at 6 N (by decide) hN p rest oob hfit
  exact construct_from_major6 fuel _ oob p.length
    (buffer_lt p _ rest (append_integer_header_pos 6 N)) hmaj _ _ hread

/-- C4. Tag transparency: for every tag number `N` (an `unsigned int`) and every value `v`,
in the buffer made of the major-6 header for `N` followed by `encode v`, (1) whenever the
encoding of `v`, where it sits behind the tag header, decodes back to `v`, decoding from the tag
returns exactly `v` with the cursor behind both the tag header and the wrapped item; and (2)
that is the case for every representable `v` when the tagged item is shorter than `2 ^ 32`
bytes.  The result does not mention `N`. -/
theorem tag_transparent (N : Nat) (hN : N < 2 ^ 32) (other : cbor_variant → List Nat)
    (v : cbor_variant) (s : List Nat) (oob : Nat → Nat) (fuel : Nat) :
    (construct_from fuel (append_integer_header 6 N [] ++ encode other v ++ s) oob
          (append_integer_header 6 N []).length
        = (.value v, (append_integer_header 6 N []).length + (encode other v).length) →
      construct_from (fuel + 1) (append_integer_header 6 N [] ++ encode other v ++ s) oob 0
        = (.value v, (append_integer_header 6 N []).length + (encode other v).length)) ∧
    (representable v → depth v ≤ fuel →
      (append_integer_header 6 N []).length + (encode other v).length < 2 ^ 32 →
      construct_from (fuel + 1) (append_integer_header 6 N [] ++ encode other v ++ s) oob 0
        = (.value v, (append_integer_header 6 N []).length + (encode other v).length)) := by
  have h5 := append_integer_header_le 6 N
  have htag := construct_from_tag N hN [] (encode other v ++ s) oob fuel
    (by simp only [List.length_nil, Nat.zero_add]
        exact lt_of_le_of_lt h5 (by norm_num))
  simp only [List.nil_append, List.length_nil, Nat.zero_add] at htag
  rw [← List.append_assoc] at htag
  refine ⟨fun h => by rw [htag, h], fun hv hf hfit => ?_⟩
  rw [htag]
  exact decode_encode other v hv fuel hf (append_integer_header 6 N []) s oob hfit

/-- Witness for C4: the array `[7]` behind tag 55799. -/
theorem tag_transparent_witness :
    construct_from 3
        (append_integer_header 6 55799 [] ++ encode (fun _ => []) (.array [.integer 7]) ++ [])
        (fun _ => 0) 0
      = (.value (.array [.integer 7]),
         (append_integer_header 6 55799 []).length
           + (encode (fun _ => []) (.array [.integer 7])).length) :=
  (tag_transparent 55799 (by decide) (fun _ => []) (.array [.integer 7]) [] (fun _ => 0) 2).1
    (by rfl)

theorem encode_bytes_length (other : cbor_variant → List Nat) (b : List Nat) :
    (encode other (.bytes b)).length
      = (append_integer_header 2 (u32 b.length) []).length + b.length := by
  unfold encode
  rw [encode_onto, append_integer_header_append]
  simp only [List.nil_append, List.length_append]

/-- Facts about an array of two byte strings of `2 ^ 31 - 1` and `2 ^ 31 - 12` bytes and one
integer: it is representable, of depth 2, and its encoding is `2 ^ 32 - 1` bytes long. -/
theorem long_shape (other : cbor_variant → List Nat) (a b : List Nat)
    (ha : a.length = 2 ^ 31 - 1) (hb : b.length = 2 ^ 31 - 12) :
    representable (.array [.bytes a, .bytes b, .integer 0]) ∧
    depth (.array [.bytes a, .bytes b, .integer 0]) = 2 ∧
    (encode other (.array [.bytes a, .bytes b, .integer 0])).length = 2 ^ 32 - 1 := by
  refine ⟨?_, ?_, ?_⟩
  · simp only [representable, representable_array, ha, hb]
    norm_num
  · simp [depth, depth_array]
  · rw [encode_array_eq, encode_array_cons, encode_array_cons, encode_array_cons]
    have h0 : (encode other (.integer 0)).length = 1 := rfl
    simp only [List.length_append, encode_bytes_length, append_integer_header_length, ha, hb,
      encode_array, List.length_nil, List.length_cons, u32, h0]
    norm_num

/-- C4 (as stated, refuted). The encoding of `long_array` decodes back to `long_array`, but
behind the one-byte header of tag 0 the tagged item ends at offset `2 ^ 32`, where the
`unsigned int` cursor cannot be: no decode of the tagged buffer returns `long_array` with the
cursor behind the tag header and the wrapped item. -/
theorem tag_cursor_wraps :
    construct_from 2 (encode (fun _ => []) long_array) (fun _ => 0) 0
      = (.value long_array, (encode (fun _ => []) long_array).length) ∧
    ∀ fuel, construct_from fuel
        (append_integer_header 6 0 [] ++ encode (fun _ => []) long_array) (fun _ => 0) 0
      ≠ (.value long_array,
         (append_integer_header 6 0 []).length + (encode (fun _ => []) long_array).length) := by
  obtain ⟨hrep, hdep, hlen⟩ := long_shape (fun _ => []) (List.replicate (2 ^ 31 - 1) 0)
    (List.replicate (2 ^ 31 - 12) 0) (List.length_replicate _ _) (List.length_replicate _ _)
  have hrep' : representable long_array := hrep
  have hdep' : depth long_array = 2 := hdep
  have hlen' : (encode (fun _ => []) long_array).length = 2 ^ 32 - 1 := hlen
  refine ⟨?_, ?_⟩
  · have h := decode_encode (fun _ => []) long_array hrep' 2 (le_of_eq hdep') [] []
      (fun _ => 0) (by rw [hlen']; decide)
    rw [List.nil_append, List.append_nil, List.length_nil, Nat.zero_add] at h
    exact h
  · intro fuel hc
    have hlt := construct_from_snd_lt
      (append_integer_header 6 0 [] ++ encode (fun _ => []) long_array) (fun _ => 0) fuel 0
      (by decide)
    rw [hc, hlen'] at hlt
    exact absurd hlt (by decide)

/-! ### The map loop -/

theorem construct_from_major5_thrown (fuel : Nat) (inp : List Nat) (oob : Nat → Nat)
    (offset : Nat) (h0 : offset < inp.length) (hm : major (rd inp oob offset) = 5)
    (pending_items : Int) (o : Nat)
    (hr : read_integer_header inp oob (rd inp oob offset) offset = (.value pending_items, o))
    (e : error) (o2 : Nat)
    (hloop : map_loop (construct_from fuel inp oob) inp oob pending_items.toNat [] o
      = (.thrown e, o2)) :
    construct_from (fuel + 1) inp oob offset = (.thrown e, o2) := by
  have h0' : ¬ inp.length ≤ offset := by omega
  rw [construct_from]
  simp [h0', hm, hr, hloop]

/-- Running the map loop for `j + m` pairs is running it for `j` pairs and then, from the map
and cursor reached, for `m` more. -/
theorem map_loop_split (dec : Nat → outcome cbor_variant × Nat) (inp : List Nat)
    (oob : Nat → Nat) (m : Nat) :
    ∀ (j : Nat) (rtn : List (cbor_variant × cbor_variant)) (o : Nat)
      (acc : List (cbor_variant × cbor_variant)) (o' : Nat),
      map_loop dec inp oob j rtn o = (.value acc, o') →
      map_loop dec inp oob (j + m) rtn o = map_loop dec inp oob m acc o'
  | 0, rtn, o, acc, o', h => by
    simp only [map_loop, Prod.mk.injEq, outcome.value.injEq] at h
    obtain ⟨rfl, rfl⟩ := h
    simp
  | j + 1, rtn, o, acc, o', h => by
    have e : j + 1 + m = (j + m) + 1 := by omega
    rw [e, map_loop]
    rw [map_loop] at h
    generalize read_key inp oob o = res at h ⊢
    obtain ⟨out, o1⟩ := res
    cases out with
    | value key =>
      simp only at h ⊢
      generalize dec o1 = res2 at h ⊢
      obtain ⟨out2, o2⟩ := res2
      cases out2 with
      | value v =>
        simp only at h ⊢
        exact map_loop_split dec inp oob m j _ o2 acc o' h
      | thrown e => simp at h
      | no_fuel => simp at h
    | thrown e => simp at h
    | no_fuel => simp at h

theorem read_key_rejected (inp : List Nat) (oob : Nat → Nat) (o : Nat)
    (h : 4 ≤ major (rd inp oob o)) : read_key inp oob o = (.thrown .key_not_string, o) := by
  unfold read_key
  have h0 : ¬ major (rd inp oob o) = 0 := by omega
  have h1 : ¬ major (rd inp oob o) = 1 := by omega
  have h23 : ¬ (major (rd inp oob o) = 2 ∨ major (rd inp oob o) = 3) := by omega
  simp only [h0, h1, h23, if_false]

/-- Map key restriction inside the map loop: a key whose header has major type 0, 1, 2 or 3
is accepted as Integer, Integer, Bytes or Text respectively (when its header is read and, for
a string, its length is not negative); a key whose header has major type 4, 5, 6 or 7 makes the
loop throw, and then the decode of the map throws: if the count of the map at the cursor, taken
as an `int`, is `n`, its first `j < n` pairs decode, and the next key header has major type 4
to 7, decode fails.  A count that is negative as an `int` is not covered: the loop does not
run. -/
theorem map_key_restriction (inp : List Nat) (oob : Nat → Nat) (o : Nat) :
    (∀ r o', major (rd inp oob o) = 0 →
      read_integer_head inp oob (rd inp oob o) o = (.value r, o') →
      read_key inp oob o = (.value (.integer r), o')) ∧
    (∀ r o', major (rd inp oob o) = 1 →
      read_integer_header inp oob (rd inp oob o) o = (.value r, o') →
      read_key inp oob o = (.value (.integer (-1 - r)), o')) ∧
    (∀ r o', major (rd inp oob o) = 2 →
      read_integer_header inp oob (rd inp oob o) o = (.value r, o') →
      0 ≤ r → o' ≤ u32 (o' + to_unsigned r) →
      read_key inp oob o
        = (.value (.bytes (range_bytes inp oob o' (u32 (o' + to_unsigned r)))),
           u32 (o' + to_unsigned r))) ∧
    (∀ r o', major (rd inp oob o) = 3 →
      read_integer_header inp oob (rd inp oob o) o = (.value r, o') →
      0 ≤ r → o' ≤ u32 (o' + to_unsigned r) →
      read_key inp oob o
        = (.value (.unicode_string (range_bytes inp oob o' (u32 (o' + to_unsigned r)))),
           u32 (o' + to_unsigned r))) ∧
    (4 ≤ major (rd inp oob o) →
      read_key inp oob o = (.thrown .key_not_string, o) ∧
      ∀ (fuel offset : Nat) (n : Int) (o0 j : Nat) (acc : List (cbor_variant × cbor_variant)),
        offset < inp.length → major (rd inp oob offset) = 5 →
        read_integer_header inp oob (rd inp oob offset) offset = (.value n, o0) →
        j < n.toNat →
        map_loop (construct_from fuel inp oob) inp oob j [] o0 = (.value acc, o) →
        construct_from (fuel + 1) inp oob offset = (.thrown .key_not_string, o)) := by
  refine ⟨?_, ?_, ?_, ?_, ?_⟩
  · intro r o' hm hr
    unfold read_key
    simp only [hm, if_true, hr]
  · intro r o' hm hr
    unfold read_key
    simp [hm, hr]
  · intro r o' hm hr hr0 hw
    have c1 : ¬ r < 0 := by omega
    have c2 : ¬ u32 (o' + to_unsigned r) < o' := by omega
    unfold read_key
    simp [hm, hr, c1, c2]
  · intro r o' hm hr hr0 hw
    have c1 : ¬ r < 0 := by omega
    have c2 : ¬ u32 (o' + to_unsigned r) < o' := by omega
    unfold read_key
    simp [hm, hr, c1, c2]
  · intro hm
    have hk := read_key_rejected inp oob o hm
    refine ⟨hk, ?_⟩
    intro fuel offset n o0 j acc h0 hmaj hr hj hloop
    obtain ⟨m, hm'⟩ : ∃ m, n.toNat = j + (m + 1) := ⟨n.toNat - j - 1, by omega⟩
    have hsplit := map_loop_split (construct_from fuel inp oob) inp oob (m + 1) j [] o0 acc o
      hloop
    have hthrow : map_loop (construct_from fuel inp oob) inp oob (m + 1) acc o
        = (.thrown .key_not_string, o) := by
      rw [map_loop, hk]
    rw [← hm', hthrow] at hsplit
    exact construct_from_major5_thrown fuel inp oob offset h0 hmaj n o0 hr _ _ hsplit

/-- A map of two pairs whose second key is an array header is rejected. -/
theorem map_key_restriction_witness :
    construct_from 2 [0xa2, 0x01, 0x02, 0x80, 0x00] (fun _ => 0) 0
      = (.thrown .key_not_string, 3) :=
  ((map_key_restriction [0xa2, 0x01, 0x02, 0x80, 0x00] (fun _ => 0) 3).2.2.2.2
      (by decide)).2 1 0 2 1 1 [(.integer 1, .integer 2)] (by decide) (by decide) (by rfl)
    (by decide) (by rfl)

/-- C9 (failing input). The item `ba 80 00 00 00 80` has major type 5 and declares `2 ^ 31`
pairs; the header of its first key, the byte `80`, has major type 4, which the key switch of
the map loop rejects.  Decode does not fail: it returns the empty map and leaves the cursor
behind the map header, on the key. -/
theorem array_key_accepted :
    ∀ (oob : Nat → Nat) (fuel : Nat),
      major (rd [0xba, 0x80, 0x00, 0x00, 0x00, 0x80] oob 0) = 5 ∧
      header_magnitude [0xba, 0x80, 0x00, 0x00, 0x00, 0x80] 0 = 2 ^ 31 ∧
      major (rd [0xba, 0x80, 0x00, 0x00, 0x00, 0x80] oob 5) = 4 ∧
      read_key [0xba, 0x80, 0x00, 0x00, 0x00, 0x80] oob 5 = (.thrown .key_not_string, 5) ∧
      construct_from (fuel + 1) [0xba, 0x80, 0x00, 0x00, 0x00, 0x80] oob 0
        = (.value (.map []), 5) := by
  intro oob fuel
  have hmaj : major (rd [0xba, 0x80, 0x00, 0x00, 0x00, 0x80] oob 0) = 5 := by simp [rd, major]
  have hkey : major (rd [0xba, 0x80, 0x00, 0x00, 0x00, 0x80] oob 5) = 4 := by simp [rd, major]
  refine ⟨hmaj, by decide, hkey, read_key_rejected _ oob 5 (by rw [hkey]), ?_⟩
  have hr : read_integer_header [0xba, 0x80, 0x00, 0x00, 0x00, 0x80] oob
      (rd [0xba, 0x80, 0x00, 0x00, 0x00, 0x80] oob 0) 0 = (.value (-2147483648), 5) := by
    have e : to_int 2147483648 = -2147483648 := by rfl
    simp [read_integer_header, rd, additional, integer_length, u32, load32, ntohl, htonl, e]
  exact construct_from_major5 fuel _ oob 0 (by decide) hmaj _ _ hr [] 5 (by simp [map_loop])


/-! ### The key order is a strict total order on decoded keys -/

theorem bytes_lt_irrefl : ∀ (a : List Nat), bytes_lt a a = false
  | [] => by simp [bytes_lt]
  | x :: xs => by simp [bytes_lt, bytes_lt_irrefl xs]

theorem bytes_lt_trans : ∀ (a b c : List Nat), bytes_lt a b = true → bytes_lt b c = true →
    bytes_lt a c = true
  | [], [], _, h, _ => by simp [bytes_lt] at h
  | [], _ :: _, [], _, h => by simp [bytes_lt] at h
  | [], _ :: _, _ :: _, _, _ => by simp [bytes_lt]
  | _ :: _, [], _, h, _ => by simp [bytes_lt] at h
  | _ :: _, _ :: _, [], _, h => by simp [bytes_lt] at h
  | x :: xs, y :: ys, z :: zs, h1, h2 => by
    simp only [bytes_lt] at h1 h2 ⊢
    by_cases hxy : x < y
    · by_cases hyz : y < z
      · have : x < z := by omega
        simp [this]
      · by_cases hzy : z < y
        · simp [hyz, hzy] at h2
        · have : x < z := by omega
          simp [this]
    · by_cases hyx : y < x
      · simp [hxy, hyx] at h1
      · simp only [hxy, hyx, if_false] at h1
        have exy : x = y := by omega
        subst exy
        by_cases hxz : x < z
        · simp [hxz]
        · by_cases hzx : z < x
          · simp [hxz, hzx] at h2
          · simp only [hxz, hzx, if_false] at h2 ⊢
            exact bytes_lt_trans xs ys zs h1 h2

theorem bytes_lt_total : ∀ (a b : List Nat), bytes_lt a b = false → bytes_lt b a = false →
    a = b
  | [], [], _, _ => rfl
  | [], _ :: _, h, _ => by simp [bytes_lt] at h
  | _ :: _, [], _, h => by simp [bytes_lt] at h
  | x :: xs, y :: ys, h1, h2 => by
    simp only [bytes_lt] at h1 h2
    by_cases hxy : x < y
    · simp [hxy] at h1
    · by_cases hyx : y < x
      · simp [hyx] at h2
      · simp only [hxy, hyx, if_false] at h1 h2
        have exy : x = y := by omega
        rw [exy, bytes_lt_total xs ys h1 h2]

theorem key_lt_irrefl (k : cbor_variant) (hk : is_key k) : variant_lt k k = false := by
  cases k <;> simp [is_key] at hk <;> simp [variant_lt, bytes_lt_irrefl]

theorem key_lt_trans (a b c : cbor_variant) (ha : is_key a) (hb : is_key b) (hc : is_key c)
    (h1 : variant_lt a b = true) (h2 : variant_lt b c = true) : variant_lt a c = true := by
  cases a <;> simp [is_key] at ha <;>
  cases b <;> simp [is_key] at hb <;>
  cases c <;> simp [is_key] at hc <;>
  simp [variant_lt, cbor_variant.index] at h1 h2 ⊢ <;>
  first
    | omega
    | exact bytes_lt_trans _ _ _ h1 h2

theorem key_lt_total (a b : cbor_variant) (ha : is_key a) (hb : is_key b)
    (h1 : variant_lt a b = false) (h2 : variant_lt b a = false) : a = b := by
  cases a <;> simp [is_key] at ha <;>
  cases b <;> simp [is_key] at hb <;>
  simp [variant_lt, cbor_variant.index] at h1 h2 ⊢ <;>
  first
    | omega
    | exact bytes_lt_total _ _ h1 h2

theorem key_lt_ne (a b : cbor_variant) (ha : is_key a) (h : variant_lt a b = true) : a ≠ b := by
  intro e
  subst e
  rw [key_lt_irrefl a ha] at h
  exact Bool.false_ne_true h

theorem key_lt_asymm (a b : cbor_variant) (ha : is_key a) (hb : is_key b)
    (h : variant_lt a b = true) : variant_lt b a = false := by
  by_contra hc
  have hc' : variant_lt b a = true := by simpa using hc
  have := key_lt_trans a b a ha hb ha h hc'
  rw [key_lt_irrefl a ha] at this
  exact Bool.false_ne_true this

/-! ### Insertion into a map -/

theorem map_set_keys (m : List (cbor_variant × cbor_variant)) (k v : cbor_variant)
    (hk : is_key k) (hm : ∀ e ∈ m, is_key e.1) : ∀ e ∈ map_set m k v, is_key e.1 := by
  induction m with
  | nil =>
    intro e he
    simp only [map_set, List.mem_singleton] at he
    rw [he]; exact hk
  | cons a rest ih =>
    obtain ⟨ka, w⟩ := a
    have hka : is_key ka := hm (ka, w) (List.mem_cons_self _ _)
    have hrest : ∀ e ∈ rest, is_key e.1 := fun e he => hm e (List.mem_cons_of_mem _ he)
    intro e he
    rw [map_set] at he
    split_ifs at he
    · rcases List.mem_cons.mp he with h | h
      · rw [h]; exact hk
      · exact hm e h
    · rcases List.mem_cons.mp he with h | h
      · rw [h]; exact hka
      · exact ih hrest e h
    · rcases List.mem_cons.mp he with h | h
      · rw [h]; exact hka
      · exact hrest e h

theorem mem_map_set (m : List (cbor_variant × cbor_variant)) (k v : cbor_variant)
    (hk : is_key k) (hm : ∀ e ∈ m, is_key e.1) (hs : keys_increasing m)
    (k' v' : cbor_variant) :
    (k', v') ∈ map_set m k v ↔ (k' = k ∧ v' = v) ∨ (k' ≠ k ∧ (k', v') ∈ m) := by
  induction m with
  | nil => simp [map_set]
  | cons a rest ih =>
    obtain ⟨ka, w⟩ := a
    have hka : is_key ka := hm (ka, w) (List.mem_cons_self _ _)
    have hrest : ∀ e ∈ rest, is_key e.1 := fun e he => hm e (List.mem_cons_of_mem _ he)
    unfold keys_increasing at hs
    rw [List.pairwise_cons] at hs
    obtain ⟨hhead, htail⟩ := hs
    have ih' := ih hrest htail
    have hgt : ∀ e ∈ rest, variant_lt ka e.1 = true := fun e he => hhead e he
    rw [map_set]
    by_cases c1 : variant_lt k ka = true
    · simp only [c1, if_true, List.mem_cons, Prod.mk.injEq]
      have hne_a : ka ≠ k := fun e => by
        rw [e, key_lt_irrefl k hk] at c1; exact Bool.false_ne_true c1
      have hne_rest : ∀ e ∈ rest, e.1 ≠ k := fun e he heq => by
        have h1 := key_lt_trans k ka e.1 hk hka (hrest e he) c1 (hgt e he)
        rw [heq, key_lt_irrefl k hk] at h1; exact Bool.false_ne_true h1
      constructor
      · rintro (h | h | h)
        · exact Or.inl h
        · exact Or.inr ⟨by rw [h.1]; exact hne_a, Or.inl h⟩
        · exact Or.inr ⟨hne_rest _ h, Or.inr h⟩
      · rintro (h | ⟨_, h | h⟩)
        · exact Or.inl h
        · exact Or.inr (Or.inl h)
        · exact Or.inr (Or.inr h)
    · have c1' : variant_lt k ka = false := by simpa using c1
      by_cases c2 : variant_lt ka k = true
      · simp only [c1', c2, if_true, Bool.false_eq_true, if_false, List.mem_cons,
          Prod.mk.injEq]
        have hne_a : ka ≠ k := key_lt_ne ka k hka c2
        rw [ih']
        constructor
        · rintro (h | h | h)
          · exact Or.inr ⟨by rw [h.1]; exact hne_a, Or.inl h⟩
          · exact Or.inl h
          · exact Or.inr ⟨h.1, Or.inr h.2⟩
        · rintro (h | ⟨hne, h | h⟩)
          · exact Or.inr (Or.inl h)
          · exact Or.inl h
          · exact Or.inr (Or.inr ⟨hne, h⟩)
      · have c2' : variant_lt ka k = false := by simpa using c2
        have heq : ka = k := key_lt_total ka k hka hk c2' c1'
        subst heq
        simp only [c1', Bool.false_eq_true, if_false, List.mem_cons, Prod.mk.injEq]
        have hne_rest : ∀ e ∈ rest, e.1 ≠ ka := fun e he heq => by
          have h1 := hgt e he
          rw [heq, key_lt_irrefl ka hk] at h1; exact Bool.false_ne_true h1
        constructor
        · rintro (h | h)
          · exact Or.inl h
          · exact Or.inr ⟨hne_rest _ h, Or.inr h⟩
        · rintro (h | ⟨hne, h | h⟩)
          · exact Or.inl h
          · exact absurd h.1 hne
          · exact Or.inr h

theorem map_set_increasing (m : List (cbor_variant × cbor_variant)) (k v : cbor_variant)
    (hk : is_key k) (hm : ∀ e ∈ m, is_key e.1) (hs : keys_increasing m) :
    keys_increasing (map_set m k v) := by
  induction m with
  | nil => simp [map_set, keys_increasing]
  | cons a rest ih =>
    obtain ⟨ka, w⟩ := a
    have hka : is_key ka := hm (ka, w) (List.mem_cons_self _ _)
    have hrest : ∀ e ∈ rest, is_key e.1 := fun e he => hm e (List.mem_cons_of_mem _ he)
    have hs0 := hs
    unfold keys_increasing at hs
    rw [List.pairwise_cons] at hs
    obtain ⟨hhead, htail⟩ := hs
    have hgt : ∀ e ∈ rest, variant_lt ka e.1 = true := fun e he => hhead e he
    rw [map_set]
    by_cases c1 : variant_lt k ka = true
    · simp only [c1, if_true]
      unfold keys_increasing
      rw [List.pairwise_cons]
      refine ⟨?_, hs0⟩
      intro e he
      rcases List.mem_cons.mp he with h | h
      · rw [h]; exact c1
      · exact key_lt_trans k ka e.1 hk hka (hrest e h) c1 (hgt e h)
    · have c1' : variant_lt k ka = false := by simpa using c1
      by_cases c2 : variant_lt ka k = true
      · simp only [c1', c2, if_true, Bool.false_eq_true, if_false]
        unfold keys_increasing
        rw [List.pairwise_cons]
        refine ⟨?_, ih hrest htail⟩
        intro e he
        obtain ⟨ke, ve⟩ := e
        rcases (mem_map_set rest k v hk hrest htail ke ve).mp he with h | h
        · simp only; rw [h.1]; exact c2
        · exact hgt _ h.2
      · simp only [c1', c2, Bool.false_eq_true, if_false]
        unfold keys_increasing
        rw [List.pairwise_cons]
        exact ⟨fun e he => hgt e he, htail⟩

/-! ### The decoded map against the entries of the input -/

theorem last_binding_cons (e : cbor_variant × cbor_variant)
    (l : List (cbor_variant × cbor_variant)) (k v : cbor_variant) :
    last_binding (e :: l) k v ↔ last_binding l k v ∨ (e = (k, v) ∧ ∀ x ∈ l, x.1 ≠ k) := by
  unfold last_binding
  constructor
  · rintro ⟨l1, l2, h, hn⟩
    cases l1 with
    | nil =>
      simp only [List.nil_append, List.cons.injEq] at h
      exact Or.inr ⟨h.1, by rw [h.2]; exact hn⟩
    | cons a l1' =>
      simp only [List.cons_append, List.cons.injEq] at h
      exact Or.inl ⟨l1', l2, h.2, hn⟩
  · rintro (⟨l1, l2, h, hn⟩ | ⟨h, hn⟩)
    · exact ⟨e :: l1, l2, by rw [h]; rfl, hn⟩
    · exact ⟨[], l, by rw [h]; rfl, hn⟩

theorem fold_map_set (l : List (cbor_variant × cbor_variant)) :
    ∀ (acc : List (cbor_variant × cbor_variant)), (∀ e ∈ l, is_key e.1) →
      (∀ e ∈ acc, is_key e.1) → keys_increasing acc →
      (∀ e ∈ l.foldl (fun m e => map_set m e.1 e.2) acc, is_key e.1) ∧
      keys_increasing (l.foldl (fun m e => map_set m e.1 e.2) acc) ∧
      ∀ k v, (k, v) ∈ l.foldl (fun m e => map_set m e.1 e.2) acc
        ↔ last_binding l k v ∨ ((∀ e ∈ l, e.1 ≠ k) ∧ (k, v) ∈ acc) := by
  induction l with
  | nil =>
    intro acc _ hacc hs
    refine ⟨hacc, hs, fun k v => ?_⟩
    simp [last_binding]
  | cons e l ih =>
    intro acc hl hacc hs
    obtain ⟨ke, ve⟩ := e
    have hke : is_key ke := hl (ke, ve) (List.mem_cons_self _ _)
    have hl' : ∀ e ∈ l, is_key e.1 := fun e he => hl e (List.mem_cons_of_mem _ he)
    obtain ⟨h1, h2, h3⟩ := ih (map_set acc ke ve) hl' (map_set_keys acc ke ve hke hacc)
      (map_set_increasing acc ke ve hke hacc hs)
    simp only [List.foldl_cons]
    refine ⟨h1, h2, fun k v => ?_⟩
    rw [h3 k v, mem_map_set acc ke ve hke hacc hs k v, last_binding_cons]
    simp only [List.mem_cons, forall_eq_or_imp, Prod.mk.injEq]
    constructor
    · rintro (h | ⟨hn, (⟨hk, hv⟩ | ⟨hk, hm⟩)⟩)
      · exact Or.inl (Or.inl h)
      · exact Or.inl (Or.inr ⟨⟨hk.symm, hv.symm⟩, hn⟩)
      · exact Or.inr ⟨⟨fun h => hk h.symm, hn⟩, hm⟩
    · rintro ((h | ⟨⟨hk, hv⟩, hn⟩) | ⟨⟨hk, hn⟩, hm⟩)
      · exact Or.inl h
      · exact Or.inr ⟨hn, Or.inl ⟨hk.symm, hv.symm⟩⟩
      · exact Or.inr ⟨hn, Or.inr ⟨fun h => hk h.symm, hm⟩⟩

theorem read_key_is_key (inp : List Nat) (oob : Nat → Nat) (o : Nat) (k : cbor_variant)
    (o' : Nat) (h : read_key inp oob o = (.value k, o')) : is_key k := by
  unfold read_key read_integer_head at h
  simp only at h
  generalize read_integer_header inp oob (rd inp oob o) o = res at h
  obtain ⟨out, o1⟩ := res
  by_cases h0 : major (rd inp oob o) = 0
  · simp only [h0, if_true] at h
    cases out with
    | value r =>
      simp only [Prod.mk.injEq, outcome.value.injEq] at h
      rw [← h.1]; trivial
    | thrown e => simp at h
    | no_fuel => simp at h
  · by_cases h1 : major (rd inp oob o) = 1
    · simp only [h1, show ¬ ((1 : Nat) = 0) by decide, if_true, if_false] at h
      cases out with
      | value r =>
        simp only [Prod.mk.injEq, outcome.value.injEq] at h
        rw [← h.1]; trivial
      | thrown e => simp at h
      | no_fuel => simp at h
    · by_cases h23 : major (rd inp oob o) = 2 ∨ major (rd inp oob o) = 3
      · simp only [h0, h1, h23, if_true, if_false] at h
        cases out with
        | value r =>
          simp only at h
          split_ifs at h <;> simp only [Prod.mk.injEq, outcome.value.injEq] at h
          all_goals first
            | (rw [← h.1]; trivial)
            | (exact absurd h.1 (by simp))
        | thrown e => simp at h
        | no_fuel => simp at h
      · simp only [h0, h1, h23, if_false] at h
        simp at h

/-- The map returned by the map loop is the entries of the input inserted one after another,
in input order, into the map the loop started with. -/
theorem map_loop_entries (dec : Nat → outcome cbor_variant × Nat) (inp : List Nat)
    (oob : Nat → Nat) :
    ∀ (n : Nat) (rtn : List (cbor_variant × cbor_variant)) (o : Nat)
      (m : List (cbor_variant × cbor_variant)) (c : Nat),
      map_loop dec inp oob n rtn o = (.value m, c) →
      ∃ l, map_entries dec inp oob n o = (.value l, c) ∧ (∀ e ∈ l, is_key e.1) ∧
        m = l.foldl (fun acc e => map_set acc e.1 e.2) rtn
  | 0, rtn, o, m, c, h => by
    simp only [map_loop, Prod.mk.injEq, outcome.value.injEq] at h
    exact ⟨[], by simp [map_entries, h.2], by simp, by simp [h.1]⟩
  | n + 1, rtn, o, m, c, h => by
    rw [map_loop] at h
    rw [map_entries]
    generalize hk : read_key inp oob o = res at h ⊢
    obtain ⟨out, o1⟩ := res
    cases out with
    | value key =>
      have hkey := read_key_is_key inp oob o key o1 hk
      simp only at h ⊢
      generalize dec o1 = res2 at h ⊢
      obtain ⟨out2, o2⟩ := res2
      cases out2 with
      | value v =>
        simp only at h ⊢
        obtain ⟨l, hl, hkeys, hm⟩ := map_loop_entries dec inp oob n _ o2 m c h
        refine ⟨(key, v) :: l, by rw [hl], ?_, by rw [hm]; rfl⟩
        intro e he
        rcases List.mem_cons.mp he with h' | h'
        · rw [h']; exact hkey
        · exact hkeys e h'
      | thrown e => simp at h
      | no_fuel => simp at h
    | thrown e => simp at h
    | no_fuel => simp at h

theorem construct_from_major5_inv (fuel : Nat) (inp : List Nat) (oob : Nat → Nat)
    (offset : Nat) (h0 : offset < inp.length) (hm : major (rd inp oob offset) = 5)
    (v : cbor_variant) (c : Nat) (hdec : construct_from (fuel + 1) inp oob offset = (.value v, c)) :
    ∃ n o rtn, read_integer_header inp oob (rd inp oob offset) offset = (.value n, o) ∧
      map_loop (construct_from fuel inp oob) inp oob n.toNat [] o = (.value rtn, c) ∧
      v = .map rtn := by
  have h0' : ¬ inp.length ≤ offset := by omega
  rw [construct_from] at hdec
  simp only [h0', if_false, hm] at hdec
  simp only [show ¬ ((5 : Nat) = 0) by decide, show ¬ ((5 : Nat) = 1) by decide,
    show ¬ ((5 : Nat) = 2 ∨ (5 : Nat) = 3) by decide, show ¬ ((5 : Nat) = 4) by decide,
    if_false, if_true] at hdec
  generalize read_integer_header inp oob (rd inp oob offset) offset = res at hdec ⊢
  obtain ⟨out, o⟩ := res
  cases out with
  | value n =>
    simp only at hdec
    generalize hl : map_loop (construct_from fuel inp oob) inp oob n.toNat [] o = res2 at hdec
    obtain ⟨out2, o2⟩ := res2
    cases out2 with
    | value rtn =>
      simp only [Prod.mk.injEq, outcome.value.injEq] at hdec
      exact ⟨n, o, rtn, rfl, by rw [hl, hdec.2], hdec.1.symm⟩
    | thrown e => simp at hdec
    | no_fuel => simp at hdec
  | thrown e => simp at hdec
  | no_fuel => simp at hdec

theorem last_binding_mem (l : List (cbor_variant × cbor_variant)) (k v : cbor_variant)
    (h : last_binding l k v) : (k, v) ∈ l := by
  obtain ⟨l1, l2, rfl, _⟩ := h
  simp

theorem last_binding_unique (l : List (cbor_variant × cbor_variant)) (k v v' : cbor_variant)
    (h : last_binding l k v) (h' : last_binding l k v') : v = v' := by
  induction l with
  | nil =>
    obtain ⟨l1, l2, e, _⟩ := h
    simp at e
  | cons e l ih =>
    rw [last_binding_cons] at h h'
    rcases h with h | ⟨he, hn⟩
    · rcases h' with h' | ⟨he', hn'⟩
      · exact ih h h'
      · exact absurd rfl (hn' _ (last_binding_mem l k v h))
    · rcases h' with h' | ⟨he', hn'⟩
      · exact absurd rfl (hn _ (last_binding_mem l k v' h'))
      · rw [he] at he'
        simp only [Prod.mk.injEq] at he'
        exact he'.2

theorem keys_nodup (m : List (cbor_variant × cbor_variant)) (hm : ∀ e ∈ m, is_key e.1)
    (hs : keys_increasing m) : (m.map Prod.fst).Nodup := by
  unfold List.Nodup
  rw [List.pairwise_map]
  exact List.Pairwise.imp_of_mem (fun {a b} ha _ hab => key_lt_ne a.1 b.1 (hm a ha) hab) hs

/-- Map overwrite (last-write-wins) over the pairs the map loop reads.  When the item at the
cursor is a map and decode returns the map `m`, the loop has read a sequence `entries` of
key/value pairs, in order, as many as the count taken as an `int` says (none when that `int` is
negative), such that `m` holds each key exactly once and binds it to the value of the last
entry with that key; in particular, of two entries read with an identical key the
later-positioned one gives the value. -/
theorem map_last_write_wins (fuel : Nat) (inp : List Nat) (oob : Nat → Nat) (offset : Nat)
    (m : List (cbor_variant × cbor_variant)) (c : Nat) (h0 : offset < inp.length)
    (hmaj : major (rd inp oob offset) = 5)
    (hdec : construct_from (fuel + 1) inp oob offset = (.value (.map m), c)) :
    ∃ n o entries,
      read_integer_header inp oob (rd inp oob offset) offset = (.value n, o) ∧
      map_entries (construct_from fuel inp oob) inp oob n.toNat o = (.value entries, c) ∧
      (m.map Prod.fst).Nodup ∧
      (∀ k v, (k, v) ∈ m ↔ last_binding entries k v) ∧
      (∀ l1 l2 l3 k v1 v2, entries = l1 ++ (k, v1) :: (l2 ++ (k, v2) :: l3) →
        (∀ e ∈ l3, e.1 ≠ k) → (k, v2) ∈ m ∧ ∀ v, (k, v) ∈ m → v = v2) := by
  obtain ⟨n, o, rtn, hr, hloop, hv⟩ := construct_from_major5_inv fuel inp oob offset h0 hmaj _ c
    hdec
  simp only [cbor_variant.map.injEq] at hv
  subst hv
  obtain ⟨l, hl, hkeys, hm⟩ := map_loop_entries _ inp oob _ _ _ _ _ hloop
  obtain ⟨f1, f2, f3⟩ := fold_map_set l [] hkeys (by simp) (by simp [keys_increasing])
  rw [← hm] at f1 f2 f3
  have hiff : ∀ k v, (k, v) ∈ m ↔ last_binding l k v := by
    intro k v
    rw [f3 k v]
    simp
  refine ⟨n, o, l, hr, hl, keys_nodup m f1 f2, hiff, ?_⟩
  intro l1 l2 l3 k v1 v2 he hn
  have hb : last_binding l k v2 := ⟨l1 ++ (k, v1) :: l2, l3, by rw [he]; simp, hn⟩
  exact ⟨(hiff k v2).mpr hb, fun v hv => last_binding_unique l k v v2 ((hiff k v).mp hv) hb⟩

/-- The map item `a2 61 61 01 61 61 02` binds the Text key `61` twice; the decoded map binds
it to 2. -/
theorem map_last_write_wins_witness :
    ∃ n o entries,
      read_integer_header [0xa2, 0x61, 0x61, 0x01, 0x61, 0x61, 0x02] (fun _ => 0)
        (rd [0xa2, 0x61, 0x61, 0x01, 0x61, 0x61, 0x02] (fun _ => 0) 0) 0 = (.value n, o) ∧
      map_entries (construct_from 1 [0xa2, 0x61, 0x61, 0x01, 0x61, 0x61, 0x02] (fun _ => 0))
        [0xa2, 0x61, 0x61, 0x01, 0x61, 0x61, 0x02] (fun _ => 0) n.toNat o
        = (.value entries, 7) ∧
      ([(cbor_variant.unicode_string [0x61], cbor_variant.integer 2)].map Prod.fst).Nodup ∧
      (∀ k v, (k, v) ∈ [(cbor_variant.unicode_string [0x61], cbor_variant.integer 2)]
        ↔ last_binding entries k v) ∧
      (∀ l1 l2 l3 k v1 v2, entries = l1 ++ (k, v1) :: (l2 ++ (k, v2) :: l3) →
        (∀ e ∈ l3, e.1 ≠ k) →
        (k, v2) ∈ [(cbor_variant.unicode_string [0x61], cbor_variant.integer 2)] ∧
        ∀ v, (k, v) ∈ [(cbor_variant.unicode_string [0x61], cbor_variant.integer 2)] → v = v2) :=
  map_last_write_wins 1 [0xa2, 0x61, 0x61, 0x01, 0x61, 0x61, 0x02] (fun _ => 0) 0
    [(.unicode_string [0x61], .integer 2)] 7 (by decide) (by decide)
    (by simp [construct_from, rd, major, additional, read_integer_header, integer_length, u32,
        map_loop, read_key, to_unsigned, range_bytes, map_set, List.range, List.range.loop,
        variant_lt, bytes_lt])

/-- C5 (failing input). The item `ba 80 00 00 00 61 61 01 61 61 02` has major type 5 and
declares `2 ^ 31` pairs; behind its header stand two entries with the identical Text key `61`,
bound to 1 and then to 2.  Decode succeeds with the empty map, which holds the key not once but
never, and leaves the cursor behind the header. -/
theorem duplicate_key_dropped :
    ∀ (oob : Nat → Nat) (fuel : Nat),
      major (rd [0xba, 0x80, 0x00, 0x00, 0x00, 0x61, 0x61, 0x01, 0x61, 0x61, 0x02] oob 0) = 5 ∧
      header_magnitude [0xba, 0x80, 0x00, 0x00, 0x00, 0x61, 0x61, 0x01, 0x61, 0x61, 0x02] 0
        = 2 ^ 31 ∧
      map_entries
          (construct_from 1 [0xba, 0x80, 0x00, 0x00, 0x00, 0x61, 0x61, 0x01, 0x61, 0x61, 0x02] oob)
          [0xba, 0x80, 0x00, 0x00, 0x00, 0x61, 0x61, 0x01, 0x61, 0x61, 0x02] oob 2 5
        = (.value [(.unicode_string [0x61], .integer 1), (.unicode_string [0x61], .integer 2)],
           11) ∧
      construct_from (fuel + 1)
          [0xba, 0x80, 0x00, 0x00, 0x00, 0x61, 0x61, 0x01, 0x61, 0x61, 0x02] oob 0
        = (.value (.map []), 5) := by
  intro oob fuel
  have hmaj : major (rd [0xba, 0x80, 0x00, 0x00, 0x00, 0x61, 0x61, 0x01, 0x61, 0x61, 0x02]
      oob 0) = 5 := by simp [rd, major]
  refine ⟨hmaj, by decide, ?_, ?_⟩
  · simp [map_entries, read_key, construct_from, rd, major, additional, read_integer_header,
      integer_length, u32, to_unsigned, range_bytes, List.range, List.range.loop]
  · have hr : read_integer_header
        [0xba, 0x80, 0x00, 0x00, 0x00, 0x61, 0x61, 0x01, 0x61, 0x61, 0x02] oob
        (rd [0xba, 0x80, 0x00, 0x00, 0x00, 0x61, 0x61, 0x01, 0x61, 0x61, 0x02] oob 0) 0
        = (.value (-2147483648), 5) := by
      have e : to_int 2147483648 = -2147483648 := by rfl
      simp [read_integer_header, rd, additional, integer_length, u32, load32, ntohl, htonl, e]
    exact construct_from_major5 fuel _ oob 0 (by decide) hmaj _ _ hr [] 5 (by simp [map_loop])


/-- C11 (as stated, refuted). The item `3a ff ff ff ff` has major type 1 and holds the
magnitude 4294967295, yet it is decoded as Integer(0): not `-1 - m`, and not negative. -/
theorem negative_decode_wraps :
    major (rd [0x3a, 0xff, 0xff, 0xff, 0xff] (fun _ => 0) 0) = 1 ∧
    header_magnitude [0x3a, 0xff, 0xff, 0xff, 0xff] 0 = 4294967295 ∧
    construct_from 1 [0x3a, 0xff, 0xff, 0xff, 0xff] (fun _ => 0) 0
      = (.value (.integer 0), 5) ∧
    construct_from 1 [0x3a, 0xff, 0xff, 0xff, 0xff] (fun _ => 0) 0
      ≠ (.value (.integer (-1 - (header_magnitude [0x3a, 0xff, 0xff, 0xff, 0xff] 0 : Nat))), 5) := by
  refine ⟨by decide, by decide, by rfl, ?_⟩
  have h : construct_from 1 [0x3a, 0xff, 0xff, 0xff, 0xff] (fun _ => 0) 0
      = (.value (.integer 0), 5) := by rfl
  rw [h]
  have hm : header_magnitude [0x3a, 0xff, 0xff, 0xff, 0xff] 0 = 4294967295 := by decide
  rw [hm]
  intro hc
  injection hc with h1 _
  injection h1 with h2
  injection h2 with h3
  exact absurd h3 (by decide)

/-- C11 (amended). An item of major type 1 whose header has a supported additional value, lies
inside the buffer, ends below offset `2 ^ 32` and holds a magnitude `m` below `2 ^ 31` is
decoded as Integer(-1 - m), which is strictly negative; the cursor moves past the header. -/
theorem negative_decode (fuel : Nat) (inp : List Nat) (oob : Nat → Nat) (offset : Nat)
    (hb : ∀ b ∈ inp, b < 256)
    (hmaj : major (rd inp oob offset) = 1)
    (hadd : additional (rd inp oob offset) ≤ 26)
    (hlen : offset + integer_length (additional (rd inp oob offset)) ≤ inp.length)
    (hfit : offset + integer_length (additional (rd inp oob offset)) < 2 ^ 32)
    (hm : header_magnitude inp offset < 2 ^ 31) :
    construct_from (fuel + 1) inp oob offset
      = (.value (.integer (-1 - (header_magnitude inp offset : Nat))),
         offset + integer_length (additional (rd inp oob offset))) ∧
    (-1 - ((header_magnitude inp offset : Nat) : Int)) < 0 := by
  have hil : 1 ≤ integer_length (additional (rd inp oob offset)) := by
    unfold integer_length; split_ifs <;> omega
  have h0 : offset < inp.length := by omega
  refine ⟨?_, by omega⟩
  have hr := read_integer_header_value inp oob offset hb hadd hlen hfit
  rw [to_int_of_lt _ hm] at hr
  exact construct_from_major1 fuel inp oob offset h0 hmaj _ _ hr

/-- Witness for C11: the item `38 63` is decoded as Integer(-100). -/
theorem negative_decode_witness :
    construct_from 1 [0x38, 0x63] (fun _ => 0) 0 = (.value (.integer (-100)), 2) :=
  (negative_decode 0 [0x38, 0x63] (fun _ => 0) 0 (by decide) (by decide) (by decide)
    (by decide) (by decide) (by decide)).1

/-- C12. Integer encode: for every 32-bit signed `n`, the minimum included, the encoding of
Integer(n) is the header that `append_integer_header` writes for major type 0 and value `n`
when `n ≥ 0`, and for major type 1 and the exact value `-n - 1`, which lies in
`0 .. 2 ^ 31 - 1`, when `n < 0`.  Integer(10) is the byte `0a`, Integer(-1) the byte `20`. -/
theorem integer_encode (other : cbor_variant → List Nat) (n : Int) (h1 : -2 ^ 31 ≤ n)
    (h2 : n < 2 ^ 31) (out : List Nat) :
    (0 ≤ n → encode_onto other (.integer n) out = append_integer_header 0 n.toNat out) ∧
    (n < 0 → encode_onto other (.integer n) out = append_integer_header 1 (-n - 1).toNat out ∧
      (-n - 1).toNat < 2 ^ 31) ∧
    encode other (.integer 10) = [0x0a] ∧
    encode other (.integer (-1)) = [0x20] ∧
    encode other (.integer (-2 ^ 31)) = [0x3a, 0x7f, 0xff, 0xff, 0xff] := by
  have h1' : -2147483648 ≤ n := by simpa using h1
  have h2' : n < 2147483648 := by simpa using h2
  refine ⟨?_, ?_, rfl, rfl, rfl⟩
  · intro hn
    have e : to_unsigned n = n.toNat := by
      unfold to_unsigned
      congr 1
      omega
    rw [encode_onto]
    simp only [hn, if_true, e]
  · intro hn
    have hn' : ¬ 0 ≤ n := by omega
    have key : wrap_int (wrap_int (-n) - 1) = -n - 1 := by
      unfold wrap_int to_int to_unsigned
      simp only [Int.reducePow, Nat.reducePow]
      split_ifs <;> omega
    have e : to_unsigned (-n - 1) = (-n - 1).toNat := by
      unfold to_unsigned
      congr 1
      omega
    rw [encode_onto]
    simp only [hn', if_false, key, e]
    refine ⟨trivial, ?_⟩
    simp only [Nat.reducePow]
    omega

/-- Witness for C12: Integer(-500) is written as major type 1 with the value 499. -/
theorem integer_encode_witness :
    encode_onto (fun _ => []) (.integer (-500)) [7] = append_integer_header 1 499 [7] :=
  ((integer_encode (fun _ => []) (-500) (by decide) (by decide) [7]).2.1 (by decide)).1

/-- C15. Append-only encode: encoding `v` onto an existing buffer `b` yields `b` followed by
the encoding of `v` onto an empty buffer; the bytes of `b` are unchanged, and what is appended
does not depend on `b`. -/
theorem encode_append_only (other : cbor_variant → List Nat) (v : cbor_variant)
    (b : List Nat) :
    encode_onto other v b = b ++ encode other v ∧
    (encode_onto other v b).take b.length = b ∧
    (encode_onto other v b).drop b.length = encode_onto other v [] := by
  have h := encode_onto_append other v b
  refine ⟨h, ?_, ?_⟩
  · rw [h, List.take_left']
    rfl
  · rw [h, List.drop_left']
    rfl

/-- Decoding a Null that sits at offset `2 ^ 32 - 1` wraps the cursor to 0. -/
theorem null_at_last_offset (p : List Nat) (hp : p.length = 2 ^ 32 - 1) (oob : Nat → Nat) :
    major (rd (p ++ [0xf6] ++ []) oob p.length) = 7 ∧
    additional (rd (p ++ [0xf6] ++ []) oob p.length) = 22 ∧
    construct_from 1 (p ++ [0xf6] ++ []) oob p.length = (.value .none, 0) := by
  have r0 := rd_mid_zero p [0xf6] [] oob (by simp)
  simp only [List.getD_cons_zero] at r0
  have h0 := buffer_lt p [0xf6] [] (by simp)
  have hm : major (rd (p ++ [0xf6] ++ []) oob p.length) = 7 := by rw [r0]; decide
  have ha : additional (rd (p ++ [0xf6] ++ []) oob p.length) = 22 := by rw [r0]; decide
  have hu : u32 (p.length + 1) = 0 := by rw [hp]; rfl
  refine ⟨hm, ha, ?_⟩
  rw [construct_from_major7 0 (p ++ [0xf6] ++ []) oob p.length h0 hm]
  simp only [ha, show ¬ ((22 : Nat) = 26) by decide, show ¬ ((22 : Nat) = 27) by decide,
    if_false, if_true, hu]

/-- C16 (as stated, refuted). In a buffer of `2 ^ 32` bytes whose last byte is `f6`, the header
byte at the last offset has major type 7 and additional value 22; decode returns Null, but the
cursor, an `unsigned int`, is left at 0 and not one further. -/
theorem null_cursor_wraps :
    major (rd (List.replicate (2 ^ 32 - 1) 0 ++ [0xf6] ++ []) (fun _ => 0)
      (List.replicate (2 ^ 32 - 1) 0).length) = 7 ∧
    additional (rd (List.replicate (2 ^ 32 - 1) 0 ++ [0xf6] ++ []) (fun _ => 0)
      (List.replicate (2 ^ 32 - 1) 0).length) = 22 ∧
    construct_from 1 (List.replicate (2 ^ 32 - 1) 0 ++ [0xf6] ++ []) (fun _ => 0)
        (List.replicate (2 ^ 32 - 1) 0).length
      = (.value .none, 0) ∧
    0 ≠ (List.replicate (2 ^ 32 - 1) 0).length + 1 := by
  obtain ⟨h1, h2, h3⟩ := null_at_last_offset (List.replicate (2 ^ 32 - 1) 0)
    (List.length_replicate _ _) (fun _ => 0)
  exact ⟨h1, h2, h3, by omega⟩

/-- C16 (amended). Major type 7 dispatch: when the header byte at the cursor has major type 7,
decode returns Null and advances the cursor by exactly 1 if the additional value is 22 and the
header byte sits below offset `2 ^ 32 - 1`, and throws, the cursor unchanged, if the additional
value is none of 22, 26, 27.  The byte `f6` decodes to Null and Null encodes to the
byte `f6`. -/
theorem major7_dispatch (fuel : Nat) (inp : List Nat) (oob : Nat → Nat) (offset : Nat)
    (h0 : offset < inp.length) (hmaj : major (rd inp oob offset) = 7) :
    (additional (rd inp oob offset) = 22 → offset + 1 < 2 ^ 32 →
      construct_from (fuel + 1) inp oob offset = (.value .none, offset + 1)) ∧
    (additional (rd inp oob offset) ≠ 22 → additional (rd inp oob offset) ≠ 26 →
      additional (rd inp oob offset) ≠ 27 →
      construct_from (fuel + 1) inp oob offset = (.thrown .bad_major7, offset)) ∧
    (∀ (mem : Nat → Nat), construct_from (fuel + 1) [0xf6] mem 0 = (.value .none, 1)) ∧
    (∀ (other : cbor_variant → List Nat), encode other .none = [0xf6]) := by
  have h := construct_from_major7 fuel inp oob offset h0 hmaj
  refine ⟨?_, ?_, ?_, ?_⟩
  · intro ha hfit
    rw [h]
    simp only [ha, show ¬ ((22 : Nat) = 26) by decide, show ¬ ((22 : Nat) = 27) by decide,
      if_false, if_true, u32_of_lt _ hfit]
  · intro a22 a26 a27
    rw [h]
    simp only [a22, a26, a27, if_false]
  · intro mem
    have r0 : rd [0xf6] mem 0 = 0xf6 := by simp [rd]
    rw [construct_from_major7 fuel [0xf6] mem 0 (by decide) (by rw [r0]; rfl), r0]
    rfl
  · intro other
    rfl

/-- Witness for C16: the Null `f6` between two other bytes, decoded at cursor 1. -/
theorem major7_dispatch_witness :
    construct_from 1 [0x00, 0xf6, 0x00] (fun _ => 0) 1 = (.value .none, 2) :=
  (major7_dispatch 0 [0x00, 0xf6, 0x00] (fun _ => 0) 1 (by decide) (by decide)).1 (by decide)
    (by decide)

/-- C17 (failing input). The item `ba 80 00 00 00` has major type 5 and declares `2 ^ 31`
pairs, none of which is present; decode returns the empty map and leaves the cursor behind the
header. -/
theorem map_count_dropped :
    ∀ (oob : Nat → Nat) (fuel : Nat),
      major (rd [0xba, 0x80, 0x00, 0x00, 0x00] oob 0) = 5 ∧
      header_magnitude [0xba, 0x80, 0x00, 0x00, 0x00] 0 = 2 ^ 31 ∧
      construct_from (fuel + 1) [0xba, 0x80, 0x00, 0x00, 0x00] oob 0 = (.value (.map []), 5) := by
  intro oob fuel
  have hmaj : major (rd [0xba, 0x80, 0x00, 0x00, 0x00] oob 0) = 5 := by simp [rd, major]
  refine ⟨hmaj, by decide, ?_⟩
  have hr : read_integer_header [0xba, 0x80, 0x00, 0x00, 0x00] oob
      (rd [0xba, 0x80, 0x00, 0x00, 0x00] oob 0) 0 = (.value (-2147483648), 5) := by
    have e : to_int 2147483648 = -2147483648 := by rfl
    simp [read_integer_header, rd, additional, integer_length, u32, load32, ntohl, htonl, e]
  exact construct_from_major5 fuel _ oob 0 (by decide) hmaj _ _ hr [] 5 (by simp [map_loop])

/-- C20. Float encode shape and byte order: a Float with 64-bit pattern `bits` is encoded as
9 bytes, the byte `fb` (major type 7, additional 27) and the 8 bytes of the pattern from the
most significant to the least; `double_to_big_endian`, used by both encode and decode, is an
involution on 8 bytes; decoding the 9 bytes returns the Float with the same pattern and moves
the cursor from 0 to 9. -/
theorem float_encode_shape (other : cbor_variant → List Nat) (bits : Nat)
    (hbits : bits < 2 ^ 64) (oob : Nat → Nat) (fuel : Nat) :
    encode other (.floating_point bits)
      = [0xfb, bits / 2 ^ 56 % 256, bits / 2 ^ 48 % 256, bits / 2 ^ 40 % 256,
         bits / 2 ^ 32 % 256, bits / 2 ^ 24 % 256, bits / 2 ^ 16 % 256, bits / 2 ^ 8 % 256,
         bits % 256] ∧
    (encode other (.floating_point bits)).length = 9 ∧
    major 0xfb = 7 ∧ additional 0xfb = 27 ∧
    (∀ b0 b1 b2 b3 b4 b5 b6 b7 : Nat,
      double_to_big_endian (double_to_big_endian [b0, b1, b2, b3, b4, b5, b6, b7])
        = [b0, b1, b2, b3, b4, b5, b6, b7]) ∧
    construct_from (fuel + 1) (encode other (.floating_point bits)) oob 0
      = (.value (.floating_point bits), 9) := by
  refine ⟨rfl, rfl, rfl, rfl, fun _ _ _ _ _ _ _ _ => rfl, ?_⟩
  have h := decode_encode other (.floating_point bits) hbits (fuel + 1)
    (by simp [depth]) [] [] oob (by
      rw [show (encode other (.floating_point bits)).length = 9 from rfl]; decide)
  simpa using h

/-- Witness for C20: the Float with pattern `0x3ff8000000000000` (1.5). -/
theorem float_encode_shape_witness :
    construct_from 1 (encode (fun _ => []) (.floating_point 0x3ff8000000000000)) (fun _ => 0) 0
      = (.value (.floating_point 0x3ff8000000000000), 9) :=
  (float_encode_shape (fun _ => []) 0x3ff8000000000000 (by decide) (fun _ => 0) 0).2.2.2.2.2

theorem range_bytes_inside (inp : List Nat) (oob : Nat → Nat) (o n : Nat)
    (h : o + n ≤ inp.length) :
    range_bytes inp oob o (o + n) = (inp.drop o).take n ∧ ((inp.drop o).take n).length = n := by
  have hl : ((inp.drop o).take n).length = n := by
    rw [List.length_take, List.length_drop]; omega
  have hp : (inp.take o).length = o := by rw [List.length_take]; omega
  have hsplit : inp.take o ++ (inp.drop o).take n ++ (inp.drop o).drop n = inp := by
    rw [List.append_assoc, List.take_append_drop, List.take_append_drop]
  have h := range_bytes_mid (inp.take o) ((inp.drop o).take n) ((inp.drop o).drop n) oob
  rw [hsplit, hp, hl] at h
  exact ⟨h, hl⟩

/-- A general lemma for the string case: the header is read at `o`, then either the payload
does not fit, or it is returned. -/
theorem construct_from_string (fuel : Nat) (inp : List Nat) (oob : Nat → Nat) (offset : Nat)
    (h0 : offset < inp.length)
    (hm : major (rd inp oob offset) = 2 ∨ major (rd inp oob offset) = 3) (length : Int)
    (o : Nat)
    (hr : read_integer_header inp oob (rd inp oob offset) offset = (.value length, o))
    (hl : 0 ≤ length) (hsz : inp.length < u32 (o + to_unsigned length)) :
    construct_from (fuel + 1) inp oob offset
      = (.thrown .insufficient_data, u32 (o + to_unsigned length)) := by
  have h0' : ¬ inp.length ≤ offset := by omega
  have hl' : ¬ length < 0 := by omega
  have n0 : ¬ major (rd inp oob offset) = 0 := by omega
  have n1 : ¬ major (rd inp oob offset) = 1 := by omega
  rw [construct_from]
  simp only [h0', if_false, n0, n1, hm, if_true, hr, hl', hsz]

/-- C13 (amended). String decode: when the item at the cursor has major type 2 or 3, a
supported header lying inside the buffer and declaring a length `L` below `2 ^ 31`, and the
item ends below offset `2 ^ 32`, decode throws if fewer than `L` bytes remain behind the header,
and otherwise returns Bytes (major type 2) or Text (major type 3) holding exactly the `L` bytes
that follow the header, in order, with the cursor moved on by the header length plus `L`. -/
theorem string_decode (fuel : Nat) (inp : List Nat) (oob : Nat → Nat) (offset : Nat)
    (hb : ∀ b ∈ inp, b < 256)
    (hmaj : major (rd inp oob offset) = 2 ∨ major (rd inp oob offset) = 3)
    (hadd : additional (rd inp oob offset) ≤ 26)
    (hlen : offset + integer_length (additional (rd inp oob offset)) ≤ inp.length)
    (hL : header_magnitude inp offset < 2 ^ 31)
    (hfit : offset + integer_length (additional (rd inp oob offset))
      + header_magnitude inp offset < 2 ^ 32) :
    (inp.length < offset + integer_length (additional (rd inp oob offset))
        + header_magnitude inp offset →
      construct_from (fuel + 1) inp oob offset
        = (.thrown .insufficient_data,
           offset + integer_length (additional (rd inp oob offset))
             + header_magnitude inp offset)) ∧
    (offset + integer_length (additional (rd inp oob offset)) + header_magnitude inp offset
        ≤ inp.length →
      construct_from (fuel + 1) inp oob offset
        = (.value (if major (rd inp oob offset) = 2 then
              .bytes ((inp.drop (offset + integer_length (additional (rd inp oob offset)))).take
                (header_magnitude inp offset))
            else
              .unicode_string
                ((inp.drop (offset + integer_length (additional (rd inp oob offset)))).take
                  (header_magnitude inp offset))),
           offset + integer_length (additional (rd inp oob offset))
             + header_magnitude inp offset) ∧
      ((inp.drop (offset + integer_length (additional (rd inp oob offset)))).take
        (header_magnitude inp offset)).length = header_magnitude inp offset) := by
  have hil : 1 ≤ integer_length (additional (rd inp oob offset)) := by
    unfold integer_length; split_ifs <;> omega
  have h0 : offset < inp.length := by omega
  have hfit' : offset + integer_length (additional (rd inp oob offset))
      + header_magnitude inp offset < 4294967296 := by simpa using hfit
  have hr := read_integer_header_value inp oob offset hb hadd hlen (by simp; omega)
  rw [to_int_of_lt _ hL] at hr
  have htu : to_unsigned ((header_magnitude inp offset : Nat) : Int)
      = header_magnitude inp offset := by
    rw [← to_int_of_lt _ hL]
    exact to_unsigned_to_int _ (lt_trans hL (by norm_num))
  have hu : u32 (offset + integer_length (additional (rd inp oob offset))
      + to_unsigned ((header_magnitude inp offset : Nat) : Int))
      = offset + integer_length (additional (rd inp oob offset))
        + header_magnitude inp offset := by
    rw [htu]; exact u32_of_lt _ hfit
  refine ⟨?_, ?_⟩
  · intro hshort
    have h := construct_from_string fuel inp oob offset h0 hmaj _ _ hr (Int.ofNat_nonneg _)
      (by rw [hu]; exact hshort)
    rw [h, hu]
  · intro henough
    obtain ⟨hrange, hlen'⟩ := range_bytes_inside inp oob
      (offset + integer_length (additional (rd inp oob offset))) (header_magnitude inp offset)
      henough
    refine ⟨?_, hlen'⟩
    rcases hmaj with h2 | h3
    · have h := construct_from_major2 fuel inp oob offset h0 h2 _ _ hr (Int.ofNat_nonneg _)
        (by rw [hu]; exact henough) (by rw [hu]; omega)
      rw [h, hu, hrange]
      simp only [h2, if_true]
    · have h := construct_from_major3 fuel inp oob offset h0 h3 _ _ hr (Int.ofNat_nonneg _)
        (by rw [hu]; exact henough) (by rw [hu]; omega)
      rw [h, hu, hrange]
      simp only [h3, show ¬ ((3 : Nat) = 2) by decide, if_false]

/-- Witness for C13: the Text item `62 68 69` followed by one more byte. -/
theorem string_decode_witness :
    construct_from 1 [0x62, 0x68, 0x69, 0x00] (fun _ => 0) 0
      = (.value (.unicode_string [0x68, 0x69]), 3) :=
  ((string_decode 0 [0x62, 0x68, 0x69, 0x00] (fun _ => 0) 0 (by decide) (by decide)
    (by decide) (by decide) (by decide) (by decide)).2 (by decide)).1

theorem long_text_header (t : List Nat) (oob : Nat → Nat) :
    major (rd ([0x7a, 0x80, 0x00, 0x00, 0x00] ++ t) oob 0) = 3 ∧
    additional (rd ([0x7a, 0x80, 0x00, 0x00, 0x00] ++ t) oob 0) = 26 ∧
    header_magnitude ([0x7a, 0x80, 0x00, 0x00, 0x00] ++ t) 0 = 2 ^ 31 := by
  refine ⟨?_, ?_, ?_⟩
  · simp [rd, major]
  · simp [rd, additional]
  · have g0 : ([0x7a, 0x80, 0x00, 0x00, 0x00] ++ t).getD 0 0 = 0x7a := rfl
    have g1 : ([0x7a, 0x80, 0x00, 0x00, 0x00] ++ t).getD 1 0 = 0x80 := rfl
    have g2 : ([0x7a, 0x80, 0x00, 0x00, 0x00] ++ t).getD 2 0 = 0 := rfl
    have g3 : ([0x7a, 0x80, 0x00, 0x00, 0x00] ++ t).getD 3 0 = 0 := rfl
    have g4 : ([0x7a, 0x80, 0x00, 0x00, 0x00] ++ t).getD 4 0 = 0 := rfl
    have ha : additional 0x7a = 26 := by decide
    simp only [header_magnitude, Nat.zero_add, g0, g1, g2, g3, g4, ha]
    norm_num

theorem long_text_rejected (t : List Nat) (ht : t.length = 2 ^ 31) (oob : Nat → Nat)
    (fuel : Nat) :
    construct_from (fuel + 1) ([0x7a, 0x80, 0x00, 0x00, 0x00] ++ t) oob 0
      = (.thrown .negative_length, 5) := by
  have h := decode_long_text (fun _ => []) t ht oob fuel
  have he : encode (fun _ => []) (.unicode_string t) = [0x7a, 0x80, 0x00, 0x00, 0x00] ++ t := by
    rw [encode_unicode_string_eq, ht]
    rfl
  rw [he] at h
  exact h

/-- C13 (as stated, refuted). A Text header declaring `2 ^ 31` bytes, followed by `2 ^ 31`
bytes: the header is supported and enough bytes remain, yet decode throws, because the length
is read as a negative `int`. -/
theorem string_length_guard :
    major (rd ([0x7a, 0x80, 0x00, 0x00, 0x00] ++ List.replicate (2 ^ 31) 0x61) (fun _ => 0) 0)
      = 3 ∧
    additional (rd ([0x7a, 0x80, 0x00, 0x00, 0x00] ++ List.replicate (2 ^ 31) 0x61)
      (fun _ => 0) 0) = 26 ∧
    header_magnitude ([0x7a, 0x80, 0x00, 0x00, 0x00] ++ List.replicate (2 ^ 31) 0x61) 0
      = 2 ^ 31 ∧
    ([0x7a, 0x80, 0x00, 0x00, 0x00] ++ List.replicate (2 ^ 31) 0x61).length = 5 + 2 ^ 31 ∧
    construct_from 1 ([0x7a, 0x80, 0x00, 0x00, 0x00] ++ List.replicate (2 ^ 31) 0x61)
      (fun _ => 0) 0 = (.thrown .negative_length, 5) := by
  obtain ⟨h1, h2, h3⟩ := long_text_header (List.replicate (2 ^ 31) 0x61) (fun _ => 0)
  refine ⟨h1, h2, h3, ?_, long_text_rejected _ (List.length_replicate _ _) _ 0⟩
  rw [List.length_append, List.length_replicate]
  rfl

theorem rd_lt_256 (inp : List Nat) (oob : Nat → Nat) (hb : ∀ b ∈ inp, b < 256)
    (hoob : ∀ i, oob i < 256) (i : Nat) : rd inp oob i < 256 := by
  unfold rd
  by_cases h : i < inp.length
  · rw [List.getD_eq_getElem _ _ h]
    exact hb _ (List.getElem_mem h)
  · rw [List.getD_eq_default _ _ (by omega)]
    exact hoob i

theorem to_int_range (x : Nat) : -2147483648 ≤ to_int x ∧ to_int x < 2147483648 := by
  unfold to_int
  simp only [Nat.reducePow, Int.reducePow]
  have := Nat.mod_lt x (show 0 < 4294967296 by decide)
  split_ifs <;> omega

theorem to_unsigned_small (r : Int) (h0 : 0 ≤ r) (h1 : r < 2147483648) :
    to_unsigned r < 2147483648 := by
  unfold to_unsigned
  simp only [Int.reducePow]
  omega

theorem integer_length_le (a : Nat) : 1 ≤ integer_length a ∧ integer_length a ≤ 5 := by
  unfold integer_length; split_ifs <;> omega

theorem htons_lt (x : Nat) : htons x < 65536 := by
  unfold htons; omega

/-- Facts on one header read when the cursor cannot wrap: where the cursor is left, that the
integer read is a byte, a 16-bit value or an `int`, and that a header with following bytes is
read only when it lies inside the buffer. -/
theorem read_integer_header_no_wrap (inp : List Nat) (oob : Nat → Nat)
    (hb : ∀ b ∈ inp, b < 256) (hoob : ∀ i, oob i < 256) (h offset : Nat)
    (hfit : offset + 5 < 4294967296) (out : outcome Int) (o : Nat)
    (hr : read_integer_header inp oob h offset = (out, o)) :
    o = offset + integer_length (additional h) ∧ out ≠ .no_fuel ∧
    (∀ r, out = .value r → -2147483648 ≤ r ∧ r < 2147483648 ∧
      (o ≤ inp.length ∨ additional h < 24)) := by
  have hil := integer_length_le (additional h)
  have hu : u32 (offset + integer_length (additional h))
      = offset + integer_length (additional h) := u32_of_lt _ (by simp only [Nat.reducePow]; omega)
  have ha := additional_lt h
  unfold read_integer_header at hr
  simp only [hu] at hr
  by_cases c0 : additional h < 24
  · simp only [c0, if_true, Prod.mk.injEq] at hr
    obtain ⟨h1, h2⟩ := hr
    subst h1 h2
    refine ⟨rfl, by simp, ?_⟩
    intro r hrv
    simp only [outcome.value.injEq] at hrv
    subst hrv
    omega
  simp only [c0, if_false] at hr
  by_cases c1 : inp.length < offset + integer_length (additional h)
  · simp only [c1, if_true, Prod.mk.injEq] at hr
    obtain ⟨h1, h2⟩ := hr
    subst h1 h2
    exact ⟨rfl, by simp, by simp⟩
  simp only [c1, if_false] at hr
  by_cases c24 : additional h = 24
  · simp only [c24, if_true, Prod.mk.injEq] at hr
    obtain ⟨h1, h2⟩ := hr
    subst h1 h2
    refine ⟨by rw [c24], by simp, ?_⟩
    intro r hrv
    simp only [outcome.value.injEq] at hrv
    subst hrv
    have := rd_lt_256 inp oob hb hoob (u32 (offset + 1))
    rw [c24] at c1
    omega
  by_cases c25 : additional h = 25
  · simp only [c25, if_true] at hr
    simp only [show ¬ ((25 : Nat) = 24) by decide, if_false, Prod.mk.injEq] at hr
    obtain ⟨h1, h2⟩ := hr
    subst h1 h2
    refine ⟨by rw [c25], by simp, ?_⟩
    intro r hrv
    simp only [outcome.value.injEq] at hrv
    subst hrv
    have := htons_lt (load16 inp oob (u32 (offset + 1)))
    rw [c25] at c1
    unfold ntohs
    omega
  by_cases c26 : additional h = 26
  · simp only [c26, if_true] at hr
    simp only [show ¬ ((26 : Nat) = 24) by decide, show ¬ ((26 : Nat) = 25) by decide,
      if_false, Prod.mk.injEq] at hr
    obtain ⟨h1, h2⟩ := hr
    subst h1 h2
    refine ⟨by rw [c26], by simp, ?_⟩
    intro r hrv
    simp only [outcome.value.injEq] at hrv
    subst hrv
    have := to_int_range (ntohl (load32 inp oob (u32 (offset + 1))))
    rw [c26] at c1
    omega
  simp only [c24, c25, c26, if_false] at hr
  by_cases c27 : additional h = 27
  · simp only [c27, if_true, Prod.mk.injEq] at hr
    obtain ⟨h1, h2⟩ := hr
    subst h1 h2
    exact ⟨by rw [c27], by simp, by simp⟩
  by_cases c31 : additional h = 31
  · simp only [c31, if_true] at hr
    simp only [show ¬ ((31 : Nat) = 27) by decide, if_false, Prod.mk.injEq] at hr
    obtain ⟨h1, h2⟩ := hr
    subst h1 h2
    exact ⟨by rw [c31], by simp, by simp⟩
  simp only [c27, c31, if_false, Prod.mk.injEq] at hr
  obtain ⟨h1, h2⟩ := hr
  subst h1 h2
  exact ⟨rfl, by simp, by simp⟩

/-- A key read at a cursor that cannot wrap leaves the cursor where it was or further, and
strictly further when a key was read. -/
theorem read_key_no_wrap (inp : List Nat) (oob : Nat → Nat)
    (hb : ∀ b ∈ inp, b < 256) (hoob : ∀ i, oob i < 256) (k : Nat)
    (hk : k + 5 + 2147483648 ≤ 4294967296) (out : outcome cbor_variant) (o : Nat)
    (hr : read_key inp oob k = (out, o)) :
    k ≤ o ∧ out ≠ .no_fuel ∧ (∀ key, out = .value key → k < o) := by
  unfold read_key read_integer_head at hr
  simp only at hr
  generalize hh : read_integer_header inp oob (rd inp oob k) k = res at hr
  obtain ⟨out1, o1⟩ := res
  obtain ⟨ho1, hnf, hval⟩ := read_integer_header_no_wrap inp oob hb hoob _ k (by omega) out1 o1 hh
  have hil := integer_length_le (additional (rd inp oob k))
  by_cases h0 : major (rd inp oob k) = 0
  · simp only [h0, if_true] at hr
    cases out1 with
    | value r =>
      simp only [Prod.mk.injEq] at hr
      obtain ⟨e1, e2⟩ := hr
      subst e1 e2
      exact ⟨by omega, by simp, fun _ _ => by omega⟩
    | thrown e =>
      simp only [Prod.mk.injEq] at hr
      obtain ⟨e1, e2⟩ := hr
      subst e1 e2
      exact ⟨by omega, by simp, by simp⟩
    | no_fuel => exact absurd rfl hnf
  by_cases h1 : major (rd inp oob k) = 1
  · simp only [h1, if_true] at hr
    simp only [show ¬ ((1 : Nat) = 0) by decide, if_false] at hr
    cases out1 with
    | value r =>
      simp only [Prod.mk.injEq] at hr
      obtain ⟨e1, e2⟩ := hr
      subst e1 e2
      exact ⟨by omega, by simp, fun _ _ => by omega⟩
    | thrown e =>
      simp only [Prod.mk.injEq] at hr
      obtain ⟨e1, e2⟩ := hr
      subst e1 e2
      exact ⟨by omega, by simp, by simp⟩
    | no_fuel => exact absurd rfl hnf
  by_cases h23 : major (rd inp oob k) = 2 ∨ major (rd inp oob k) = 3
  · simp only [h0, h1, h23, if_true, if_false] at hr
    cases out1 with
    | value r =>
      obtain ⟨r1, r2, _⟩ := hval r rfl
      simp only at hr
      by_cases c1 : r < 0
      · simp only [c1, if_true, Prod.mk.injEq] at hr
        obtain ⟨e1, e2⟩ := hr
        subst e1 e2
        exact ⟨by omega, by simp, by simp⟩
      have hts := to_unsigned_small r (by omega) r2
      have hu : u32 (o1 + to_unsigned r) = o1 + to_unsigned r :=
        u32_of_lt _ (by simp only [Nat.reducePow]; omega)
      simp only [c1, if_false, hu] at hr
      have c2 : ¬ (o1 + to_unsigned r < o1) := by omega
      simp only [c2, if_false] at hr
      by_cases c3 : major (rd inp oob k) = 2
      · simp only [c3, if_true, Prod.mk.injEq] at hr
        obtain ⟨e1, e2⟩ := hr
        subst e1 e2
        exact ⟨by omega, by simp, fun _ _ => by omega⟩
      · simp only [c3, if_false, Prod.mk.injEq] at hr
        obtain ⟨e1, e2⟩ := hr
        subst e1 e2
        exact ⟨by omega, by simp, fun _ _ => by omega⟩
    | thrown e =>
      simp only [Prod.mk.injEq] at hr
      obtain ⟨e1, e2⟩ := hr
      subst e1 e2
      exact ⟨by omega, by simp, by simp⟩
    | no_fuel => exact absurd rfl hnf
  simp only [h0, h1, h23, if_false, Prod.mk.injEq] at hr
  obtain ⟨e1, e2⟩ := hr
  subst e1 e2
  exact ⟨le_refl _, by simp, by simp⟩

theorem array_loop_advances (dec : Nat → outcome cbor_variant × Nat) (M : Nat)
    (hdec : ∀ o, o ≤ (dec o).2 ∧ ∀ v, (dec o).1 = .value v → (dec o).2 ≤ M) :
    ∀ (n i : Nat) (rtn : List cbor_variant) (o : Nat), o ≤ M →
      o ≤ (array_loop dec n i rtn o).2 ∧
      (∀ res, (array_loop dec n i rtn o).1 = .value res → (array_loop dec n i rtn o).2 ≤ M)
  | 0, _, _, o, h => by
    rw [array_loop]
    exact ⟨le_refl _, fun _ _ => h⟩
  | n + 1, i, rtn, o, h => by
    rw [array_loop]
    obtain ⟨hd1, hd2⟩ := hdec o
    generalize dec o = r at hd1 hd2
    obtain ⟨out, o1⟩ := r
    cases out with
    | value v =>
      simp only at hd1 hd2 ⊢
      obtain ⟨a1, a2⟩ := array_loop_advances dec M hdec n (i + 1) (rtn.set i v) o1 (hd2 v rfl)
      exact ⟨le_trans hd1 a1, a2⟩
    | thrown e => exact ⟨hd1, by simp⟩
    | no_fuel => exact ⟨hd1, by simp⟩

theorem map_loop_advances (dec : Nat → outcome cbor_variant × Nat) (inp : List Nat)
    (oob : Nat → Nat) (hb : ∀ b ∈ inp, b < 256) (hoob : ∀ i, oob i < 256) (M : Nat)
    (hM : M + 5 + 2147483648 ≤ 4294967296)
    (hdec : ∀ o, o ≤ (dec o).2 ∧ ∀ v, (dec o).1 = .value v → (dec o).2 ≤ M) :
    ∀ (n : Nat) (rtn : List (cbor_variant × cbor_variant)) (o : Nat), o ≤ M →
      o ≤ (map_loop dec inp oob n rtn o).2 ∧
      (∀ res, (map_loop dec inp oob n rtn o).1 = .value res →
        (map_loop dec inp oob n rtn o).2 ≤ M)
  | 0, _, o, h => by
    rw [map_loop]
    exact ⟨le_refl _, fun _ _ => h⟩
  | n + 1, rtn, o, h => by
    rw [map_loop]
    generalize hk : read_key inp oob o = rk
    obtain ⟨outk, k⟩ := rk
    obtain ⟨k1, _, _⟩ := read_key_no_wrap inp oob hb hoob o (by omega) outk k hk
    cases outk with
    | value key =>
      simp only
      obtain ⟨hd1, hd2⟩ := hdec k
      generalize dec k = r at hd1 hd2
      obtain ⟨out, o1⟩ := r
      cases out with
      | value v =>
        simp only at hd1 hd2 ⊢
        obtain ⟨a1, a2⟩ := map_loop_advances dec inp oob hb hoob M hM hdec n
          (map_set rtn key v) o1 (hd2 v rfl)
        exact ⟨by omega, a2⟩
      | thrown e => exact ⟨by simp only at hd1 ⊢; omega, by simp⟩
      | no_fuel => exact ⟨by simp only at hd1 ⊢; omega, by simp⟩
    | thrown e => exact ⟨k1, by simp⟩
    | no_fuel => exact ⟨k1, by simp⟩

/-- In a buffer short enough that no cursor can wrap, every decode leaves the cursor where it
was or further; a successful decode leaves it strictly further, at most 8 bytes past the end
of the buffer. -/
theorem construct_from_advances (inp : List Nat) (oob : Nat → Nat)
    (hb : ∀ b ∈ inp, b < 256) (hoob : ∀ i, oob i < 256)
    (hL : inp.length + 16 ≤ 2147483648) :
    ∀ (fuel offset : Nat),
      offset ≤ (construct_from fuel inp oob offset).2 ∧
      (∀ v, (construct_from fuel inp oob offset).1 = .value v →
        offset < (construct_from fuel inp oob offset).2 ∧
        (construct_from fuel inp oob offset).2 ≤ inp.length + 8)
  | 0, offset => by
    rw [construct_from]
    exact ⟨le_refl _, by simp⟩
  | fuel + 1, offset => by
    have ih := construct_from_advances inp oob hb hoob hL fuel
    have ihl : ∀ o, o ≤ (construct_from fuel inp oob o).2 ∧
        ∀ v, (construct_from fuel inp oob o).1 = .value v →
          (construct_from fuel inp oob o).2 ≤ inp.length + 8 :=
      fun o => ⟨(ih o).1, fun v hv => ((ih o).2 v hv).2⟩
    rw [construct_from]
    simp only
    by_cases hs : inp.length ≤ offset
    · simp only [hs, if_true]
      exact ⟨le_refl _, by simp⟩
    simp only [hs, if_false]
    generalize hr : read_integer_header inp oob (rd inp oob offset) offset = res
    obtain ⟨out, o⟩ := res
    obtain ⟨ho, hnf, hval⟩ := read_integer_header_no_wrap inp oob hb hoob _ offset (by omega)
      out o hr
    have hil := integer_length_le (additional (rd inp oob offset))
    have hov : ∀ r, out = .value r → o ≤ inp.length := by
      intro r hr
      obtain ⟨_, _, h3⟩ := hval r hr
      rcases h3 with h3 | h3
      · exact h3
      · have : integer_length (additional (rd inp oob offset)) = 1 := by
          unfold integer_length; simp [h3]
        omega
    by_cases h0 : major (rd inp oob offset) = 0
    · simp only [h0, if_true]
      cases out with
      | value r =>
        have := hov r rfl
        exact ⟨by (try simp only); omega, fun _ _ => ⟨by (try simp only); omega, by (try simp only); omega⟩⟩
      | thrown e => exact ⟨by (try simp only); omega, by simp⟩
      | no_fuel => exact absurd rfl hnf
    by_cases h1 : major (rd inp oob offset) = 1
    · simp only [h1, if_true]
      simp only [show ¬ ((1 : Nat) = 0) by decide, if_false]
      cases out with
      | value r =>
        have := hov r rfl
        exact ⟨by (try simp only); omega, fun _ _ => ⟨by (try simp only); omega, by (try simp only); omega⟩⟩
      | thrown e => exact ⟨by (try simp only); omega, by simp⟩
      | no_fuel => exact absurd rfl hnf
    by_cases h23 : major (rd inp oob offset) = 2 ∨ major (rd inp oob offset) = 3
    · simp only [h0, h1, h23, if_true, if_false]
      cases out with
      | value r =>
        have hol := hov r rfl
        obtain ⟨r1, r2, _⟩ := hval r rfl
        simp only
        by_cases c1 : r < 0
        · simp only [c1, if_true]
          exact ⟨by omega, by simp⟩
        have hts := to_unsigned_small r (by omega) r2
        have hu : u32 (o + to_unsigned r) = o + to_unsigned r :=
          u32_of_lt _ (by simp only [Nat.reducePow]; omega)
        simp only [c1, if_false, hu]
        by_cases c2 : inp.length < o + to_unsigned r
        · simp only [c2, if_true]
          exact ⟨by omega, by simp⟩
        have c3 : ¬ (o + to_unsigned r < o) := by omega
        simp only [c2, c3, if_false]
        by_cases c4 : major (rd inp oob offset) = 2
        · simp only [c4, if_true]
          exact ⟨by omega, fun _ _ => ⟨by omega, by omega⟩⟩
        · simp only [c4, if_false]
          exact ⟨by omega, fun _ _ => ⟨by omega, by omega⟩⟩
      | thrown e => exact ⟨by (try simp only); omega, by simp⟩
      | no_fuel => exact absurd rfl hnf
    by_cases h4 : major (rd inp oob offset) = 4
    · simp only [h4, if_true]
      simp only [show ¬ ((4 : Nat) = 0) by decide, show ¬ ((4 : Nat) = 1) by decide,
        show ¬ ((4 : Nat) = 2 ∨ (4 : Nat) = 3) by decide, if_false]
      cases out with
      | value r =>
        have hol := hov r rfl
        simp only
        obtain ⟨a1, a2⟩ := array_loop_advances (construct_from fuel inp oob) (inp.length + 8) ihl
          (to_unsigned r) 0 (List.replicate (to_unsigned r) (.integer 0)) o (by omega)
        generalize array_loop (construct_from fuel inp oob) (to_unsigned r) 0
          (List.replicate (to_unsigned r) (.integer 0)) o = res2 at a1 a2
        obtain ⟨out2, o2⟩ := res2
        cases out2 with
        | value rtn =>
          have := a2 rtn rfl
          simp only at a1 this
          exact ⟨by (try simp only); omega, fun _ _ => ⟨by (try simp only); omega, by (try simp only); omega⟩⟩
        | thrown e => exact ⟨by (try simp only at a1 ⊢); omega, by simp⟩
        | no_fuel => exact ⟨by (try simp only at a1 ⊢); omega, by simp⟩
      | thrown e => exact ⟨by (try simp only); omega, by simp⟩
      | no_fuel => exact absurd rfl hnf
    by_cases h5 : major (rd inp oob offset) = 5
    · simp only [h5, if_true]
      simp only [show ¬ ((5 : Nat) = 0) by decide, show ¬ ((5 : Nat) = 1) by decide,
        show ¬ ((5 : Nat) = 2 ∨ (5 : Nat) = 3) by decide, show ¬ ((5 : Nat) = 4) by decide,
        if_false]
      cases out with
      | value r =>
        have hol := hov r rfl
        simp only
        obtain ⟨a1, a2⟩ := map_loop_advances (construct_from fuel inp oob) inp oob hb hoob
          (inp.length + 8) (by omega) ihl r.toNat [] o (by omega)
        generalize map_loop (construct_from fuel inp oob) inp oob r.toNat [] o = res2 at a1 a2
        obtain ⟨out2, o2⟩ := res2
        cases out2 with
        | value rtn =>
          have := a2 rtn rfl
          simp only at a1 this
          exact ⟨by (try simp only); omega, fun _ _ => ⟨by (try simp only); omega, by (try simp only); omega⟩⟩
        | thrown e => exact ⟨by (try simp only at a1 ⊢); omega, by simp⟩
        | no_fuel => exact ⟨by (try simp only at a1 ⊢); omega, by simp⟩
      | thrown e => exact ⟨by (try simp only); omega, by simp⟩
      | no_fuel => exact absurd rfl hnf
    by_cases h6 : major (rd inp oob offset) = 6
    · simp only [h6, if_true]
      simp only [show ¬ ((6 : Nat) = 0) by decide, show ¬ ((6 : Nat) = 1) by decide,
        show ¬ ((6 : Nat) = 2 ∨ (6 : Nat) = 3) by decide, show ¬ ((6 : Nat) = 4) by decide,
        show ¬ ((6 : Nat) = 5) by decide, if_false]
      cases out with
      | value r =>
        simp only
        obtain ⟨a1, a2⟩ := ih o
        refine ⟨by omega, fun v hv => ?_⟩
        obtain ⟨b1, b2⟩ := a2 v hv
        exact ⟨by omega, b2⟩
      | thrown e => exact ⟨by (try simp only); omega, by simp⟩
      | no_fuel => exact absurd rfl hnf
    by_cases h7 : major (rd inp oob offset) = 7
    · simp only [h7, if_true]
      simp only [show ¬ ((7 : Nat) = 0) by decide, show ¬ ((7 : Nat) = 1) by decide,
        show ¬ ((7 : Nat) = 2 ∨ (7 : Nat) = 3) by decide, show ¬ ((7 : Nat) = 4) by decide,
        show ¬ ((7 : Nat) = 5) by decide, show ¬ ((7 : Nat) = 6) by decide, if_false]
      have hu5 : u32 (offset + 5) = offset + 5 := u32_of_lt _ (by simp only [Nat.reducePow]; omega)
      have hu9 : u32 (offset + 9) = offset + 9 := u32_of_lt _ (by simp only [Nat.reducePow]; omega)
      have hu1 : u32 (offset + 1) = offset + 1 := u32_of_lt _ (by simp only [Nat.reducePow]; omega)
      by_cases a26 : additional (rd inp oob offset) = 26
      · simp only [a26, if_true, hu5]
        exact ⟨by omega, fun _ _ => ⟨by omega, by omega⟩⟩
      by_cases a27 : additional (rd inp oob offset) = 27
      · simp only [a27, if_true, hu9]
        simp only [show ¬ ((27 : Nat) = 26) by decide, if_false]
        exact ⟨by omega, fun _ _ => ⟨by omega, by omega⟩⟩
      by_cases a22 : additional (rd inp oob offset) = 22
      · simp only [a22, if_true, hu1]
        simp only [show ¬ ((22 : Nat) = 26) by decide, show ¬ ((22 : Nat) = 27) by decide,
          if_false]
        exact ⟨by omega, fun _ _ => ⟨by omega, by omega⟩⟩
      simp only [a26, a27, a22, if_false]
      exact ⟨le_refl _, by simp⟩
    simp only [h0, h1, h23, h4, h5, h6, h7, if_false]
    exact ⟨le_refl _, by simp⟩

/-- C19 (as stated, refuted). In a buffer of `2 ^ 32` bytes whose last byte is `0a`, the decode
that starts at the last byte succeeds and leaves the cursor at 0, below where it started: the
cursor is an `unsigned int`. -/
theorem cursor_moves_back :
    construct_from 1 (List.replicate (2 ^ 32 - 1) 0 ++ [10] ++ []) (fun _ => 0)
        (List.replicate (2 ^ 32 - 1) 0).length
      = (.value (.integer 10), 0) ∧
    0 < (List.replicate (2 ^ 32 - 1) 0).length := by
  refine ⟨decode_at_last_offset _ (List.length_replicate _ _) _, ?_⟩
  rw [List.length_replicate]
  norm_num

/-- C19 (amended). Cursor monotonicity: for every buffer of at most `2 ^ 31 - 16` bytes and
every starting cursor `c`, the cursor after a decode call is never smaller than `c`, whatever
the outcome, and after a successful decode it is strictly greater than `c`. -/
theorem cursor_monotone (inp : List Nat) (oob : Nat → Nat)
    (hb : ∀ b ∈ inp, b < 256) (hoob : ∀ i, oob i < 256)
    (hL : inp.length + 16 ≤ 2 ^ 31) (fuel c : Nat) :
    c ≤ (construct_from fuel inp oob c).2 ∧
    (∀ v, (construct_from fuel inp oob c).1 = .value v →
      c < (construct_from fuel inp oob c).2) := by
  obtain ⟨h1, h2⟩ := construct_from_advances inp oob hb hoob (by simpa using hL) fuel c
  exact ⟨h1, fun v hv => (h2 v hv).1⟩

/-- Witness for C19: decoding `0a` at cursor 0. -/
theorem cursor_monotone_witness :
    0 ≤ (construct_from 1 [0x0a] (fun _ => 0) 0).2 ∧
    (∀ v, (construct_from 1 [0x0a] (fun _ => 0) 0).1 = .value v →
      0 < (construct_from 1 [0x0a] (fun _ => 0) 0).2) :=
  cursor_monotone [0x0a] (fun _ => 0) (by decide) (fun _ => by simp) (by decide) 1 0

/-! ### Termination -/

theorem array_loop_total (dec : Nat → outcome cbor_variant × Nat) (m : Nat)
    (hmono : ∀ o, o ≤ (dec o).2) (htot : ∀ o, m ≤ o → (dec o).1 ≠ .no_fuel) :
    ∀ (n i : Nat) (rtn : List cbor_variant) (o : Nat), m ≤ o →
      (array_loop dec n i rtn o).1 ≠ .no_fuel
  | 0, _, _, o, _ => by
    rw [array_loop]
    simp
  | n + 1, i, rtn, o, h => by
    rw [array_loop]
    have h1 := hmono o
    have h2 := htot o h
    generalize dec o = r at h1 h2
    obtain ⟨out, o1⟩ := r
    cases out with
    | value v =>
      simp only at h1 ⊢
      exact array_loop_total dec m hmono htot n (i + 1) (rtn.set i v) o1 (by omega)
    | thrown e => simp
    | no_fuel => exact absurd rfl h2

theorem map_loop_total (dec : Nat → outcome cbor_variant × Nat) (inp : List Nat)
    (oob : Nat → Nat) (hb : ∀ b ∈ inp, b < 256) (hoob : ∀ i, oob i < 256) (M : Nat)
    (hM : M + 5 + 2147483648 ≤ 4294967296)
    (hdec : ∀ o, o ≤ (dec o).2 ∧ ∀ v, (dec o).1 = .value v → (dec o).2 ≤ M)
    (m : Nat) (htot : ∀ o, m ≤ o → (dec o).1 ≠ .no_fuel) :
    ∀ (n : Nat) (rtn : List (cbor_variant × cbor_variant)) (o : Nat), m ≤ o → o ≤ M →
      (map_loop dec inp oob n rtn o).1 ≠ .no_fuel
  | 0, _, o, _, _ => by
    rw [map_loop]
    simp
  | n + 1, rtn, o, h, hoM => by
    rw [map_loop]
    generalize hk : read_key inp oob o = rk
    obtain ⟨outk, k⟩ := rk
    obtain ⟨k1, k2, _⟩ := read_key_no_wrap inp oob hb hoob o (by omega) outk k hk
    cases outk with
    | value key =>
      simp only
      obtain ⟨hd1, hd2⟩ := hdec k
      have h2 := htot k (by omega)
      generalize dec k = r at hd1 hd2 h2
      obtain ⟨out, o1⟩ := r
      cases out with
      | value v =>
        simp only at hd1 hd2 ⊢
        exact map_loop_total dec inp oob hb hoob M hM hdec m htot n (map_set rtn key v) o1
          (by omega) (hd2 v rfl)
      | thrown e => simp
      | no_fuel => exact absurd rfl h2
    | thrown e => simp
    | no_fuel => exact absurd rfl k2

/-- In a buffer short enough that no cursor can wrap, a decode that starts at `offset` with
more fuel than there are bytes from `offset` to the end does not run out of fuel. -/
theorem construct_from_total (inp : List Nat) (oob : Nat → Nat)
    (hb : ∀ b ∈ inp, b < 256) (hoob : ∀ i, oob i < 256)
    (hL : inp.length + 16 ≤ 2147483648) :
    ∀ (fuel offset : Nat), inp.length + 1 ≤ offset + fuel → 1 ≤ fuel →
      (construct_from fuel inp oob offset).1 ≠ .no_fuel
  | 0, _, _, h => by omega
  | fuel + 1, offset, hf, _ => by
    have ih := construct_from_total inp oob hb hoob hL fuel
    have adv := construct_from_advances inp oob hb hoob hL fuel
    have ihl : ∀ o, o ≤ (construct_from fuel inp oob o).2 ∧
        ∀ v, (construct_from fuel inp oob o).1 = .value v →
          (construct_from fuel inp oob o).2 ≤ inp.length + 8 :=
      fun o => ⟨(adv o).1, fun v hv => ((adv o).2 v hv).2⟩
    rw [construct_from]
    simp only
    by_cases hs : inp.length ≤ offset
    · simp only [hs, if_true]
      simp
    simp only [hs, if_false]
    have htot : ∀ o, offset + 1 ≤ o → (construct_from fuel inp oob o).1 ≠ .no_fuel :=
      fun o h => ih o (by omega) (by omega)
    generalize hr : read_integer_header inp oob (rd inp oob offset) offset = res
    obtain ⟨out, o⟩ := res
    obtain ⟨ho, hnf, hval⟩ := read_integer_header_no_wrap inp oob hb hoob _ offset (by omega)
      out o hr
    have hil := integer_length_le (additional (rd inp oob offset))
    have hov : ∀ r, out = .value r → o ≤ inp.length := by
      intro r hr
      obtain ⟨_, _, h3⟩ := hval r hr
      rcases h3 with h3 | h3
      · exact h3
      · have : integer_length (additional (rd inp oob offset)) = 1 := by
          unfold integer_length; simp [h3]
        omega
    by_cases h0 : major (rd inp oob offset) = 0
    · simp only [h0, if_true]
      cases out with
      | value r => simp
      | thrown e => simp
      | no_fuel => exact absurd rfl hnf
    by_cases h1 : major (rd inp oob offset) = 1
    · simp only [h1, if_true]
      simp only [show ¬ ((1 : Nat) = 0) by decide, if_false]
      cases out with
      | value r => simp
      | thrown e => simp
      | no_fuel => exact absurd rfl hnf
    by_cases h23 : major (rd inp oob offset) = 2 ∨ major (rd inp oob offset) = 3
    · simp only [h0, h1, h23, if_true, if_false]
      cases out with
      | value r =>
        simp only
        split_ifs <;> simp
      | thrown e => simp
      | no_fuel => exact absurd rfl hnf
    by_cases h4 : major (rd inp oob offset) = 4
    · simp only [h4, if_true]
      simp only [show ¬ ((4 : Nat) = 0) by decide, show ¬ ((4 : Nat) = 1) by decide,
        show ¬ ((4 : Nat) = 2 ∨ (4 : Nat) = 3) by decide, if_false]
      cases out with
      | value r =>
        simp only
        have a := array_loop_total (construct_from fuel inp oob) (offset + 1)
          (fun o => (adv o).1) htot
          (to_unsigned r) 0 (List.replicate (to_unsigned r) (.integer 0)) o (by omega)
        generalize array_loop (construct_from fuel inp oob) (to_unsigned r) 0
          (List.replicate (to_unsigned r) (.integer 0)) o = res2 at a
        obtain ⟨out2, o2⟩ := res2
        cases out2 with
        | value rtn => simp
        | thrown e => simp
        | no_fuel => exact absurd rfl a
      | thrown e => simp
      | no_fuel => exact absurd rfl hnf
    by_cases h5 : major (rd inp oob offset) = 5
    · simp only [h5, if_true]
      simp only [show ¬ ((5 : Nat) = 0) by decide, show ¬ ((5 : Nat) = 1) by decide,
        show ¬ ((5 : Nat) = 2 ∨ (5 : Nat) = 3) by decide, show ¬ ((5 : Nat) = 4) by decide,
        if_false]
      cases out with
      | value r =>
        have hol := hov r rfl
        simp only
        have a := map_loop_total (construct_from fuel inp oob) inp oob hb hoob
          (inp.length + 8) (by omega) ihl (offset + 1) htot r.toNat [] o (by omega) (by omega)
        generalize map_loop (construct_from fuel inp oob) inp oob r.toNat [] o = res2 at a
        obtain ⟨out2, o2⟩ := res2
        cases out2 with
        | value rtn => simp
        | thrown e => simp
        | no_fuel => exact absurd rfl a
      | thrown e => simp
      | no_fuel => exact absurd rfl hnf
    by_cases h6 : major (rd inp oob offset) = 6
    · simp only [h6, if_true]
      simp only [show ¬ ((6 : Nat) = 0) by decide, show ¬ ((6 : Nat) = 1) by decide,
        show ¬ ((6 : Nat) = 2 ∨ (6 : Nat) = 3) by decide, show ¬ ((6 : Nat) = 4) by decide,
        show ¬ ((6 : Nat) = 5) by decide, if_false]
      cases out with
      | value r =>
        simp only
        exact htot o (by omega)
      | thrown e => simp
      | no_fuel => exact absurd rfl hnf
    by_cases h7 : major (rd inp oob offset) = 7
    · simp only [h7, if_true]
      simp only [show ¬ ((7 : Nat) = 0) by decide, show ¬ ((7 : Nat) = 1) by decide,
        show ¬ ((7 : Nat) = 2 ∨ (7 : Nat) = 3) by decide, show ¬ ((7 : Nat) = 4) by decide,
        show ¬ ((7 : Nat) = 5) by decide, show ¬ ((7 : Nat) = 6) by decide, if_false]
      split_ifs <;> simp
    simp only [h0, h1, h23, h4, h5, h6, h7, if_false]
    simp

/-! ### More fuel does not change a result -/

theorem array_loop_congr (dec1 dec2 : Nat → outcome cbor_variant × Nat)
    (h : ∀ o, (dec1 o).1 ≠ .no_fuel → dec2 o = dec1 o) :
    ∀ (n i : Nat) (rtn : List cbor_variant) (o : Nat),
      (array_loop dec1 n i rtn o).1 ≠ .no_fuel →
      array_loop dec2 n i rtn o = array_loop dec1 n i rtn o
  | 0, _, _, _, _ => by
    rw [array_loop, array_loop]
  | n + 1, i, rtn, o, hne => by
    have hd := h o
    rw [array_loop] at hne
    conv_lhs => rw [array_loop]
    conv_rhs => rw [array_loop]
    generalize dec1 o = r at hd hne ⊢
    obtain ⟨out, o1⟩ := r
    cases out with
    | value v =>
      rw [hd (by simp)]
      exact array_loop_congr dec1 dec2 h n (i + 1) (rtn.set i v) o1 hne
    | thrown e => rw [hd (by simp)]
    | no_fuel => exact absurd rfl hne

theorem map_loop_congr (dec1 dec2 : Nat → outcome cbor_variant × Nat) (inp : List Nat)
    (oob : Nat → Nat) (h : ∀ o, (dec1 o).1 ≠ .no_fuel → dec2 o = dec1 o) :
    ∀ (n : Nat) (rtn : List (cbor_variant × cbor_variant)) (o : Nat),
      (map_loop dec1 inp oob n rtn o).1 ≠ .no_fuel →
      map_loop dec2 inp oob n rtn o = map_loop dec1 inp oob n rtn o
  | 0, _, _, _ => by
    rw [map_loop, map_loop]
  | n + 1, rtn, o, hne => by
    rw [map_loop] at hne
    conv_lhs => rw [map_loop]
    conv_rhs => rw [map_loop]
    generalize read_key inp oob o = rk at hne ⊢
    obtain ⟨outk, k⟩ := rk
    cases outk with
    | value key =>
      simp only at hne ⊢
      have hd := h k
      generalize dec1 k = r at hd hne ⊢
      obtain ⟨out, o1⟩ := r
      cases out with
      | value v =>
        rw [hd (by simp)]
        exact map_loop_congr dec1 dec2 inp oob h n (map_set rtn key v) o1 hne
      | thrown e => rw [hd (by simp)]
      | no_fuel => exact absurd rfl hne
    | thrown e => rfl
    | no_fuel => rfl

/-- A decode that did not run out of fuel gives the same result with one more unit of fuel. -/
theorem construct_from_stable (inp : List Nat) (oob : Nat → Nat) :
    ∀ (fuel offset : Nat), (construct_from fuel inp oob offset).1 ≠ .no_fuel →
      construct_from (fuel + 1) inp oob offset = construct_from fuel inp oob offset
  | 0, offset, h => by
    rw [construct_from] at h
    exact absurd rfl h
  | fuel + 1, offset, h => by
    have ih := construct_from_stable inp oob fuel
    rw [construct_from] at h
    conv_lhs => rw [construct_from]
    conv_rhs => rw [construct_from]
    simp only at h ⊢
    by_cases hs : inp.length ≤ offset
    · simp only [hs, if_true]
    simp only [hs, if_false] at h ⊢
    generalize read_integer_header inp oob (rd inp oob offset) offset = res at h ⊢
    obtain ⟨out, o⟩ := res
    by_cases h0 : major (rd inp oob offset) = 0
    · simp only [h0, if_true]
    by_cases h1 : major (rd inp oob offset) = 1
    · simp only [h1, if_true]
    by_cases h23 : major (rd inp oob offset) = 2 ∨ major (rd inp oob offset) = 3
    · simp only [h23, if_true]
    by_cases h4 : major (rd inp oob offset) = 4
    · simp only [h4, if_true] at h ⊢
      simp only [show ¬ ((4 : Nat) = 0) by decide, show ¬ ((4 : Nat) = 1) by decide,
        show ¬ ((4 : Nat) = 2 ∨ (4 : Nat) = 3) by decide, if_false] at h ⊢
      cases out with
      | value r =>
        simp only at h ⊢
        have a := array_loop_congr (construct_from fuel inp oob)
          (construct_from (fuel + 1) inp oob) ih
          (to_unsigned r) 0 (List.replicate (to_unsigned r) (.integer 0)) o
        generalize array_loop (construct_from fuel inp oob) (to_unsigned r) 0
          (List.replicate (to_unsigned r) (.integer 0)) o = res2 at a h ⊢
        obtain ⟨out2, o2⟩ := res2
        cases out2 with
        | value rtn => rw [a (by simp)]
        | thrown e => rw [a (by simp)]
        | no_fuel => exact absurd rfl h
      | thrown e => rfl
      | no_fuel => rfl
    by_cases h5 : major (rd inp oob offset) = 5
    · simp only [h5, if_true] at h ⊢
      simp only [show ¬ ((5 : Nat) = 0) by decide, show ¬ ((5 : Nat) = 1) by decide,
        show ¬ ((5 : Nat) = 2 ∨ (5 : Nat) = 3) by decide, show ¬ ((5 : Nat) = 4) by decide,
        if_false] at h ⊢
      cases out with
      | value r =>
        simp only at h ⊢
        have a := map_loop_congr (construct_from fuel inp oob)
          (construct_from (fuel + 1) inp oob) inp oob ih r.toNat [] o
        generalize map_loop (construct_from fuel inp oob) inp oob r.toNat [] o = res2 at a h ⊢
        obtain ⟨out2, o2⟩ := res2
        cases out2 with
        | value rtn => rw [a (by simp)]
        | thrown e => rw [a (by simp)]
        | no_fuel => exact absurd rfl h
      | thrown e => rfl
      | no_fuel => rfl
    by_cases h6 : major (rd inp oob offset) = 6
    · simp only [h6, if_true] at h ⊢
      simp only [show ¬ ((6 : Nat) = 0) by decide, show ¬ ((6 : Nat) = 1) by decide,
        show ¬ ((6 : Nat) = 2 ∨ (6 : Nat) = 3) by decide, show ¬ ((6 : Nat) = 4) by decide,
        show ¬ ((6 : Nat) = 5) by decide, if_false] at h ⊢
      cases out with
      | value r =>
        simp only at h ⊢
        exact ih o h
      | thrown e => rfl
      | no_fuel => rfl
    simp only [h0, h1, h23, h4, h5, h6, if_false]

theorem construct_from_stable_add (inp : List Nat) (oob : Nat → Nat) (fuel offset : Nat)
    (h : (construct_from fuel inp oob offset).1 ≠ .no_fuel) :
    ∀ (more : Nat), construct_from (fuel + more) inp oob offset
      = construct_from fuel inp oob offset
  | 0 => rfl
  | more + 1 => by
    have ih := construct_from_stable_add inp oob fuel offset h more
    rw [← Nat.add_assoc, construct_from_stable inp oob (fuel + more) offset (by rw [ih]; exact h),
      ih]

theorem array_loop_congr_above (dec1 dec2 : Nat → outcome cbor_variant × Nat) (m : Nat)
    (hmono : ∀ o, o ≤ (dec1 o).2) (heq : ∀ o, m ≤ o → dec2 o = dec1 o) :
    ∀ (n i : Nat) (rtn : List cbor_variant) (o : Nat), m ≤ o →
      array_loop dec2 n i rtn o = array_loop dec1 n i rtn o
  | 0, _, _, _, _ => by
    rw [array_loop, array_loop]
  | n + 1, i, rtn, o, h => by
    conv_lhs => rw [array_loop]
    conv_rhs => rw [array_loop]
    rw [heq o h]
    have h1 := hmono o
    generalize dec1 o = r at h1 ⊢
    obtain ⟨out, o1⟩ := r
    cases out with
    | value v =>
      exact array_loop_congr_above dec1 dec2 m hmono heq n (i + 1) (rtn.set i v) o1
        (le_trans h h1)
    | thrown e => rfl
    | no_fuel => rfl

theorem map_loop_congr_above (dec1 dec2 : Nat → outcome cbor_variant × Nat) (inp : List Nat)
    (oob : Nat → Nat) (hb : ∀ b ∈ inp, b < 256) (hoob : ∀ i, oob i < 256) (M : Nat)
    (hM : M + 5 + 2147483648 ≤ 4294967296)
    (hdec : ∀ o, o ≤ (dec1 o).2 ∧ ∀ v, (dec1 o).1 = .value v → (dec1 o).2 ≤ M)
    (m : Nat) (heq : ∀ o, m ≤ o → dec2 o = dec1 o) :
    ∀ (n : Nat) (rtn : List (cbor_variant × cbor_variant)) (o : Nat), m ≤ o → o ≤ M →
      map_loop dec2 inp oob n rtn o = map_loop dec1 inp oob n rtn o
  | 0, _, _, _, _ => by
    rw [map_loop, map_loop]
  | n + 1, rtn, o, h, hoM => by
    conv_lhs => rw [map_loop]
    conv_rhs => rw [map_loop]
    generalize hk : read_key inp oob o = rk
    obtain ⟨outk, k⟩ := rk
    obtain ⟨k1, _, _⟩ := read_key_no_wrap inp oob hb hoob o (by omega) outk k hk
    cases outk with
    | value key =>
      simp only
      rw [heq k (by omega)]
      obtain ⟨hd1, hd2⟩ := hdec k
      generalize dec1 k = r at hd1 hd2 ⊢
      obtain ⟨out, o1⟩ := r
      cases out with
      | value v =>
        simp only at hd1 hd2 ⊢
        exact map_loop_congr_above dec1 dec2 inp oob hb hoob M hM hdec m heq n
          (map_set rtn key v) o1 (by omega) (hd2 v rfl)
      | thrown e => rfl
      | no_fuel => rfl
    | thrown e => rfl
    | no_fuel => rfl

/-- In a buffer short enough that no cursor can wrap, the decode at `offset` depends on the
recursive decodes only through those made at cursors strictly above `offset`. -/
theorem construct_from_local (inp : List Nat) (oob : Nat → Nat)
    (hb : ∀ b ∈ inp, b < 256) (hoob : ∀ i, oob i < 256)
    (hL : inp.length + 16 ≤ 2147483648) (offset f g : Nat)
    (heq : ∀ o, offset < o → construct_from g inp oob o = construct_from f inp oob o) :
    construct_from (g + 1) inp oob offset = construct_from (f + 1) inp oob offset := by
  have adv := construct_from_advances inp oob hb hoob hL f
  have ihl : ∀ o, o ≤ (construct_from f inp oob o).2 ∧
      ∀ v, (construct_from f inp oob o).1 = .value v →
        (construct_from f inp oob o).2 ≤ inp.length + 8 :=
    fun o => ⟨(adv o).1, fun v hv => ((adv o).2 v hv).2⟩
  conv_lhs => rw [construct_from]
  conv_rhs => rw [construct_from]
  simp only
  by_cases hs : inp.length ≤ offset
  · simp only [hs, if_true]
  simp only [hs, if_false]
  generalize hr : read_integer_header inp oob (rd inp oob offset) offset = res
  obtain ⟨out, o⟩ := res
  obtain ⟨ho, hnf, hval⟩ := read_integer_header_no_wrap inp oob hb hoob _ offset (by omega)
    out o hr
  have hil := integer_length_le (additional (rd inp oob offset))
  have hov : ∀ r, out = .value r → o ≤ inp.length := by
    intro r hr
    obtain ⟨_, _, h3⟩ := hval r hr
    rcases h3 with h3 | h3
    · exact h3
    · have : integer_length (additional (rd inp oob offset)) = 1 := by
        unfold integer_length; simp [h3]
      omega
  by_cases h0 : major (rd inp oob offset) = 0
  · simp only [h0, if_true]
  by_cases h1 : major (rd inp oob offset) = 1
  · simp only [h1, if_true]
  by_cases h23 : major (rd inp oob offset) = 2 ∨ major (rd inp oob offset) = 3
  · simp only [h23, if_true]
  by_cases h4 : major (rd inp oob offset) = 4
  · simp only [h4, if_true]
    simp only [show ¬ ((4 : Nat) = 0) by decide, show ¬ ((4 : Nat) = 1) by decide,
      show ¬ ((4 : Nat) = 2 ∨ (4 : Nat) = 3) by decide, if_false]
    cases out with
    | value r =>
      simp only
      rw [array_loop_congr_above (construct_from f inp oob) (construct_from g inp oob)
        (offset + 1) (fun o => (adv o).1) (fun o h => heq o (by omega))
        (to_unsigned r) 0 (List.replicate (to_unsigned r) (.integer 0)) o (by omega)]
    | thrown e => rfl
    | no_fuel => rfl
  by_cases h5 : major (rd inp oob offset) = 5
  · simp only [h5, if_true]
    simp only [show ¬ ((5 : Nat) = 0) by decide, show ¬ ((5 : Nat) = 1) by decide,
      show ¬ ((5 : Nat) = 2 ∨ (5 : Nat) = 3) by decide, show ¬ ((5 : Nat) = 4) by decide,
      if_false]
    cases out with
    | value r =>
      have hol := hov r rfl
      simp only
      rw [map_loop_congr_above (construct_from f inp oob) (construct_from g inp oob) inp oob
        hb hoob (inp.length + 8) (by omega) ihl (offset + 1) (fun o h => heq o (by omega))
        r.toNat [] o (by omega) (by omega)]
    | thrown e => rfl
    | no_fuel => rfl
  by_cases h6 : major (rd inp oob offset) = 6
  · simp only [h6, if_true]
    simp only [show ¬ ((6 : Nat) = 0) by decide, show ¬ ((6 : Nat) = 1) by decide,
      show ¬ ((6 : Nat) = 2 ∨ (6 : Nat) = 3) by decide, show ¬ ((6 : Nat) = 4) by decide,
      show ¬ ((6 : Nat) = 5) by decide, if_false]
    cases out with
    | value r =>
      simp only
      exact heq o (by omega)
    | thrown e => rfl
    | no_fuel => rfl
  simp only [h0, h1, h23, h4, h5, h6, if_false]

/-- With a depth allowance above the number of bytes, the decode of a buffer of at most
`2 ^ 31 - 16` bytes does not stop for want of depth: it gives a value or an error, and a larger
allowance gives the same result.  The decode at a cursor depends on its recursive calls only
through those made at strictly larger cursors, the loops over array items and map pairs being
bounded by their counts.  The depth that is needed can be as large as the number of bytes plus
one, on a chain of tags. -/
theorem construct_from_enough_depth (inp : List Nat) (oob : Nat → Nat)
    (hb : ∀ b ∈ inp, b < 256) (hoob : ∀ i, oob i < 256)
    (hL : inp.length + 16 ≤ 2 ^ 31) (offset fuel : Nat) (hfuel : inp.length < fuel) :
    ((∃ v, (construct_from fuel inp oob offset).1 = .value v) ∨
      (∃ e, (construct_from fuel inp oob offset).1 = .thrown e)) ∧
    (∀ more, construct_from (fuel + more) inp oob offset
      = construct_from fuel inp oob offset) ∧
    (∀ f g, (∀ o, offset < o → construct_from g inp oob o = construct_from f inp oob o) →
      construct_from (g + 1) inp oob offset = construct_from (f + 1) inp oob offset) := by
  have hne := construct_from_total inp oob hb hoob (by simpa using hL) fuel offset (by omega)
    (by omega)
  refine ⟨?_, construct_from_stable_add inp oob fuel offset hne,
    fun f g heq => construct_from_local inp oob hb hoob (by simpa using hL) offset f g heq⟩
  generalize construct_from fuel inp oob offset = res at hne
  obtain ⟨out, c⟩ := res
  cases out with
  | value v => exact Or.inl ⟨v, rfl⟩
  | thrown e => exact Or.inr ⟨e, rfl⟩
  | no_fuel => exact absurd rfl hne

/-- The array `81 c0 0a`, one tagged integer, decoded with a depth allowance of 4. -/
theorem construct_from_enough_depth_example :
    ((∃ v, (construct_from 4 [0x81, 0xc0, 0x0a] (fun _ => 0) 0).1 = .value v) ∨
      (∃ e, (construct_from 4 [0x81, 0xc0, 0x0a] (fun _ => 0) 0).1 = .thrown e)) ∧
    (∀ more, construct_from (4 + more) [0x81, 0xc0, 0x0a] (fun _ => 0) 0
      = construct_from 4 [0x81, 0xc0, 0x0a] (fun _ => 0) 0) ∧
    (∀ f g, (∀ o, 0 < o → construct_from g [0x81, 0xc0, 0x0a] (fun _ => 0) o
        = construct_from f [0x81, 0xc0, 0x0a] (fun _ => 0) o) →
      construct_from (g + 1) [0x81, 0xc0, 0x0a] (fun _ => 0) 0
        = construct_from (f + 1) [0x81, 0xc0, 0x0a] (fun _ => 0) 0) :=
  construct_from_enough_depth [0x81, 0xc0, 0x0a] (fun _ => 0) (by decide) (fun _ => by simp) (by decide)
    0 4 (by decide)

/-! ### Recursion depth on a chain of tags -/

end cppbor
